import Mathlib

/-!
# Verification of the `quick-avl` AVL tree implementation

This file gives a shallow embedding of the `quick-avl` TypeScript library
(an AVL tree acting as a key-value map) and proves the specification
claims about it.

Two embeddings are used, at the two granularities the code itself works at:

* A *functional tree model* (`QAvl.PTree`) for the `AvlTree` class
  operations (`insert`, `delete`, `get`, `at`, iteration, `clear`, ...).
  Node records carry the stored `balanceFactor` and the stored parent
  back-reference.  Parent back-references (object references in the
  source) are modelled by the parent's key (`parentKey`), which under the
  back-link invariant identifies the parent node uniquely.  The source's
  upward rebalancing loops (`rebalanceAfterInsertion`,
  `rebalanceAfterDeletion`), which walk parent pointers from the mutation
  point towards the root, are translated as structural recursion along the
  same path: the recursive call returns a `grew`/`shrunk` flag that is
  `false` exactly when the source loop has executed `break`, so ancestors
  above that point apply no further updates, exactly as in the source.

* A *pointer-heap model* (`QAvl.Heap`, nodes addressed by `Nat` ids) for
  the structural link primitives of `avl-tree-utils.ts`
  (`rotateLeft`, `rotateRight`, `replaceChild`,
  `disconnectChildNodeFromParent`, `replaceNode`), translated statement by
  statement with every field write performed as a read-modify-write on the
  current heap, so aliasing behaves exactly as in JavaScript.  A thrown
  `Error` is modelled as `none`.
-/

namespace QAvl

/-- The comparison-function type injected at construction time
(`CompareFunction<K> = (left, right) => number`). -/
abbrev Cmp (K : Type) := K → K → Int

/-- The default comparison function of the source
(`defaultCompareFunction`): `-1` if `a < b`, `1` if `a > b`, else `0`. -/
def defaultCompareFunction (a b : Int) : Int :=
  if a < b then -1 else if a > b then 1 else 0

/-- Lawfulness of an injected comparison function, per the spec: it must
describe a total order (`cmp(a,b) < 0` iff `a < b`; antisymmetric and
transitive).  These are exactly the facts the ordering proofs use. -/
structure LawfulCmp {K : Type} (cmp : Cmp K) : Prop where
  refl : ∀ a, cmp a a = 0
  ltTrans : ∀ a b c, cmp a b < 0 → cmp b c < 0 → cmp a c < 0
  eqLt : ∀ a b c, cmp a b = 0 → cmp b c < 0 → cmp a c < 0
  ltEq : ∀ a b c, cmp a b < 0 → cmp b c = 0 → cmp a c < 0
  gtInv : ∀ a b, 0 < cmp a b → cmp b a < 0

theorem defaultCompareFunction_lawful : LawfulCmp defaultCompareFunction := by
  constructor <;> simp only [defaultCompareFunction] <;> omega

/-- A tree node / subtree (`AvlTreeNode<K, V>`): `key`, `value`, the
parent back-reference (modelled by the parent's key), the stored
`balanceFactor`, and the two child links (modelled as subtrees; an absent
child is `nil`). -/
inductive PTree (K V : Type) where
  | nil : PTree K V
  | node (left : PTree K V) (key : K) (value : V) (parentKey : Option K)
      (balanceFactor : Int) (right : PTree K V) : PTree K V
deriving DecidableEq, Repr

namespace PTree

variable {K V : Type}

/-- `computeHeight` from `avl-tree-utils.ts`: 0 for an absent node, else
`max(leftHeight, rightHeight) + 1`. -/
def height : PTree K V → Nat
  | nil => 0
  | node l _ _ _ _ r => max (height l) (height r) + 1

/-- The stored balance factor of the root node (0 for an empty tree). -/
def rootBF : PTree K V → Int
  | nil => 0
  | node _ _ _ _ bf _ => bf

/-- The stored parent reference of the root node. -/
def rootPK : PTree K V → Option K
  | nil => none
  | node _ _ _ pk _ _ => pk

/-- In-order traversal as a list of `(key, value)` entries. -/
def inorder : PTree K V → List (K × V)
  | nil => []
  | node l k v _ _ r => inorder l ++ (k, v) :: inorder r

/-- The keys of a tree in in-order. -/
def keys (t : PTree K V) : List K := (inorder t).map Prod.fst

/-- Number of nodes of a tree. -/
def count : PTree K V → Nat
  | nil => 0
  | node l _ _ _ _ r => count l + count r + 1

/-- Overwrite the parent back-reference of the root node (the model of a
`x.parent = y` assignment on a node `x` that is the root of subtree
`t`). -/
def setParentKey (p : Option K) : PTree K V → PTree K V
  | nil => nil
  | node l k v _ bf r => node l k v p bf r

/-- Tree-level translation of `rotateLeft` from `avl-tree-utils.ts`.
The right child becomes the new subtree top, keeping the old root's
parent reference (`replaceChild`); the new top's former left subtree
becomes the old root's right subtree and its parent reference is
repointed at the old root; the old root becomes the new top's left child.
The balance factors are updated exactly as in the source:
`root.balanceFactor -= 1`, then `-= newRoot.balanceFactor` if that was
positive; `newRoot.balanceFactor -= 1`, then `+= root.balanceFactor` if
the old root's resulting factor is negative.  The source throws when
there is no right child; that case is unreachable from the rebalancing
code under the AVL invariant (the rotation is only invoked on a subtree
whose right side is strictly taller) and is modelled as the identity.
The failure behaviour itself is verified on the pointer-heap model
(`QAvl.rotateLeft`). -/
def rotLeft : PTree K V → PTree K V
  | node l k v pk bf (node rl rk rv _ rbf rr) =>
      let bf1 := bf - 1
      let bf2 := if rbf > 0 then bf1 - rbf else bf1
      let rbf1 := rbf - 1
      let rbf2 := if bf2 < 0 then rbf1 + bf2 else rbf1
      node (node l k v (some rk) bf2 (setParentKey (some k) rl)) rk rv pk rbf2 rr
  | t => t

/-- Tree-level translation of `rotateRight` from `avl-tree-utils.ts`
(mirror image of `rotLeft`, following the source:
`root.balanceFactor += 1`, then `-= newRoot.balanceFactor` if that was
negative; `newRoot.balanceFactor += 1`, then `+= root.balanceFactor` if
the old root's resulting factor is positive). -/
def rotRight : PTree K V → PTree K V
  | node (node ll lk lv _ lbf lr) k v pk bf r =>
      let bf1 := bf + 1
      let bf2 := if lbf < 0 then bf1 - lbf else bf1
      let lbf1 := lbf + 1
      let lbf2 := if bf2 > 0 then lbf1 + bf2 else lbf1
      node ll lk lv pk lbf2 (node (setParentKey (some k) lr) k v (some lk) bf2 r)
  | t => t

end PTree

variable {K V : Type}

open PTree

/-- One step of `rebalanceAfterInsertion` at an ancestor whose balance
factor has just been adjusted: if the factor became `0`, stop (`break`);
if it is `< -1`, first rotate the left child left when it is right-heavy,
then rotate right around the ancestor, and stop; if it is `> 1`, the
mirror image; otherwise continue walking up (`true` = the subtree grew
and the next ancestor must be updated). -/
def insFix : PTree K V → PTree K V × Bool
  | .nil => (.nil, false)
  | .node l k v pk bf r =>
    if bf = 0 then (.node l k v pk bf r, false)
    else if bf < -1 then
      let l' := if rootBF l > 0 then rotLeft l else l
      (rotRight (.node l' k v pk bf r), false)
    else if bf > 1 then
      let r' := if rootBF r < 0 then rotRight r else r
      (rotLeft (.node l k v pk bf r'), false)
    else (.node l k v pk bf r, true)

variable (cmp : Cmp K)

/-- The descending phase of `insert` together with `rebalanceAfterInsertion`:
descend by `cmp`, abort with `none` on an equal key, attach the new node
(balance factor 0, parent reference = the insertion parent) at the
`nil` reached, and on the way back up apply the balance-factor update
(`-1` when the insertion came from the left, `+1` from the right) and the
rotation/stop logic of the source loop.  The `Bool` is `true` while the
loop is still walking (the subtree height grew), `false` once the source
loop has hit `break`. -/
def insertGo (k : K) (v : V) : Option K → PTree K V → Option (PTree K V × Bool)
  | pk, .nil => some (.node .nil k v pk 0 .nil, true)
  | _, .node l key val npk bf r =>
    let c := cmp k key
    if c < 0 then
      match insertGo k v (some key) l with
      | none => none
      | some (l', grew) =>
        if grew then some (insFix (.node l' key val npk (bf - 1) r))
        else some (.node l' key val npk bf r, false)
    else if c > 0 then
      match insertGo k v (some key) r with
      | none => none
      | some (r', grew) =>
        if grew then some (insFix (.node l key val npk (bf + 1) r'))
        else some (.node l key val npk bf r', false)
    else none

/-- `AvlTree<K, V>`: the tree engine state, owning the root reference and
the size counter (`_root`, `_size`).  The comparison function, a
constructor argument in the source, is passed explicitly to each
operation. -/
structure AvlTree (K V : Type) where
  root : PTree K V
  size : Int
deriving DecidableEq, Repr

/-- A freshly constructed tree: no root, size 0. -/
def AvlTree.empty : AvlTree K V := ⟨.nil, 0⟩

/-- `clear()`: drop the root reference and reset the size to 0. -/
def AvlTree.clear (_t : AvlTree K V) : AvlTree K V := ⟨.nil, 0⟩

/-- `insert(key, value)`: returns the created node (modelled by its
`(key, value)` entry) or `undefined` (`none`) when an equal key already
exists, together with the state after the call.  Mirrors the source: the
empty-tree shortcut creates the root (no parent reference, balance factor
0); otherwise descend, abort on an equal key before any mutation,
attach, bump the size, rebalance upward. -/
def AvlTree.insert (t : AvlTree K V) (k : K) (v : V) :
    Option (K × V) × AvlTree K V :=
  match t.root with
  | .nil => (some (k, v), ⟨.node .nil k v none 0 .nil, t.size + 1⟩)
  | .node l key val npk bf r =>
    match insertGo cmp k v none (.node l key val npk bf r) with
    | none => (none, t)
    | some (t', _) => (some (k, v), ⟨t', t.size + 1⟩)

/-- `getNode(key)`: descend from the root by `cmp`; go left on negative,
right on positive, stop on zero.  Returns the found node (as the subtree
rooted at it) or `none`. -/
def getNodeT (k : K) : PTree K V → Option (PTree K V)
  | .nil => none
  | .node l key v pk bf r =>
    let c := cmp k key
    if c < 0 then getNodeT k l
    else if c > 0 then getNodeT k r
    else some (.node l key v pk bf r)

/-- `get(key)`: `getNode(key)?.value` — the value of the found node, if
any.  (`getNodeT` only ever returns `node` subtrees; the `nil` case is
vacuous.) -/
def getT (k : K) (t : PTree K V) : Option V :=
  match getNodeT cmp k t with
  | none => none
  | some .nil => none
  | some (.node _ _ v _ _ _) => some v

/-- `has(key)`: `!!this.getNode(key)`. -/
def hasT (k : K) (t : PTree K V) : Bool :=
  (getNodeT cmp k t).isSome

/-- `minNode()`: walk left from the root to exhaustion (`undefined` when
the tree is empty). -/
def minNodeT : PTree K V → Option (PTree K V)
  | .nil => none
  | .node .nil key v pk bf r => some (.node .nil key v pk bf r)
  | .node (.node ll lk lv lpk lbf lr) _ _ _ _ _ =>
      minNodeT (.node ll lk lv lpk lbf lr)

/-- `maxNode()`: walk right from the root to exhaustion. -/
def maxNodeT : PTree K V → Option (PTree K V)
  | .nil => none
  | .node l key v pk bf .nil => some (.node l key v pk bf .nil)
  | .node _ _ _ _ _ (.node rl rk rv rpk rbf rr) =>
      maxNodeT (.node rl rk rv rpk rbf rr)

/-- The rotation part of one `rebalanceAfterDeletion` iteration, applied
after the balance factor of the current ancestor has been adjusted:
rotate exactly as in insertion (`< -1`: optionally pre-rotate a
right-heavy left child, then rotate right; `> 1`: the mirror image),
otherwise leave the node alone. -/
def delFix : PTree K V → PTree K V
  | .nil => .nil
  | .node l k v pk bf r =>
    if bf < -1 then
      let l' := if rootBF l > 0 then rotLeft l else l
      rotRight (.node l' k v pk bf r)
    else if bf > 1 then
      let r' := if rootBF r < 0 then rotRight r else r
      rotLeft (.node l k v pk bf r')
    else .node l k v pk bf r

/-- One full `rebalanceAfterDeletion` iteration after the balance-factor
adjustment: rotate if needed, then decide whether to keep walking
upward.  The source stops (`break`) exactly when the resulting balance
factor is `1` or `-1`; the returned `Bool` is `true` when the loop keeps
going (the subtree height shrank and the next ancestor must be
adjusted). -/
def delStep (t : PTree K V) : PTree K V × Bool :=
  let t' := delFix t
  (t', !(rootBF t' == 1 || rootBF t' == -1))

/-- Removal of the rightmost node of a (nonempty) subtree — the
predecessor extraction of `deleteNode`'s two-children case, together with
the part of the `rebalanceAfterDeletion` walk that runs inside this
subtree.  Returns the removed node's entry, the new subtree, and the
continue flag of the walk.  At the rightmost node, its left child (or
`nil`) is spliced into its slot via `replaceChild`, taking over the
removed node's parent reference. -/
def removeRightmost : PTree K V → Option (K × V × PTree K V × Bool)
  | .nil => none
  | .node l k v pk _ .nil => some (k, v, setParentKey pk l, true)
  | .node l k v pk bf (.node rl rk rv rpk rbf rr) =>
    match removeRightmost (.node rl rk rv rpk rbf rr) with
    | none => none
    | some (mk, mv, r', sh) =>
      if sh then
        let (t2, sh2) := delStep (.node l k v pk (bf - 1) r')
        some (mk, mv, t2, sh2)
      else some (mk, mv, .node l k v pk bf r', false)

/-- Mirror image of `removeRightmost`: successor extraction (leftmost
node of a subtree). -/
def removeLeftmost : PTree K V → Option (K × V × PTree K V × Bool)
  | .nil => none
  | .node .nil k v pk _ r => some (k, v, setParentKey pk r, true)
  | .node (.node ll lk lv lpk lbf lr) k v pk bf r =>
    match removeLeftmost (.node ll lk lv lpk lbf lr) with
    | none => none
    | some (mk, mv, l', sh) =>
      if sh then
        let (t2, sh2) := delStep (.node l' k v pk (bf + 1) r)
        some (mk, mv, t2, sh2)
      else some (mk, mv, .node l' k v pk bf r, false)

/-- The two-children predecessor path of `deleteNode` (`balanceFactor ≤ 0`):
extract the predecessor (rightmost of the left subtree `l`) via
`removeRightmost`, splice it into the removed node's position with the
removed node's parent reference and balance factor (`replaceNode`),
repointing both children's parent references at it, then continue the
`rebalanceAfterDeletion` walk at this level (a `+1` adjustment — the
removal came from the left side) when the left subtree shrank. -/
def delPredGen (l : PTree K V) (pk : Option K) (bf : Int) (r : PTree K V) :
    Option (PTree K V × Bool) :=
  match removeRightmost l with
  | none => none
  | some (mk, mv, l', sh) =>
    let l2 := setParentKey (some mk) l'
    let r2 := setParentKey (some mk) r
    if sh then some (delStep (.node l2 mk mv pk (bf + 1) r2))
    else some (.node l2 mk mv pk bf r2, false)

/-- The general two-children successor path of `deleteNode`
(`balanceFactor > 0`, successor not the removed node's own childless
right child): mirror image of `delPredGen`. -/
def delSuccGen (l : PTree K V) (pk : Option K) (bf : Int) (r : PTree K V) :
    Option (PTree K V × Bool) :=
  match removeLeftmost r with
  | none => none
  | some (mk, mv, r', sh) =>
    let l2 := setParentKey (some mk) l
    let r2 := setParentKey (some mk) r'
    if sh then some (delStep (.node l2 mk mv pk (bf - 1) r2))
    else some (.node l2 mk mv pk bf r2, false)

/-- The two-children successor dispatch of `deleteNode`
(`balanceFactor > 0`), split on the shape of the right subtree `r`.  The
source's special case is when the successor is the removed node's own
childless right child (`r` is a singleton): there it records
`removedNodeWasOnLeft = true`, i.e. a `+1` adjustment at the promoted
successor, translated literally (under the AVL invariant this situation
is unreachable).  All other shapes take the general successor path. -/
def delTwo (l : PTree K V) (pk : Option K) (bf : Int) :
    PTree K V → Option (PTree K V × Bool)
  | .node .nil rk rv _ _ .nil =>
      some (delStep (.node (setParentKey (some rk) l) rk rv pk (bf + 1) .nil))
  | .node (.node c ck cv cpk cbf c2) rk rv rpk rbf rr =>
      delSuccGen l pk bf (.node (.node c ck cv cpk cbf c2) rk rv rpk rbf rr)
  | .node .nil rk rv rpk rbf (.node d dk dv dpk dbf d2) =>
      delSuccGen l pk bf (.node .nil rk rv rpk rbf (.node d dk dv dpk dbf d2))
  | .nil => delSuccGen l pk bf .nil

/-- `deleteNode`'s child-count case split on the found node (children
`l` and `r`, parent reference `pk`, stored balance factor `bf`):
* no children: detach (the caller records the side and rebalances);
* one child: splice the child into the removed node's position via
  `replaceChild` (it takes over the removed node's parent reference);
* two children: predecessor path when `bf ≤ 0`, successor dispatch
  otherwise. -/
def deleteFound : PTree K V → Option K → Int → PTree K V →
    Option (PTree K V × Bool)
  | .nil, _, _, .nil => some (.nil, true)
  | .node ll lk lv lpk lbf lr, pk, _, .nil =>
      some (setParentKey pk (.node ll lk lv lpk lbf lr), true)
  | .nil, pk, _, .node rl rk rv rpk rbf rr =>
      some (setParentKey pk (.node rl rk rv rpk rbf rr), true)
  | .node ll lk lv lpk lbf lr, pk, bf, .node rl rk rv rpk rbf rr =>
    if bf ≤ 0 then
      delPredGen (.node ll lk lv lpk lbf lr) pk bf (.node rl rk rv rpk rbf rr)
    else
      delTwo (.node ll lk lv lpk lbf lr) pk bf (.node rl rk rv rpk rbf rr)

/-- `delete(key)` at the tree level: the `getNode` descent, then
`deleteNode`'s child-count case split on the found node (`deleteFound`),
then `rebalanceAfterDeletion` from the recorded start node and side (the
upward walk is the way back up the recursion; `+1` adjustment when the
removal came from an ancestor's left side, `-1` from its right).
`none` when the key is absent (descent hits an absent child). -/
def deleteGo (k : K) : PTree K V → Option (PTree K V × Bool)
  | .nil => none
  | .node l key val pk bf r =>
    let c := cmp k key
    if c < 0 then
      match deleteGo k l with
      | none => none
      | some (l', sh) =>
        if sh then some (delStep (.node l' key val pk (bf + 1) r))
        else some (.node l' key val pk bf r, false)
    else if c > 0 then
      match deleteGo k r with
      | none => none
      | some (r', sh) =>
        if sh then some (delStep (.node l key val pk (bf - 1) r'))
        else some (.node l key val pk bf r', false)
    else deleteFound l pk bf r

/-- `delete(key)`: `false` and no mutation when the key is absent,
else remove the node, decrement the size, rebalance, return `true`. -/
def AvlTree.delete (t : AvlTree K V) (k : K) : Bool × AvlTree K V :=
  match deleteGo cmp k t.root with
  | none => (false, t)
  | some (t', _) => (true, ⟨t', t.size - 1⟩)

/-- Weight of a stack entry of the in-order iterator: when this entry is
popped, its entry is yielded and its right subtree still has to be
traversed. -/
def entryW : PTree K V → Nat
  | .nil => 1
  | .node _ _ _ _ _ r => 2 * count r + 1

/-- Remaining work represented by the iterator's explicit stack. -/
def stackW (stack : List (PTree K V)) : Nat := (stack.map entryW).sum

/-- The explicit-stack in-order iterator (`[Symbol.iterator]`): while the
current node is present, push it and go left; otherwise pop, yield the
popped node's entry, and continue with its right child; stop when both
the current node and the stack are exhausted. -/
def iterGo : PTree K V → List (PTree K V) → List (K × V)
  | .node l k v pk bf r, stack => iterGo l (.node l k v pk bf r :: stack)
  | .nil, top :: rest =>
    match top with
    | .nil => iterGo .nil rest
    | .node _ k v _ _ r => (k, v) :: iterGo r rest
  | .nil, [] => []
  termination_by t stack => 2 * count t + stackW stack
  decreasing_by
    · simp only [count, stackW, List.map_cons, List.sum_cons, entryW]; omega
    · simp only [count, stackW, List.map_cons, List.sum_cons, entryW]; omega
    · simp only [count, stackW, List.map_cons, List.sum_cons, entryW]; omega

/-- The full in-order iteration of a tree. -/
def iter (t : PTree K V) : List (K × V) := iterGo t []

/-- The entries the iterator's explicit stack still owes: a popped
`node` entry yields its own entry and then its right subtree. -/
def stackOut : List (PTree K V) → List (K × V)
  | [] => []
  | .nil :: rest => stackOut rest
  | .node _ k v _ _ r :: rest => (k, v) :: (inorder r ++ stackOut rest)

/-- `walk(fn)`: drive `fn` over the in-order entries with an index
counter, stopping early once `fn` signals `done` (the state type `σ`
models the variables the source closure mutates). -/
def walkFold {σ : Type} (fn : (K × V) → Int → σ → σ × Bool) :
    List (K × V) → Int → σ → σ
  | [], _, s => s
  | e :: es, i, s =>
    let (s', done) := fn e i s
    if done then s' else walkFold fn es (i + 1) s'

/-- `at(index)` (named `atIndex` here; `at` is reserved in Lean): throws
an out-of-bounds error (`Except.error`) when `index < 0` or
`index >= size`; otherwise walks the in-order sequence and returns the
entry whose running index equals `index` (the source closure sets
`selected` and `done` when `index === i`). -/
def AvlTree.atIndex (t : AvlTree K V) (index : Int) :
    Except Unit (Option (K × V)) :=
  if index < 0 ∨ index ≥ t.size then .error ()
  else .ok (walkFold
    (fun entry i sel => if index = i then (some entry, true) else (sel, false))
    (iter t.root) 0 none)

/-- `has(key)` in state-passing form: the returned state is the state of
the tree after the call (the source performs no field assignment in this
operation; the embedding threads the state through unchanged exactly
because the source never writes). -/
def AvlTree.hasSt (t : AvlTree K V) (k : K) : Bool × AvlTree K V :=
  (hasT cmp k t.root, t)

/-- `get(key)` in state-passing form. -/
def AvlTree.getSt (t : AvlTree K V) (k : K) : Option V × AvlTree K V :=
  (getT cmp k t.root, t)

/-- `getNode(key)` in state-passing form. -/
def AvlTree.getNodeSt (t : AvlTree K V) (k : K) :
    Option (PTree K V) × AvlTree K V :=
  (getNodeT cmp k t.root, t)

/-- `minNode()` in state-passing form. -/
def AvlTree.minNodeSt (t : AvlTree K V) : Option (PTree K V) × AvlTree K V :=
  (minNodeT t.root, t)

/-- `maxNode()` in state-passing form. -/
def AvlTree.maxNodeSt (t : AvlTree K V) : Option (PTree K V) × AvlTree K V :=
  (maxNodeT t.root, t)

/-- Full in-order iteration in state-passing form. -/
def AvlTree.iterSt (t : AvlTree K V) : List (K × V) × AvlTree K V :=
  (iter t.root, t)

/-- Translation of `checkTree` from `avl-tree-utils.ts`: every present
child's parent reference points back at the node holding it, the balance
factor computed from subtree heights lies in `[-1, 1]`, and it equals
the stored balance factor; recursively for both children. -/
def checkTreeB [DecidableEq K] : PTree K V → Bool
  | .nil => true
  | .node l k _ _ bf r =>
    (match l with
     | .nil => true
     | .node _ _ _ lpk _ _ => lpk == some k) &&
    (match r with
     | .nil => true
     | .node _ _ _ rpk _ _ => rpk == some k) &&
    (decide ((-1 : Int) ≤ (height r : Int) - (height l : Int))) &&
    (decide ((height r : Int) - (height l : Int) ≤ 1)) &&
    ((height r : Int) - (height l : Int) == bf) &&
    checkTreeB l && checkTreeB r

/-- The stored balance factor of every node equals
`height(right) − height(left)`. -/
def bfOk : PTree K V → Prop
  | .nil => True
  | .node l _ _ _ bf r =>
      bf = (height r : Int) - (height l : Int) ∧ bfOk l ∧ bfOk r

/-- The AVL shape invariant: the heights of the two subtrees of every
node differ by at most one. -/
def balanced : PTree K V → Prop
  | .nil => True
  | .node l _ _ _ _ r =>
      (height l : Int) - (height r : Int) ≤ 1 ∧
      (height r : Int) - (height l : Int) ≤ 1 ∧ balanced l ∧ balanced r

/-- Back-link consistency: the root's stored parent reference is `p`, and
every node's children store that node's key as their parent reference. -/
def parentOk : Option K → PTree K V → Prop
  | _, .nil => True
  | p, .node l k _ pk _ r => pk = p ∧ parentOk (some k) l ∧ parentOk (some k) r

/-- Binary-search-tree order with respect to the injected comparison. -/
def bst : PTree K V → Prop
  | .nil => True
  | .node l k _ _ _ r =>
      (∀ x ∈ keys l, cmp x k < 0) ∧ (∀ x ∈ keys r, cmp k x < 0) ∧
      bst l ∧ bst r

/-- The state invariant of the tree engine: balance-factor correctness,
AVL balance, back-link consistency, BST order, and size accounting. -/
def Inv (t : AvlTree K V) : Prop :=
  bfOk t.root ∧ balanced t.root ∧ parentOk none t.root ∧ bst cmp t.root ∧
    t.size = ((inorder t.root).length : Int)

/-- A mutating operation of the engine, for stating properties of
arbitrary operation sequences. -/
inductive Op (K V : Type) where
  | ins (k : K) (v : V)
  | del (k : K)

/-- Apply one operation to a tree state, keeping only the state. -/
def applyOp (t : AvlTree K V) : Op K V → AvlTree K V
  | .ins k v => (t.insert cmp k v).2
  | .del k => (t.delete cmp k).2

/-- Run a sequence of operations starting from a freshly constructed
(empty) tree. -/
def run (ops : List (Op K V)) : AvlTree K V :=
  ops.foldl (applyOp cmp) AvlTree.empty

/-- The invariant predicates are decidable, so they can be evaluated on
concrete trees. -/
instance instDecidableBfOk : (t : PTree K V) → Decidable (bfOk t)
  | PTree.nil => isTrue trivial
  | PTree.node l _ _ _ bf r =>
    have _h1 : Decidable (bfOk l) := instDecidableBfOk l
    have _h2 : Decidable (bfOk r) := instDecidableBfOk r
    decidable_of_iff
      (bf = (height r : Int) - (height l : Int) ∧ bfOk l ∧ bfOk r) Iff.rfl

instance instDecidableBalanced : (t : PTree K V) → Decidable (balanced t)
  | PTree.nil => isTrue trivial
  | PTree.node l _ _ _ _ r =>
    have _h1 : Decidable (balanced l) := instDecidableBalanced l
    have _h2 : Decidable (balanced r) := instDecidableBalanced r
    decidable_of_iff
      ((height l : Int) - (height r : Int) ≤ 1 ∧
        (height r : Int) - (height l : Int) ≤ 1 ∧ balanced l ∧ balanced r)
      Iff.rfl

instance instDecidableParentOk [DecidableEq K] :
    (p : Option K) → (t : PTree K V) → Decidable (parentOk p t)
  | _, PTree.nil => isTrue trivial
  | p, PTree.node l k _ pk _ r =>
    have _h1 : Decidable (parentOk (some k) l) := instDecidableParentOk _ l
    have _h2 : Decidable (parentOk (some k) r) := instDecidableParentOk _ r
    decidable_of_iff
      (pk = p ∧ parentOk (some k) l ∧ parentOk (some k) r) Iff.rfl

instance instDecidableBst : (t : PTree K V) → Decidable (bst cmp t)
  | PTree.nil => isTrue trivial
  | PTree.node l k _ _ _ r =>
    have _h1 : Decidable (bst cmp l) := instDecidableBst l
    have _h2 : Decidable (bst cmp r) := instDecidableBst r
    decidable_of_iff
      ((∀ x ∈ keys l, cmp x k < 0) ∧ (∀ x ∈ keys r, cmp k x < 0) ∧
        bst cmp l ∧ bst cmp r) Iff.rfl

instance instDecidableInv [DecidableEq K] (t : AvlTree K V) :
    Decidable (Inv cmp t) :=
  decidable_of_iff
    (bfOk t.root ∧ balanced t.root ∧ parentOk none t.root ∧
      bst cmp t.root ∧ t.size = ((inorder t.root).length : Int)) Iff.rfl

/-! ## The mutable object graph of `avl-tree-utils.ts`

The rotation and splice helpers of `avl-tree-utils.ts` mutate
`AvlTreeNode` objects through references, including parent
back-references, so they are modelled against an explicit store: objects
live at numeric addresses, an object reference is an address, and
`undefined` is `none`.  Every statement `x.field = v` of the source is a
read-modify-write of the current store, every field read re-reads the
current store, and a thrown `Error` is `none`. -/

/-- An `AvlTreeNode<K, V>` object: `key`, `value`, and the three
references (`parent`, `left`, `right`) as optional addresses, plus the
stored `balanceFactor`. -/
structure HNode (K V : Type) where
  key : K
  value : V
  parent : Option Nat
  left : Option Nat
  right : Option Nat
  balanceFactor : Int
deriving DecidableEq, Repr

/-- The object store. -/
abbrev Heap (K V : Type) := Nat → Option (HNode K V)

/-- Store the object `n` at address `a`. -/
def hupd (h : Heap K V) (a : Nat) (n : HNode K V) : Heap K V :=
  fun b => if b = a then some n else h b

/-- The object `n` with its `parent` reference replaced. -/
def HNode.withParent (n : HNode K V) (p : Option Nat) : HNode K V :=
  ⟨n.key, n.value, p, n.left, n.right, n.balanceFactor⟩

/-- The object `n` with its `left` reference replaced. -/
def HNode.withLeft (n : HNode K V) (l : Option Nat) : HNode K V :=
  ⟨n.key, n.value, n.parent, l, n.right, n.balanceFactor⟩

/-- The object `n` with its `right` reference replaced. -/
def HNode.withRight (n : HNode K V) (r : Option Nat) : HNode K V :=
  ⟨n.key, n.value, n.parent, n.left, r, n.balanceFactor⟩

/-- The object `n` with its `balanceFactor` replaced. -/
def HNode.withBF (n : HNode K V) (bf : Int) : HNode K V :=
  ⟨n.key, n.value, n.parent, n.left, n.right, bf⟩

/-- The assignment `x.parent = p` where `x` is the object at address `a`. -/
def writeParent (h : Heap K V) (a : Nat) (p : Option Nat) :
    Option (Heap K V) :=
  match h a with
  | none => none
  | some n => some (hupd h a (n.withParent p))

/-- The assignment `x.left = l` where `x` is the object at address `a`. -/
def writeLeft (h : Heap K V) (a : Nat) (l : Option Nat) :
    Option (Heap K V) :=
  match h a with
  | none => none
  | some n => some (hupd h a (n.withLeft l))

/-- The assignment `x.right = r` where `x` is the object at address `a`. -/
def writeRight (h : Heap K V) (a : Nat) (r : Option Nat) :
    Option (Heap K V) :=
  match h a with
  | none => none
  | some n => some (hupd h a (n.withRight r))

/-- The assignment `x.balanceFactor = bf` where `x` is the object at
address `a`. -/
def writeBF (h : Heap K V) (a : Nat) (bf : Int) : Option (Heap K V) :=
  match h a with
  | none => none
  | some n => some (hupd h a (n.withBF bf))

/-- `disconnectChildNodeFromParent(childNode)` with `childNode` at
address `c`: unset the parent's link to `c` (left slot first, then
right; a missing parent or a parent without a link back throws), unset
`c`'s parent reference, return the parent's address. -/
def hDisconnect (h : Heap K V) (c : Nat) : Option (Heap K V × Nat) :=
  match h c with
  | none => none
  | some cn =>
    match cn.parent with
    | none => none
    | some p =>
      match h p with
      | none => none
      | some pn =>
        match (if pn.left = some c then writeLeft h p none
          else if pn.right = some c then writeRight h p none
          else none) with
        | none => none
        | some h1 =>
          match writeParent h1 c none with
          | none => none
          | some h2 => some (h2, p)

/-- `replaceChild(oldChild, newChild)` with the two nodes at addresses
`c` and `nw`: capture `oldChild.parent`, disconnect `newChild` from its
own parent when it has one, hand `oldChild`'s captured parent reference
to `newChild`, clear `oldChild`'s parent reference, and repoint the
captured parent's matching child slot (left if it held `oldChild`,
otherwise right) at `newChild`.  Returns the captured parent address. -/
def hReplaceChild (h : Heap K V) (c nw : Nat) :
    Option (Heap K V × Option Nat) :=
  match h c with
  | none => none
  | some cn =>
    match h nw with
    | none => none
    | some nwn =>
      let parent := cn.parent
      match (match nwn.parent with
        | none => some h
        | some _ => (hDisconnect h nw).map Prod.fst) with
      | none => none
      | some h1 =>
        match writeParent h1 nw parent with
        | none => none
        | some h2 =>
          match writeParent h2 c none with
          | none => none
          | some h3 =>
            match parent with
            | none => some (h3, none)
            | some p =>
              match h3 p with
              | none => none
              | some pn =>
                if pn.left = some c then
                  match writeLeft h3 p (some nw) with
                  | none => none
                  | some h4 => some (h4, some p)
                else
                  match writeRight h3 p (some nw) with
                  | none => none
                  | some h4 => some (h4, some p)

/-- `rotateLeft(root)` with `root` at address `root`: fail without a
right child, else splice the right child into `root`'s slot
(`replaceChild`), move the new top's left subtree under `root`, hang
`root` to the left of the new top, and apply the two balance-factor
updates with their sign-dependent corrections.  Returns the new top's
address. -/
def hRotateLeft (h : Heap K V) (root : Nat) : Option (Heap K V × Nat) :=
  match h root with
  | none => none
  | some rn =>
    match rn.right with
    | none => none
    | some newRoot =>
      match hReplaceChild h root newRoot with
      | none => none
      | some (h1, _) =>
        match h1 newRoot with
        | none => none
        | some nr1 =>
          match writeRight h1 root nr1.left with
          | none => none
          | some h2 =>
            match (match h2 newRoot with
              | none => none
              | some nr2 =>
                match nr2.left with
                | none => some h2
                | some lc => writeParent h2 lc (some root)) with
            | none => none
            | some h3 =>
              match writeLeft h3 newRoot (some root) with
              | none => none
              | some h4 =>
                match writeParent h4 root (some newRoot) with
                | none => none
                | some h5 =>
                  match h5 root with
                  | none => none
                  | some rn5 =>
                    match writeBF h5 root (rn5.balanceFactor - 1) with
                    | none => none
                    | some h6 =>
                      match h6 newRoot with
                      | none => none
                      | some nr6 =>
                        match (if nr6.balanceFactor > 0 then
                            match h6 root with
                            | none => none
                            | some rn6 =>
                              writeBF h6 root
                                (rn6.balanceFactor - nr6.balanceFactor)
                          else some h6) with
                        | none => none
                        | some h7 =>
                          match h7 newRoot with
                          | none => none
                          | some nr7 =>
                            match writeBF h7 newRoot
                                (nr7.balanceFactor - 1) with
                            | none => none
                            | some h8 =>
                              match h8 root with
                              | none => none
                              | some rn8 =>
                                match (if rn8.balanceFactor < 0 then
                                    match h8 newRoot with
                                    | none => none
                                    | some nr8 =>
                                      writeBF h8 newRoot
                                        (nr8.balanceFactor +
                                          rn8.balanceFactor)
                                  else some h8) with
                                | none => none
                                | some h9 => some (h9, newRoot)

/-- `rotateRight(root)`: the mirror image of `hRotateLeft`. -/
def hRotateRight (h : Heap K V) (root : Nat) : Option (Heap K V × Nat) :=
  match h root with
  | none => none
  | some rn =>
    match rn.left with
    | none => none
    | some newRoot =>
      match hReplaceChild h root newRoot with
      | none => none
      | some (h1, _) =>
        match h1 newRoot with
        | none => none
        | some nr1 =>
          match writeLeft h1 root nr1.right with
          | none => none
          | some h2 =>
            match (match h2 newRoot with
              | none => none
              | some nr2 =>
                match nr2.right with
                | none => some h2
                | some rc => writeParent h2 rc (some root)) with
            | none => none
            | some h3 =>
              match writeRight h3 newRoot (some root) with
              | none => none
              | some h4 =>
                match writeParent h4 root (some newRoot) with
                | none => none
                | some h5 =>
                  match h5 root with
                  | none => none
                  | some rn5 =>
                    match writeBF h5 root (rn5.balanceFactor + 1) with
                    | none => none
                    | some h6 =>
                      match h6 newRoot with
                      | none => none
                      | some nr6 =>
                        match (if nr6.balanceFactor < 0 then
                            match h6 root with
                            | none => none
                            | some rn6 =>
                              writeBF h6 root
                                (rn6.balanceFactor - nr6.balanceFactor)
                          else some h6) with
                        | none => none
                        | some h7 =>
                          match h7 newRoot with
                          | none => none
                          | some nr7 =>
                            match writeBF h7 newRoot
                                (nr7.balanceFactor + 1) with
                            | none => none
                            | some h8 =>
                              match h8 root with
                              | none => none
                              | some rn8 =>
                                match (if rn8.balanceFactor > 0 then
                                    match h8 newRoot with
                                    | none => none
                                    | some nr8 =>
                                      writeBF h8 newRoot
                                        (nr8.balanceFactor +
                                          rn8.balanceFactor)
                                  else some h8) with
                                | none => none
                                | some h9 => some (h9, newRoot)

/-- `replaceNode(node, replacement)` with the two nodes at addresses
`nd` and `rp`: capture `node`'s three references; fully unhook
`replacement` (from its parent's matching slot and from its own
children); hang `replacement` into the captured parent's slot (left
first), clear `node`'s parent, repoint `replacement` at the captured
parent; re-attach the captured children to `replacement` unless a child
is `replacement` itself, clearing `node`'s child links; finally copy
`node`'s balance factor onto `replacement`. -/
def hReplaceNode (h : Heap K V) (nd rp : Nat) : Option (Heap K V) :=
  match h nd with
  | none => none
  | some n0 =>
    let parent := n0.parent
    let leftChild := n0.left
    let rightChild := n0.right
    match h rp with
    | none => none
    | some r0 =>
      match (match r0.parent with
        | none => some h
        | some rpp =>
          match h rpp with
          | none => none
          | some rppn =>
            match (if rppn.left = some rp then writeLeft h rpp none
              else if rppn.right = some rp then writeRight h rpp none
              else none) with
            | none => none
            | some h1 => writeParent h1 rp none) with
      | none => none
      | some h2 =>
        match (match h2 rp with
          | none => none
          | some r2 =>
            match r2.left with
            | none => some h2
            | some rl =>
              match writeParent h2 rl none with
              | none => none
              | some h3 => writeLeft h3 rp none) with
        | none => none
        | some h4 =>
          match (match h4 rp with
            | none => none
            | some r4 =>
              match r4.right with
              | none => some h4
              | some rr =>
                match writeParent h4 rr none with
                | none => none
                | some h5 => writeRight h5 rp none) with
          | none => none
          | some h6 =>
            match (match parent with
              | none => some h6
              | some p =>
                match h6 p with
                | none => none
                | some pn =>
                  match (if pn.left = some nd then writeLeft h6 p (some rp)
                    else if pn.right = some nd then writeRight h6 p (some rp)
                    else none) with
                  | none => none
                  | some h7 =>
                    match writeParent h7 nd none with
                    | none => none
                    | some h8 => writeParent h8 rp parent) with
            | none => none
            | some h9 =>
              match (match leftChild with
                | none => some h9
                | some lc =>
                  if lc = rp then some h9
                  else
                    match writeLeft h9 rp (some lc) with
                    | none => none
                    | some h10 => writeParent h10 lc (some rp)) with
              | none => none
              | some h11 =>
                match writeLeft h11 nd none with
                | none => none
                | some h12 =>
                  match (match rightChild with
                    | none => some h12
                    | some rc =>
                      if rc = rp then some h12
                      else
                        match writeRight h12 rp (some rc) with
                        | none => none
                        | some h13 => writeParent h13 rc (some rp)) with
                  | none => none
                  | some h14 =>
                    match writeRight h14 nd none with
                    | none => none
                    | some h15 =>
                      match h15 nd with
                      | none => none
                      | some n15 => writeBF h15 rp n15.balanceFactor

/-! ## Concrete fixtures used to exercise the specifications -/

/-- A one-entry tree state (key 1, value 10). -/
def wT1 : AvlTree Int Int := ⟨.node .nil 1 10 none 0 .nil, 1⟩

/-- A two-entry tree state (keys 1 and 2). -/
def wT2 : AvlTree Int Int :=
  ⟨.node (.node .nil 1 10 (some 2) 0 .nil) 2 20 none (-1) .nil, 2⟩

/-- A small operation sequence exercising both insertion and deletion. -/
def wOps : List (Op Int Int) :=
  [.ins 2 20, .ins 1 10, .ins 3 30, .del 2]

/-- The spec's right-rotation scenario: keys 100, 50, 150, 25, 75, 12
inserted in order. -/
def scenario56 : AvlTree Int Int :=
  run defaultCompareFunction
    [.ins 100 0, .ins 50 0, .ins 150 0, .ins 25 0, .ins 75 0, .ins 12 0]

/-- The root subtree on a given side (`root.left` / `root.right`). -/
def leftT : PTree K V → PTree K V
  | .nil => .nil
  | .node l _ _ _ _ _ => l

/-- See `leftT`. -/
def rightT : PTree K V → PTree K V
  | .nil => .nil
  | .node _ _ _ _ _ r => r

/-- The key of a subtree's root node, if present. -/
def rootKey : PTree K V → Option K
  | .nil => none
  | .node _ k _ _ _ _ => some k

/-- A store with a single childless node at address 1. -/
def wHeapNoR : Heap Int Int :=
  fun a => if a = 1 then some ⟨10, 0, none, none, none, 0⟩ else none

/-- A store with a right-heavy two-node chain rooted at address 1. -/
def wHeapL : Heap Int Int :=
  fun a =>
    if a = 1 then some ⟨10, 0, none, none, some 2, 1⟩
    else if a = 2 then some ⟨20, 0, some 1, none, none, 0⟩
    else none

/-- A store with a left-heavy two-node chain rooted at address 1. -/
def wHeapR : Heap Int Int :=
  fun a =>
    if a = 1 then some ⟨10, 0, none, some 2, none, -1⟩
    else if a = 2 then some ⟨5, 0, some 1, none, none, 0⟩
    else none

/-- A store where node 1 (parent 3, children 4 and 5) is to be replaced
by the fully detached childless node 2. -/
def wHeapA : Heap Int Int :=
  fun a =>
    if a = 1 then some ⟨50, 0, some 3, some 4, some 5, 1⟩
    else if a = 2 then some ⟨60, 0, none, none, none, 7⟩
    else if a = 3 then some ⟨80, 0, none, some 1, none, 0⟩
    else if a = 4 then some ⟨40, 0, some 1, none, none, 0⟩
    else if a = 5 then some ⟨70, 0, some 1, none, none, 0⟩
    else none

/-- A store where node 1 (parent 3, children 4 and 5) is to be replaced
by node 2, which is attached elsewhere (parent 6) and has two children
of its own (7 and 8). -/
def wHeapG : Heap Int Int :=
  fun a =>
    if a = 1 then some ⟨50, 0, some 3, some 4, some 5, 1⟩
    else if a = 2 then some ⟨60, 0, some 6, some 7, some 8, 0⟩
    else if a = 3 then some ⟨80, 0, none, some 1, none, 0⟩
    else if a = 4 then some ⟨40, 0, some 1, none, none, 0⟩
    else if a = 5 then some ⟨70, 0, some 1, none, some 6, 1⟩
    else if a = 6 then some ⟨65, 0, some 5, some 2, none, -1⟩
    else if a = 7 then some ⟨58, 0, some 2, none, none, 0⟩
    else if a = 8 then some ⟨62, 0, some 2, none, none, 0⟩
    else none

/-- A store where node 1 is to be replaced by its own left child at
address 2, which itself still has a left child at address 4. -/
def wHeapCL : Heap Int Int :=
  fun a =>
    if a = 1 then some ⟨50, 0, some 3, some 2, some 5, -1⟩
    else if a = 2 then some ⟨40, 0, some 1, some 4, none, -1⟩
    else if a = 3 then some ⟨80, 0, none, some 1, none, 0⟩
    else if a = 4 then some ⟨35, 0, some 2, none, none, 0⟩
    else if a = 5 then some ⟨70, 0, some 1, none, none, 0⟩
    else none

/-- A store where node 1 is to be replaced by its own right child at
address 2, which itself still has a right child at address 5. -/
def wHeapC : Heap Int Int :=
  fun a =>
    if a = 1 then some ⟨50, 0, some 3, some 4, some 2, 1⟩
    else if a = 2 then some ⟨60, 0, some 1, none, some 5, 1⟩
    else if a = 3 then some ⟨80, 0, none, some 1, none, 0⟩
    else if a = 4 then some ⟨40, 0, some 1, none, none, 0⟩
    else if a = 5 then some ⟨65, 0, some 2, none, none, 0⟩
    else none

/-- Lifts a fact about a fixed address to the guarded form used in the
`hReplaceNode` specifications. -/
theorem forall_some_intro {P : Nat → Prop} {c : Nat} (h : P c) :
    ∀ z, some c = some z → P z :=
  fun _ hz => Option.some.inj hz ▸ h

/-! ## Basic lemmas about the tree model -/

section Lemmas

variable {K V : Type} {cmp : Cmp K}

open PTree

@[simp] theorem height_nil : height (nil : PTree K V) = 0 := rfl

@[simp] theorem height_node {l r : PTree K V} {k v pk bf} :
    height (node l k v pk bf r) = max (height l) (height r) + 1 := rfl

@[simp] theorem rootBF_nil : rootBF (nil : PTree K V) = 0 := rfl

@[simp] theorem rootBF_node {l r : PTree K V} {k v pk bf} :
    rootBF (node l k v pk bf r) = bf := rfl

@[simp] theorem inorder_nil : inorder (nil : PTree K V) = [] := rfl

@[simp] theorem inorder_node {l r : PTree K V} {k v pk bf} :
    inorder (node l k v pk bf r) = inorder l ++ (k, v) :: inorder r := rfl

@[simp] theorem keys_nil : keys (nil : PTree K V) = [] := rfl

@[simp] theorem keys_node {l r : PTree K V} {k v pk bf} :
    keys (node l k v pk bf r) = keys l ++ k :: keys r := by
  simp [keys]

@[simp] theorem setParentKey_nil {p : Option K} :
    setParentKey p (nil : PTree K V) = nil := rfl

@[simp] theorem setParentKey_node {l r : PTree K V} {k v pk bf} {p : Option K} :
    setParentKey p (node l k v pk bf r) = node l k v p bf r := rfl

@[simp] theorem height_setParentKey {p : Option K} (t : PTree K V) :
    height (setParentKey p t) = height t := by
  cases t <;> rfl

@[simp] theorem inorder_setParentKey {p : Option K} (t : PTree K V) :
    inorder (setParentKey p t) = inorder t := by
  cases t <;> rfl

@[simp] theorem keys_setParentKey {p : Option K} (t : PTree K V) :
    keys (setParentKey p t) = keys t := by
  cases t <;> rfl

@[simp] theorem bfOk_nil : bfOk (nil : PTree K V) := trivial

@[simp] theorem bfOk_node {l r : PTree K V} {k v pk bf} :
    bfOk (node l k v pk bf r) ↔
      bf = (height r : Int) - (height l : Int) ∧ bfOk l ∧ bfOk r := Iff.rfl

@[simp] theorem balanced_nil : balanced (nil : PTree K V) := trivial

@[simp] theorem balanced_node {l r : PTree K V} {k v pk bf} :
    balanced (node l k v pk bf r) ↔
      (height l : Int) - (height r : Int) ≤ 1 ∧
      (height r : Int) - (height l : Int) ≤ 1 ∧ balanced l ∧ balanced r := Iff.rfl

@[simp] theorem parentOk_nil {p : Option K} : parentOk p (nil : PTree K V) := trivial

@[simp] theorem parentOk_node {l r : PTree K V} {k v pk bf} {p : Option K} :
    parentOk p (node l k v pk bf r) ↔
      pk = p ∧ parentOk (some k) l ∧ parentOk (some k) r := Iff.rfl

@[simp] theorem bst_nil : bst cmp (nil : PTree K V) := trivial

@[simp] theorem bst_node {l r : PTree K V} {k v pk bf} :
    bst cmp (node l k v pk bf r) ↔
      (∀ x ∈ keys l, cmp x k < 0) ∧ (∀ x ∈ keys r, cmp k x < 0) ∧
      bst cmp l ∧ bst cmp r := Iff.rfl

@[simp] theorem bfOk_setParentKey {p : Option K} (t : PTree K V) :
    bfOk (setParentKey p t) ↔ bfOk t := by
  cases t <;> simp

@[simp] theorem balanced_setParentKey {p : Option K} (t : PTree K V) :
    balanced (setParentKey p t) ↔ balanced t := by
  cases t <;> simp

@[simp] theorem bst_setParentKey {p : Option K} (t : PTree K V) :
    bst cmp (setParentKey p t) ↔ bst cmp t := by
  cases t <;> simp

theorem parentOk_setParentKey {p q : Option K} {t : PTree K V}
    (h : parentOk q t) : parentOk p (setParentKey p t) := by
  cases t with
  | nil => simp
  | node l k v pk bf r => simp_all

/-- Rotations preserve the in-order sequence. -/
theorem inorder_rotLeft (t : PTree K V) : inorder (rotLeft t) = inorder t := by
  match t with
  | nil => rfl
  | node l k v pk bf nil => rfl
  | node l k v pk bf (node rl rk rv rpk rbf rr) =>
    simp [rotLeft, List.append_assoc]

theorem inorder_rotRight (t : PTree K V) : inorder (rotRight t) = inorder t := by
  match t with
  | nil => rfl
  | node nil k v pk bf r => rfl
  | node (node ll lk lv lpk lbf lr) k v pk bf r =>
    simp [rotRight, List.append_assoc]

theorem keys_rotLeft (t : PTree K V) : keys (rotLeft t) = keys t := by
  simp [keys, inorder_rotLeft]

theorem keys_rotRight (t : PTree K V) : keys (rotRight t) = keys t := by
  simp [keys, inorder_rotRight]

/-- Rotations re-establish every parent back-reference they touch. -/
theorem parentOk_rotLeft {p : Option K} {t : PTree K V}
    (h : parentOk p t) : parentOk p (rotLeft t) := by
  match t with
  | nil => exact h
  | node l k v pk bf nil => exact h
  | node l k v pk bf (node rl rk rv rpk rbf rr) =>
    simp only [rotLeft, parentOk_node] at h ⊢
    obtain ⟨hpk, hl, -, hrl, hrr⟩ := h
    exact ⟨hpk, ⟨trivial, hl, parentOk_setParentKey hrl⟩, hrr⟩

theorem parentOk_rotRight {p : Option K} {t : PTree K V}
    (h : parentOk p t) : parentOk p (rotRight t) := by
  match t with
  | nil => exact h
  | node nil k v pk bf r => exact h
  | node (node ll lk lv lpk lbf lr) k v pk bf r =>
    simp only [rotRight, parentOk_node] at h ⊢
    obtain ⟨hpk, ⟨-, hll, hlr⟩, hr⟩ := h
    exact ⟨hpk, hll, ⟨trivial, parentOk_setParentKey hlr, hr⟩⟩

/-- Rotations preserve BST order (needs transitivity of the injected
comparison). -/
theorem bst_rotLeft (hc : LawfulCmp cmp) {t : PTree K V}
    (h : bst cmp t) : bst cmp (rotLeft t) := by
  match t with
  | nil => exact h
  | node l k v pk bf nil => exact h
  | node l k v pk bf (node rl rk rv rpk rbf rr) =>
    simp only [bst_node] at h
    obtain ⟨hlk, hkr, hbl, hrlk, hkrr, hbrl, hbrr⟩ := h
    have hk_rk : cmp k rk < 0 := hkr rk (by simp)
    simp only [rotLeft, bst_node]
    refine ⟨?_, hkrr, ⟨hlk, ?_, hbl, (bst_setParentKey _).mpr hbrl⟩, hbrr⟩
    · intro x hx
      simp only [keys_node, keys_setParentKey, List.mem_append,
        List.mem_cons] at hx
      rcases hx with hx | rfl | hx
      · exact hc.ltTrans _ _ _ (hlk x hx) hk_rk
      · exact hk_rk
      · exact hrlk x hx
    · intro x hx
      simp only [keys_setParentKey] at hx
      exact hkr x (by simp [hx])

theorem bst_rotRight (hc : LawfulCmp cmp) {t : PTree K V}
    (h : bst cmp t) : bst cmp (rotRight t) := by
  match t with
  | nil => exact h
  | node nil k v pk bf r => exact h
  | node (node ll lk lv lpk lbf lr) k v pk bf r =>
    simp only [bst_node] at h
    obtain ⟨hlk, hkr, ⟨hllk, hklr, hbll, hblr⟩, hbr⟩ := h
    have hlk_k : cmp lk k < 0 := hlk lk (by simp)
    simp only [rotRight, bst_node]
    refine ⟨hllk, ?_, hbll, ⟨?_, hkr, (bst_setParentKey _).mpr hblr, hbr⟩⟩
    · intro x hx
      simp only [keys_node, keys_setParentKey, List.mem_append,
        List.mem_cons] at hx
      rcases hx with hx | rfl | hx
      · exact hklr x hx
      · exact hlk_k
      · exact hc.ltTrans _ _ _ hlk_k (hkr x hx)
    · intro x hx
      simp only [keys_setParentKey] at hx
      exact hlk x (by simp [hx])

/-! ## The insertion rebalancing step -/

/-- `insFix` after a left-subtree growth: if `l` grew from height `hl0`
to `hl0 + 1` and the ancestor's stored balance factor was
`bf0 = height r − hl0` (in `[-1, 1]`), the adjusted node
`node l k v pk (bf0 - 1) r` is rebalanced to an AVL tree; the returned
flag tells whether the subtree height grew (with a nonzero resulting
root balance factor), and the resulting height is determined. -/
theorem insFix_left_spec {l r t' : PTree K V} {k v pk} {bf0 : Int}
    {hl0 : Nat} {grew : Bool}
    (hbfl : bfOk l) (hbfr : bfOk r) (hball : balanced l) (hbalr : balanced r)
    (hgrow : height l = hl0 + 1)
    (hbf0 : bf0 = (height r : Int) - (hl0 : Int))
    (hlo : -1 ≤ bf0) (hhi : bf0 ≤ 1)
    (hne : bf0 = -1 → rootBF l ≠ 0)
    (heq : insFix (node l k v pk (bf0 - 1) r) = (t', grew)) :
    bfOk t' ∧ balanced t' ∧
    (grew = true → height t' = max hl0 (height r) + 2 ∧ rootBF t' ≠ 0) ∧
    (grew = false → height t' = max hl0 (height r) + 1) := by
  have hcase : bf0 = -1 ∨ bf0 = 0 ∨ bf0 = 1 := by omega
  rcases hcase with h0 | h0 | h0
  · -- bf0 = -1: the adjusted factor is -2, a rotation is required
    subst h0
    have hlne : rootBF l ≠ 0 := hne rfl
    rcases l with _ | ⟨a, lk, lv, lpk, lbf, b⟩
    · exfalso; simp only [height_nil] at hgrow hbf0; omega
    rw [bfOk_node] at hbfl; obtain ⟨hlbf, hbfa, hbfb⟩ := hbfl
    rw [balanced_node] at hball; obtain ⟨hd1, hd2, hbala, hbalb⟩ := hball
    simp only [rootBF_node] at hlne
    simp only [height_node] at hgrow hbf0
    have hlbf1 : lbf = -1 ∨ lbf = 1 := by omega
    rcases hlbf1 with rfl | rfl
    · -- left-left: single right rotation
      have heq2 : insFix (node (node a lk lv lpk (-1) b) k v pk (-1 - 1) r) =
          (node a lk lv pk 0 (node (setParentKey (some k) b) k v (some lk) 0 r),
            false) := by
        rfl
      rw [heq2, Prod.mk.injEq] at heq
      obtain ⟨rfl, rfl⟩ := heq
      refine ⟨?_, ?_, by simp, fun _ => ?_⟩
      · simp only [bfOk_node, height_node, height_setParentKey,
          bfOk_setParentKey, hbfa, hbfb, hbfr, and_true, true_and]
        omega
      · simp only [balanced_node, height_node, height_setParentKey,
          balanced_setParentKey, hbala, hbalb, hbalr, and_true, true_and]
        omega
      · simp only [height_node, height_setParentKey]
        omega
    · -- left-right: double rotation
      rcases b with _ | ⟨b1, bk, bv, bpk, bbf, b2⟩
      · exfalso; simp only [height_nil] at hgrow hlbf; omega
      rw [bfOk_node] at hbfb; obtain ⟨hbbf, hbfb1, hbfb2⟩ := hbfb
      rw [balanced_node] at hbalb; obtain ⟨hc1, hc2, hbalb1, hbalb2⟩ := hbalb
      simp only [height_node] at hgrow hlbf hd1 hd2
      have hbbf1 : bbf = -1 ∨ bbf = 0 ∨ bbf = 1 := by omega
      have step : ∀ nbf1 nbf2 : Int,
          insFix (node (node a lk lv lpk 1 (node b1 bk bv bpk bbf b2))
              k v pk (-1 - 1) r) =
            (node (node a lk lv (some bk) nbf1 (setParentKey (some lk) b1))
              bk bv pk 0
              (node (setParentKey (some k) b2) k v (some bk) nbf2 r),
              false) →
          bfOk (node (node a lk lv (some bk) nbf1 (setParentKey (some lk) b1))
              bk bv pk 0
              (node (setParentKey (some k) b2) k v (some bk) nbf2 r)) →
          balanced (node (node a lk lv (some bk) nbf1 (setParentKey (some lk) b1))
              bk bv pk 0
              (node (setParentKey (some k) b2) k v (some bk) nbf2 r)) →
          bfOk t' ∧ balanced t' ∧
          (grew = true → height t' = max hl0 (height r) + 2 ∧ rootBF t' ≠ 0) ∧
          (grew = false → height t' = max hl0 (height r) + 1) := by
        intro nbf1 nbf2 heq2 hb1 hb2
        rw [heq2, Prod.mk.injEq] at heq
        obtain ⟨rfl, rfl⟩ := heq
        refine ⟨hb1, hb2, by simp, fun _ => ?_⟩
        simp only [height_node, height_setParentKey]
        omega
      rcases hbbf1 with rfl | rfl | rfl
      · refine step 0 1 (by rfl)
          ?_ ?_ <;>
          simp only [bfOk_node, balanced_node, height_node, height_setParentKey,
            bfOk_setParentKey, balanced_setParentKey, hbfa, hbfb1, hbfb2, hbfr,
            hbala, hbalb1, hbalb2, hbalr, and_true, true_and] <;>
          omega
      · refine step 0 0 (by rfl) ?_ ?_ <;>
          simp only [bfOk_node, balanced_node, height_node, height_setParentKey,
            bfOk_setParentKey, balanced_setParentKey, hbfa, hbfb1, hbfb2, hbfr,
            hbala, hbalb1, hbalb2, hbalr, and_true, true_and] <;>
          omega
      · refine step (-1) 0 (by rfl) ?_ ?_ <;>
          simp only [bfOk_node, balanced_node, height_node, height_setParentKey,
            bfOk_setParentKey, balanced_setParentKey, hbfa, hbfb1, hbfb2, hbfr,
            hbala, hbalb1, hbalb2, hbalr, and_true, true_and] <;>
          omega
  · -- bf0 = 0: the adjusted factor is -1, keep walking upward
    subst h0
    have heq2 : insFix (node l k v pk (0 - 1) r) =
        (node l k v pk (0 - 1) r, true) := by
      rfl
    rw [heq2, Prod.mk.injEq] at heq
    obtain ⟨rfl, rfl⟩ := heq
    refine ⟨⟨by omega, hbfl, hbfr⟩,
      ⟨by simp; omega, by simp; omega, hball, hbalr⟩,
      fun _ => ⟨by simp; omega, by norm_num⟩, by simp⟩
  · -- bf0 = 1: the adjusted factor is 0, height unchanged, stop
    subst h0
    have heq2 : insFix (node l k v pk (1 - 1) r) =
        (node l k v pk (1 - 1) r, false) := by
      rfl
    rw [heq2, Prod.mk.injEq] at heq
    obtain ⟨rfl, rfl⟩ := heq
    refine ⟨⟨by omega, hbfl, hbfr⟩,
      ⟨by simp; omega, by simp; omega, hball, hbalr⟩,
      by simp, fun _ => by simp; omega⟩

set_option maxHeartbeats 1000000 in
/-- `insFix` after a right-subtree growth (mirror of
`insFix_left_spec`). -/
theorem insFix_right_spec {l r t' : PTree K V} {k v pk} {bf0 : Int}
    {hr0 : Nat} {grew : Bool}
    (hbfl : bfOk l) (hbfr : bfOk r) (hball : balanced l) (hbalr : balanced r)
    (hgrow : height r = hr0 + 1)
    (hbf0 : bf0 = (hr0 : Int) - (height l : Int))
    (hlo : -1 ≤ bf0) (hhi : bf0 ≤ 1)
    (hne : bf0 = 1 → rootBF r ≠ 0)
    (heq : insFix (node l k v pk (bf0 + 1) r) = (t', grew)) :
    bfOk t' ∧ balanced t' ∧
    (grew = true → height t' = max (height l) hr0 + 2 ∧ rootBF t' ≠ 0) ∧
    (grew = false → height t' = max (height l) hr0 + 1) := by
  have hcase : bf0 = -1 ∨ bf0 = 0 ∨ bf0 = 1 := by omega
  rcases hcase with h0 | h0 | h0
  · -- bf0 = -1: the adjusted factor is 0, height unchanged, stop
    subst h0
    have heq2 : insFix (node l k v pk (-1 + 1) r) =
        (node l k v pk (-1 + 1) r, false) := by
      rfl
    rw [heq2, Prod.mk.injEq] at heq
    obtain ⟨rfl, rfl⟩ := heq
    refine ⟨⟨by omega, hbfl, hbfr⟩,
      ⟨by simp; omega, by simp; omega, hball, hbalr⟩,
      by simp, fun _ => by simp; omega⟩
  · -- bf0 = 0: the adjusted factor is 1, keep walking upward
    subst h0
    have heq2 : insFix (node l k v pk (0 + 1) r) =
        (node l k v pk (0 + 1) r, true) := by
      rfl
    rw [heq2, Prod.mk.injEq] at heq
    obtain ⟨rfl, rfl⟩ := heq
    refine ⟨⟨by omega, hbfl, hbfr⟩,
      ⟨by simp; omega, by simp; omega, hball, hbalr⟩,
      fun _ => ⟨by simp; omega, by norm_num⟩, by simp⟩
  · -- bf0 = 1: the adjusted factor is 2, a rotation is required
    subst h0
    have hrne : rootBF r ≠ 0 := hne rfl
    rcases r with _ | ⟨c, rk, rv, rpk, rbf, d⟩
    · exfalso; simp only [height_nil] at hgrow hbf0; omega
    rw [bfOk_node] at hbfr; obtain ⟨hrbf, hbfc, hbfd⟩ := hbfr
    rw [balanced_node] at hbalr; obtain ⟨hd1, hd2, hbalc, hbald⟩ := hbalr
    simp only [rootBF_node] at hrne
    simp only [height_node] at hgrow hbf0
    have hrbf1 : rbf = -1 ∨ rbf = 1 := by omega
    rcases hrbf1 with rfl | rfl
    · -- right-left: double rotation
      rcases c with _ | ⟨c1, ck, cv, cpk, cbf, c2⟩
      · exfalso; simp only [height_nil] at hgrow hrbf; omega
      rw [bfOk_node] at hbfc; obtain ⟨hcbf, hbfc1, hbfc2⟩ := hbfc
      rw [balanced_node] at hbalc; obtain ⟨hc1, hc2, hbalc1, hbalc2⟩ := hbalc
      simp only [height_node] at hgrow hrbf hd1 hd2
      have hcbf1 : cbf = -1 ∨ cbf = 0 ∨ cbf = 1 := by omega
      have step : ∀ nbf1 nbf2 : Int,
          insFix (node l k v pk (1 + 1)
              (node (node c1 ck cv cpk cbf c2) rk rv rpk (-1) d)) =
            (node (node l k v (some ck) nbf1 (setParentKey (some k) c1))
              ck cv pk 0
              (node (setParentKey (some rk) c2) rk rv (some ck) nbf2 d),
              false) →
          bfOk (node (node l k v (some ck) nbf1 (setParentKey (some k) c1))
              ck cv pk 0
              (node (setParentKey (some rk) c2) rk rv (some ck) nbf2 d)) →
          balanced (node (node l k v (some ck) nbf1 (setParentKey (some k) c1))
              ck cv pk 0
              (node (setParentKey (some rk) c2) rk rv (some ck) nbf2 d)) →
          bfOk t' ∧ balanced t' ∧
          (grew = true → height t' = max (height l) hr0 + 2 ∧ rootBF t' ≠ 0) ∧
          (grew = false → height t' = max (height l) hr0 + 1) := by
        intro nbf1 nbf2 heq2 hb1 hb2
        rw [heq2, Prod.mk.injEq] at heq
        obtain ⟨rfl, rfl⟩ := heq
        refine ⟨hb1, hb2, by simp, fun _ => ?_⟩
        simp only [height_node, height_setParentKey]
        omega
      rcases hcbf1 with rfl | rfl | rfl
      · refine step 0 1 (by rfl) ?_ ?_ <;>
          simp only [bfOk_node, balanced_node, height_node, height_setParentKey,
            bfOk_setParentKey, balanced_setParentKey, hbfc1, hbfc2, hbfd, hbfl,
            hbalc1, hbalc2, hbald, hball, and_true, true_and] <;>
          omega
      · refine step 0 0 (by rfl) ?_ ?_ <;>
          simp only [bfOk_node, balanced_node, height_node, height_setParentKey,
            bfOk_setParentKey, balanced_setParentKey, hbfc1, hbfc2, hbfd, hbfl,
            hbalc1, hbalc2, hbald, hball, and_true, true_and] <;>
          omega
      · refine step (-1) 0 (by rfl) ?_ ?_ <;>
          simp only [bfOk_node, balanced_node, height_node, height_setParentKey,
            bfOk_setParentKey, balanced_setParentKey, hbfc1, hbfc2, hbfd, hbfl,
            hbalc1, hbalc2, hbald, hball, and_true, true_and] <;>
          omega
    · -- right-right: single left rotation
      have heq2 : insFix (node l k v pk (1 + 1) (node c rk rv rpk 1 d)) =
          (node (node l k v (some rk) 0 (setParentKey (some k) c)) rk rv pk 0 d,
            false) := by
        rfl
      rw [heq2, Prod.mk.injEq] at heq
      obtain ⟨rfl, rfl⟩ := heq
      refine ⟨?_, ?_, by simp, fun _ => ?_⟩
      · simp only [bfOk_node, height_node, height_setParentKey,
          bfOk_setParentKey, hbfc, hbfd, hbfl, and_true, true_and]
        omega
      · simp only [balanced_node, height_node, height_setParentKey,
          balanced_setParentKey, hbalc, hbald, hball, and_true, true_and]
        omega
      · simp only [height_node, height_setParentKey]
        omega

/-! ## The deletion rebalancing step -/

/-- One `rebalanceAfterDeletion` iteration after the right subtree
shrank from `hr0` to `hr0 - 1` at an ancestor whose stored balance
factor was `bf0 = hr0 − height l` (in `[-1, 1]`): the adjusted node
`node l k v pk (bf0 - 1) r` is rotated back into AVL shape; the source
stops (`break`) exactly when the resulting root balance factor is `±1`,
which happens exactly when the subtree height is unchanged; when the
walk continues the height shrank by one. -/
theorem delStep_right_spec {l r t' : PTree K V} {v : V} {pk} {bf0 : Int}
    {hr0 : Nat} {cont : Bool} {kk : K}
    (hbfl : bfOk l) (hbfr : bfOk r) (hball : balanced l) (hbalr : balanced r)
    (hshrink : hr0 = height r + 1)
    (hbf0 : bf0 = (hr0 : Int) - (height l : Int))
    (hlo : -1 ≤ bf0) (hhi : bf0 ≤ 1)
    (heq : delStep (node l kk v pk (bf0 - 1) r) = (t', cont)) :
    bfOk t' ∧ balanced t' ∧
    (cont = true → height t' + 1 = max (height l) hr0 + 1) ∧
    (cont = false → height t' = max (height l) hr0 + 1) := by
  have hcase : bf0 = -1 ∨ bf0 = 0 ∨ bf0 = 1 := by omega
  rcases hcase with h0 | h0 | h0
  · -- bf0 = -1: the adjusted factor is -2, a rotation is required
    subst h0
    rcases l with _ | ⟨a, lk, lv, lpk, lbf, b⟩
    · exfalso; simp only [height_nil] at hbf0; omega
    rw [bfOk_node] at hbfl; obtain ⟨hlbf, hbfa, hbfb⟩ := hbfl
    rw [balanced_node] at hball; obtain ⟨hd1, hd2, hbala, hbalb⟩ := hball
    simp only [height_node] at hbf0
    have hlbf1 : lbf = -1 ∨ lbf = 0 ∨ lbf = 1 := by omega
    rcases hlbf1 with rfl | rfl | rfl
    · -- left child left-heavy: single right rotation, height shrinks
      have heq2 : delStep (node (node a lk lv lpk (-1) b) kk v pk (-1 - 1) r) =
          (node a lk lv pk 0 (node (setParentKey (some kk) b) kk v (some lk) 0 r),
            true) := by
        rfl
      rw [heq2, Prod.mk.injEq] at heq
      obtain ⟨rfl, rfl⟩ := heq
      refine ⟨?_, ?_, fun _ => ?_, by simp⟩
      · simp only [bfOk_node, height_node, height_setParentKey,
          bfOk_setParentKey, hbfa, hbfb, hbfr, and_true, true_and]
        omega
      · simp only [balanced_node, height_node, height_setParentKey,
          balanced_setParentKey, hbala, hbalb, hbalr, and_true, true_and]
        omega
      · simp only [height_node, height_setParentKey]
        omega
    · -- left child even: single right rotation, height unchanged
      have heq2 : delStep (node (node a lk lv lpk 0 b) kk v pk (-1 - 1) r) =
          (node a lk lv pk 1
            (node (setParentKey (some kk) b) kk v (some lk) (-1) r),
            false) := by
        rfl
      rw [heq2, Prod.mk.injEq] at heq
      obtain ⟨rfl, rfl⟩ := heq
      refine ⟨?_, ?_, by simp, fun _ => ?_⟩
      · simp only [bfOk_node, height_node, height_setParentKey,
          bfOk_setParentKey, hbfa, hbfb, hbfr, and_true, true_and]
        omega
      · simp only [balanced_node, height_node, height_setParentKey,
          balanced_setParentKey, hbala, hbalb, hbalr, and_true, true_and]
        omega
      · simp only [height_node, height_setParentKey]
        omega
    · -- left child right-heavy: double rotation, height shrinks
      rcases b with _ | ⟨b1, bk, bv, bpk, bbf, b2⟩
      · exfalso; simp only [height_nil] at hlbf; omega
      rw [bfOk_node] at hbfb; obtain ⟨hbbf, hbfb1, hbfb2⟩ := hbfb
      rw [balanced_node] at hbalb; obtain ⟨hc1, hc2, hbalb1, hbalb2⟩ := hbalb
      simp only [height_node] at hlbf hd1 hd2 hbf0
      have hbbf1 : bbf = -1 ∨ bbf = 0 ∨ bbf = 1 := by omega
      have step : ∀ nbf1 nbf2 : Int,
          delStep (node (node a lk lv lpk 1 (node b1 bk bv bpk bbf b2))
              kk v pk (-1 - 1) r) =
            (node (node a lk lv (some bk) nbf1 (setParentKey (some lk) b1))
              bk bv pk 0
              (node (setParentKey (some kk) b2) kk v (some bk) nbf2 r),
              true) →
          bfOk (node (node a lk lv (some bk) nbf1 (setParentKey (some lk) b1))
              bk bv pk 0
              (node (setParentKey (some kk) b2) kk v (some bk) nbf2 r)) →
          balanced (node (node a lk lv (some bk) nbf1
                (setParentKey (some lk) b1))
              bk bv pk 0
              (node (setParentKey (some kk) b2) kk v (some bk) nbf2 r)) →
          bfOk t' ∧ balanced t' ∧
          (cont = true →
            height t' + 1 =
              max (height (node a lk lv lpk 1 (node b1 bk bv bpk bbf b2)))
                hr0 + 1) ∧
          (cont = false →
            height t' =
              max (height (node a lk lv lpk 1 (node b1 bk bv bpk bbf b2)))
                hr0 + 1) := by
        intro nbf1 nbf2 heq2 hb1 hb2
        rw [heq2, Prod.mk.injEq] at heq
        obtain ⟨rfl, rfl⟩ := heq
        refine ⟨hb1, hb2, fun _ => ?_, by simp⟩
        simp only [height_node, height_setParentKey]
        omega
      rcases hbbf1 with rfl | rfl | rfl
      · refine step 0 1 (by rfl) ?_ ?_ <;>
          simp only [bfOk_node, balanced_node, height_node, height_setParentKey,
            bfOk_setParentKey, balanced_setParentKey, hbfa, hbfb1, hbfb2, hbfr,
            hbala, hbalb1, hbalb2, hbalr, and_true, true_and] <;>
          omega
      · refine step 0 0 (by rfl) ?_ ?_ <;>
          simp only [bfOk_node, balanced_node, height_node, height_setParentKey,
            bfOk_setParentKey, balanced_setParentKey, hbfa, hbfb1, hbfb2, hbfr,
            hbala, hbalb1, hbalb2, hbalr, and_true, true_and] <;>
          omega
      · refine step (-1) 0 (by rfl) ?_ ?_ <;>
          simp only [bfOk_node, balanced_node, height_node, height_setParentKey,
            bfOk_setParentKey, balanced_setParentKey, hbfa, hbfb1, hbfb2, hbfr,
            hbala, hbalb1, hbalb2, hbalr, and_true, true_and] <;>
          omega
  · -- bf0 = 0: the adjusted factor is -1, height unchanged, stop
    subst h0
    have heq2 : delStep (node l kk v pk (0 - 1) r) =
        (node l kk v pk (0 - 1) r, false) := by
      rfl
    rw [heq2, Prod.mk.injEq] at heq
    obtain ⟨rfl, rfl⟩ := heq
    refine ⟨⟨by omega, hbfl, hbfr⟩,
      ⟨by simp; omega, by simp; omega, hball, hbalr⟩,
      by simp, fun _ => by simp; omega⟩
  · -- bf0 = 1: the adjusted factor is 0, height shrank, keep walking
    subst h0
    have heq2 : delStep (node l kk v pk (1 - 1) r) =
        (node l kk v pk (1 - 1) r, true) := by
      rfl
    rw [heq2, Prod.mk.injEq] at heq
    obtain ⟨rfl, rfl⟩ := heq
    refine ⟨⟨by omega, hbfl, hbfr⟩,
      ⟨by simp; omega, by simp; omega, hball, hbalr⟩,
      fun _ => by simp; omega, by simp⟩

/-- One `rebalanceAfterDeletion` iteration after the left subtree shrank
(mirror of `delStep_right_spec`). -/
theorem delStep_left_spec {l r t' : PTree K V} {v : V} {pk} {bf0 : Int}
    {hl0 : Nat} {cont : Bool} {kk : K}
    (hbfl : bfOk l) (hbfr : bfOk r) (hball : balanced l) (hbalr : balanced r)
    (hshrink : hl0 = height l + 1)
    (hbf0 : bf0 = (height r : Int) - (hl0 : Int))
    (hlo : -1 ≤ bf0) (hhi : bf0 ≤ 1)
    (heq : delStep (node l kk v pk (bf0 + 1) r) = (t', cont)) :
    bfOk t' ∧ balanced t' ∧
    (cont = true → height t' + 1 = max hl0 (height r) + 1) ∧
    (cont = false → height t' = max hl0 (height r) + 1) := by
  have hcase : bf0 = -1 ∨ bf0 = 0 ∨ bf0 = 1 := by omega
  rcases hcase with h0 | h0 | h0
  · -- bf0 = -1: the adjusted factor is 0, height shrank, keep walking
    subst h0
    have heq2 : delStep (node l kk v pk (-1 + 1) r) =
        (node l kk v pk (-1 + 1) r, true) := by
      rfl
    rw [heq2, Prod.mk.injEq] at heq
    obtain ⟨rfl, rfl⟩ := heq
    refine ⟨⟨by omega, hbfl, hbfr⟩,
      ⟨by simp; omega, by simp; omega, hball, hbalr⟩,
      fun _ => by simp; omega, by simp⟩
  · -- bf0 = 0: the adjusted factor is 1, height unchanged, stop
    subst h0
    have heq2 : delStep (node l kk v pk (0 + 1) r) =
        (node l kk v pk (0 + 1) r, false) := by
      rfl
    rw [heq2, Prod.mk.injEq] at heq
    obtain ⟨rfl, rfl⟩ := heq
    refine ⟨⟨by omega, hbfl, hbfr⟩,
      ⟨by simp; omega, by simp; omega, hball, hbalr⟩,
      by simp, fun _ => by simp; omega⟩
  · -- bf0 = 1: the adjusted factor is 2, a rotation is required
    subst h0
    rcases r with _ | ⟨c, rk, rv, rpk, rbf, d⟩
    · exfalso; simp only [height_nil] at hbf0; omega
    rw [bfOk_node] at hbfr; obtain ⟨hrbf, hbfc, hbfd⟩ := hbfr
    rw [balanced_node] at hbalr; obtain ⟨hd1, hd2, hbalc, hbald⟩ := hbalr
    simp only [height_node] at hbf0
    have hrbf1 : rbf = -1 ∨ rbf = 0 ∨ rbf = 1 := by omega
    rcases hrbf1 with rfl | rfl | rfl
    · -- right child left-heavy: double rotation, height shrinks
      rcases c with _ | ⟨c1, ck, cv, cpk, cbf, c2⟩
      · exfalso; simp only [height_nil] at hrbf; omega
      rw [bfOk_node] at hbfc; obtain ⟨hcbf, hbfc1, hbfc2⟩ := hbfc
      rw [balanced_node] at hbalc; obtain ⟨hc1, hc2, hbalc1, hbalc2⟩ := hbalc
      simp only [height_node] at hrbf hd1 hd2 hbf0
      have hcbf1 : cbf = -1 ∨ cbf = 0 ∨ cbf = 1 := by omega
      have step : ∀ nbf1 nbf2 : Int,
          delStep (node l kk v pk (1 + 1)
              (node (node c1 ck cv cpk cbf c2) rk rv rpk (-1) d)) =
            (node (node l kk v (some ck) nbf1 (setParentKey (some kk) c1))
              ck cv pk 0
              (node (setParentKey (some rk) c2) rk rv (some ck) nbf2 d),
              true) →
          bfOk (node (node l kk v (some ck) nbf1 (setParentKey (some kk) c1))
              ck cv pk 0
              (node (setParentKey (some rk) c2) rk rv (some ck) nbf2 d)) →
          balanced (node (node l kk v (some ck) nbf1
                (setParentKey (some kk) c1))
              ck cv pk 0
              (node (setParentKey (some rk) c2) rk rv (some ck) nbf2 d)) →
          bfOk t' ∧ balanced t' ∧
          (cont = true →
            height t' + 1 =
              max hl0
                (height (node (node c1 ck cv cpk cbf c2) rk rv rpk (-1) d))
                + 1) ∧
          (cont = false →
            height t' =
              max hl0
                (height (node (node c1 ck cv cpk cbf c2) rk rv rpk (-1) d))
                + 1) := by
        intro nbf1 nbf2 heq2 hb1 hb2
        rw [heq2, Prod.mk.injEq] at heq
        obtain ⟨rfl, rfl⟩ := heq
        refine ⟨hb1, hb2, fun _ => ?_, by simp⟩
        simp only [height_node, height_setParentKey]
        omega
      rcases hcbf1 with rfl | rfl | rfl
      · refine step 0 1 (by rfl) ?_ ?_ <;>
          simp only [bfOk_node, balanced_node, height_node, height_setParentKey,
            bfOk_setParentKey, balanced_setParentKey, hbfc1, hbfc2, hbfd, hbfl,
            hbalc1, hbalc2, hbald, hball, and_true, true_and] <;>
          omega
      · refine step 0 0 (by rfl) ?_ ?_ <;>
          simp only [bfOk_node, balanced_node, height_node, height_setParentKey,
            bfOk_setParentKey, balanced_setParentKey, hbfc1, hbfc2, hbfd, hbfl,
            hbalc1, hbalc2, hbald, hball, and_true, true_and] <;>
          omega
      · refine step (-1) 0 (by rfl) ?_ ?_ <;>
          simp only [bfOk_node, balanced_node, height_node, height_setParentKey,
            bfOk_setParentKey, balanced_setParentKey, hbfc1, hbfc2, hbfd, hbfl,
            hbalc1, hbalc2, hbald, hball, and_true, true_and] <;>
          omega
    · -- right child even: single left rotation, height unchanged
      have heq2 : delStep (node l kk v pk (1 + 1) (node c rk rv rpk 0 d)) =
          (node (node l kk v (some rk) 1 (setParentKey (some kk) c))
            rk rv pk (-1) d, false) := by
        rfl
      rw [heq2, Prod.mk.injEq] at heq
      obtain ⟨rfl, rfl⟩ := heq
      refine ⟨?_, ?_, by simp, fun _ => ?_⟩
      · simp only [bfOk_node, height_node, height_setParentKey,
          bfOk_setParentKey, hbfc, hbfd, hbfl, and_true, true_and]
        omega
      · simp only [balanced_node, height_node, height_setParentKey,
          balanced_setParentKey, hbalc, hbald, hball, and_true, true_and]
        omega
      · simp only [height_node, height_setParentKey]
        omega
    · -- right child right-heavy: single left rotation, height shrinks
      have heq2 : delStep (node l kk v pk (1 + 1) (node c rk rv rpk 1 d)) =
          (node (node l kk v (some rk) 0 (setParentKey (some kk) c))
            rk rv pk 0 d, true) := by
        rfl
      rw [heq2, Prod.mk.injEq] at heq
      obtain ⟨rfl, rfl⟩ := heq
      refine ⟨?_, ?_, fun _ => ?_, by simp⟩
      · simp only [bfOk_node, height_node, height_setParentKey,
          bfOk_setParentKey, hbfc, hbfd, hbfl, and_true, true_and]
        omega
      · simp only [balanced_node, height_node, height_setParentKey,
          balanced_setParentKey, hbalc, hbald, hball, and_true, true_and]
        omega
      · simp only [height_node, height_setParentKey]
        omega

/-! ## Structural preservation through the rebalancing steps -/

theorem inorder_insFix (t : PTree K V) : inorder (insFix t).1 = inorder t := by
  cases t with
  | nil => rfl
  | node l k v pk bf r =>
    simp only [insFix]
    split_ifs <;> simp [inorder_rotLeft, inorder_rotRight]

theorem inorder_delFix (t : PTree K V) : inorder (delFix t) = inorder t := by
  cases t with
  | nil => rfl
  | node l k v pk bf r =>
    simp only [delFix]
    split_ifs <;> simp [inorder_rotLeft, inorder_rotRight]

theorem inorder_delStep (t : PTree K V) : inorder (delStep t).1 = inorder t :=
  inorder_delFix t

@[simp] theorem delStep_fst (t : PTree K V) : (delStep t).1 = delFix t := rfl

theorem keys_delFix (t : PTree K V) : keys (delFix t) = keys t := by
  simp [keys, inorder_delFix]

theorem parentOk_insFix {p : Option K} {t : PTree K V} (h : parentOk p t) :
    parentOk p (insFix t).1 := by
  cases t with
  | nil => exact h
  | node l k v pk bf r =>
    rw [parentOk_node] at h
    obtain ⟨hpk, hl, hr⟩ := h
    simp only [insFix]
    split_ifs <;>
      first
        | exact ⟨hpk, hl, hr⟩
        | (apply parentOk_rotRight; exact ⟨hpk, parentOk_rotLeft hl, hr⟩)
        | (apply parentOk_rotRight; exact ⟨hpk, hl, hr⟩)
        | (apply parentOk_rotLeft; exact ⟨hpk, hl, parentOk_rotRight hr⟩)
        | (apply parentOk_rotLeft; exact ⟨hpk, hl, hr⟩)

theorem parentOk_delFix {p : Option K} {t : PTree K V} (h : parentOk p t) :
    parentOk p (delFix t) := by
  cases t with
  | nil => exact h
  | node l k v pk bf r =>
    rw [parentOk_node] at h
    obtain ⟨hpk, hl, hr⟩ := h
    simp only [delFix]
    split_ifs <;>
      first
        | exact ⟨hpk, hl, hr⟩
        | (apply parentOk_rotRight; exact ⟨hpk, parentOk_rotLeft hl, hr⟩)
        | (apply parentOk_rotRight; exact ⟨hpk, hl, hr⟩)
        | (apply parentOk_rotLeft; exact ⟨hpk, hl, parentOk_rotRight hr⟩)
        | (apply parentOk_rotLeft; exact ⟨hpk, hl, hr⟩)

theorem parentOk_delStep {p : Option K} {t : PTree K V} (h : parentOk p t) :
    parentOk p (delStep t).1 :=
  parentOk_delFix h

theorem bst_insFix (hc : LawfulCmp cmp) {t : PTree K V} (h : bst cmp t) :
    bst cmp (insFix t).1 := by
  cases t with
  | nil => exact h
  | node l k v pk bf r =>
    rw [bst_node] at h
    obtain ⟨hlk, hkr, hl, hr⟩ := h
    simp only [insFix]
    split_ifs <;>
      first
        | exact ⟨hlk, hkr, hl, hr⟩
        | (apply bst_rotRight hc
           refine ⟨?_, hkr, bst_rotLeft hc hl, hr⟩
           rw [keys_rotLeft]; exact hlk)
        | (apply bst_rotRight hc; exact ⟨hlk, hkr, hl, hr⟩)
        | (apply bst_rotLeft hc
           refine ⟨hlk, ?_, hl, bst_rotRight hc hr⟩
           rw [keys_rotRight]; exact hkr)
        | (apply bst_rotLeft hc; exact ⟨hlk, hkr, hl, hr⟩)

theorem bst_delFix (hc : LawfulCmp cmp) {t : PTree K V} (h : bst cmp t) :
    bst cmp (delFix t) := by
  cases t with
  | nil => exact h
  | node l k v pk bf r =>
    rw [bst_node] at h
    obtain ⟨hlk, hkr, hl, hr⟩ := h
    simp only [delFix]
    split_ifs <;>
      first
        | exact ⟨hlk, hkr, hl, hr⟩
        | (apply bst_rotRight hc
           refine ⟨?_, hkr, bst_rotLeft hc hl, hr⟩
           rw [keys_rotLeft]; exact hlk)
        | (apply bst_rotRight hc; exact ⟨hlk, hkr, hl, hr⟩)
        | (apply bst_rotLeft hc
           refine ⟨hlk, ?_, hl, bst_rotRight hc hr⟩
           rw [keys_rotRight]; exact hkr)
        | (apply bst_rotLeft hc; exact ⟨hlk, hkr, hl, hr⟩)

theorem bst_delStep (hc : LawfulCmp cmp) {t : PTree K V} (h : bst cmp t) :
    bst cmp (delStep t).1 :=
  bst_delFix hc h

/-! ## Insertion: the main induction -/

/-- Balance-factor correctness, AVL balance and the height-growth
discipline of `insertGo`. -/
theorem insertGo_bal {k : K} {v : V} :
    ∀ (t : PTree K V) (pk : Option K) (t' : PTree K V) (grew : Bool),
      bfOk t → balanced t →
      insertGo cmp k v pk t = some (t', grew) →
      bfOk t' ∧ balanced t' ∧
      (grew = true → height t' = height t + 1 ∧
        (rootBF t' ≠ 0 ∨ height t' = 1)) ∧
      (grew = false → height t' = height t) := by
  intro t
  induction t with
  | nil =>
    intro pk t' grew _ _ heq
    simp only [insertGo, Option.some.injEq, Prod.mk.injEq] at heq
    obtain ⟨rfl, rfl⟩ := heq
    refine ⟨by simp, by simp, fun _ => ⟨by simp, Or.inr (by simp)⟩, by simp⟩
  | node l key val npk bf r ihl ihr =>
    intro pk t' grew hbf hbal heq
    rw [bfOk_node] at hbf; obtain ⟨hbfe, hbfl, hbfr⟩ := hbf
    rw [balanced_node] at hbal; obtain ⟨hb1, hb2, hball, hbalr⟩ := hbal
    simp only [insertGo] at heq
    split_ifs at heq with hc1 hc2
    · -- descend left
      rcases hrec : insertGo cmp k v (some key) l with _ | ⟨l', g⟩ <;>
        rw [hrec] at heq
      · simp at heq
      obtain ⟨hbfl2, hball2, hgt, hgf⟩ :=
        ihl (some key) l' g hbfl hball hrec
      cases g with
      | false =>
        simp only [Bool.false_eq_true, if_false, Option.some.injEq,
          Prod.mk.injEq] at heq
        obtain ⟨rfl, rfl⟩ := heq
        have hh := hgf rfl
        refine ⟨⟨by omega, hbfl2, hbfr⟩,
          ⟨by simp; omega, by simp; omega, hball2, hbalr⟩,
          by simp, fun _ => by simp; omega⟩
      | true =>
        obtain ⟨hh, hnz⟩ := hgt rfl
        simp only [if_true, Option.some.injEq] at heq
        have hne : bf = -1 → rootBF l' ≠ 0 := by
          intro h0
          rcases hnz with h | h
          · exact h
          · exfalso; rw [h0] at hbfe; omega
        have := insFix_left_spec hbfl2 hbfr hball2 hbalr
          hh hbfe (by omega) (by omega) hne heq
        obtain ⟨hA, hB, hC, hD⟩ := this
        refine ⟨hA, hB, fun hg => ?_, fun hg => ?_⟩
        · obtain ⟨h1, h2⟩ := hC hg
          exact ⟨by simp; omega, Or.inl h2⟩
        · have := hD hg; simp; omega
    · -- descend right
      rcases hrec : insertGo cmp k v (some key) r with _ | ⟨r', g⟩ <;>
        rw [hrec] at heq
      · simp at heq
      obtain ⟨hbfr2, hbalr2, hgt, hgf⟩ :=
        ihr (some key) r' g hbfr hbalr hrec
      cases g with
      | false =>
        simp only [Bool.false_eq_true, if_false, Option.some.injEq,
          Prod.mk.injEq] at heq
        obtain ⟨rfl, rfl⟩ := heq
        have hh := hgf rfl
        refine ⟨⟨by omega, hbfl, hbfr2⟩,
          ⟨by simp; omega, by simp; omega, hball, hbalr2⟩,
          by simp, fun _ => by simp; omega⟩
      | true =>
        obtain ⟨hh, hnz⟩ := hgt rfl
        simp only [if_true, Option.some.injEq] at heq
        have hne : bf = 1 → rootBF r' ≠ 0 := by
          intro h0
          rcases hnz with h | h
          · exact h
          · exfalso; rw [h0] at hbfe; omega
        have := insFix_right_spec hbfl hbfr2 hball hbalr2
          hh hbfe (by omega) (by omega) hne heq
        obtain ⟨hA, hB, hC, hD⟩ := this
        refine ⟨hA, hB, fun hg => ?_, fun hg => ?_⟩
        · obtain ⟨h1, h2⟩ := hC hg
          exact ⟨by simp; omega, Or.inl h2⟩
        · have := hD hg; simp; omega

/-- `insertGo` splices the new entry into the in-order sequence. -/
theorem insertGo_inorder {k : K} {v : V} :
    ∀ (t : PTree K V) (pk : Option K) (t' : PTree K V) (grew : Bool),
      insertGo cmp k v pk t = some (t', grew) →
      ∃ xs ys, inorder t = xs ++ ys ∧ inorder t' = xs ++ (k, v) :: ys := by
  intro t
  induction t with
  | nil =>
    intro pk t' grew heq
    simp only [insertGo, Option.some.injEq, Prod.mk.injEq] at heq
    obtain ⟨rfl, rfl⟩ := heq
    exact ⟨[], [], by simp, by simp⟩
  | node l key val npk bf r ihl ihr =>
    intro pk t' grew heq
    simp only [insertGo] at heq
    split_ifs at heq with hc1 hc2
    · rcases hrec : insertGo cmp k v (some key) l with _ | ⟨l', g⟩ <;>
        rw [hrec] at heq
      · simp at heq
      obtain ⟨xs, ys, h1, h2⟩ := ihl _ _ _ hrec
      refine ⟨xs, ys ++ (key, val) :: inorder r, by simp [h1], ?_⟩
      cases g with
      | false =>
        simp only [Bool.false_eq_true, if_false, Option.some.injEq,
          Prod.mk.injEq] at heq
        obtain ⟨rfl, rfl⟩ := heq
        simp [h2]
      | true =>
        simp only [if_true, Option.some.injEq] at heq
        have h3 : inorder t' = inorder (node l' key val npk (bf - 1) r) := by
          rw [← inorder_insFix (node l' key val npk (bf - 1) r), heq]
        rw [h3]; simp [h2]
    · rcases hrec : insertGo cmp k v (some key) r with _ | ⟨r', g⟩ <;>
        rw [hrec] at heq
      · simp at heq
      obtain ⟨xs, ys, h1, h2⟩ := ihr _ _ _ hrec
      refine ⟨inorder l ++ (key, val) :: xs, ys, by simp [h1], ?_⟩
      cases g with
      | false =>
        simp only [Bool.false_eq_true, if_false, Option.some.injEq,
          Prod.mk.injEq] at heq
        obtain ⟨rfl, rfl⟩ := heq
        simp [h2]
      | true =>
        simp only [if_true, Option.some.injEq] at heq
        have h3 : inorder t' = inorder (node l key val npk (bf + 1) r') := by
          rw [← inorder_insFix (node l key val npk (bf + 1) r'), heq]
        rw [h3]; simp [h2]

/-- Every key of the tree produced by `insertGo` is an old key or the
inserted key. -/
theorem insertGo_keys_sub {k : K} {v : V} {t t' : PTree K V} {pk : Option K}
    {grew : Bool}
    (heq : insertGo cmp k v pk t = some (t', grew)) :
    ∀ x ∈ keys t', x ∈ keys t ∨ x = k := by
  obtain ⟨xs, ys, h1, h2⟩ := insertGo_inorder t pk t' grew heq
  intro x hx
  simp only [keys, h1, h2, List.map_append, List.map_cons, List.mem_append,
    List.mem_cons] at hx ⊢
  tauto

/-- `insertGo` maintains every parent back-reference. -/
theorem insertGo_parent {k : K} {v : V} :
    ∀ (t : PTree K V) (pk : Option K) (t' : PTree K V) (grew : Bool),
      parentOk pk t → insertGo cmp k v pk t = some (t', grew) →
      parentOk pk t' := by
  intro t
  induction t with
  | nil =>
    intro pk t' grew _ heq
    simp only [insertGo, Option.some.injEq, Prod.mk.injEq] at heq
    obtain ⟨rfl, rfl⟩ := heq
    simp
  | node l key val npk bf r ihl ihr =>
    intro pk t' grew hp heq
    rw [parentOk_node] at hp
    obtain ⟨hpk, hpl, hpr⟩ := hp
    simp only [insertGo] at heq
    split_ifs at heq with hc1 hc2
    · rcases hrec : insertGo cmp k v (some key) l with _ | ⟨l', g⟩ <;>
        rw [hrec] at heq
      · simp at heq
      have hpl2 := ihl _ _ _ hpl hrec
      cases g with
      | false =>
        simp only [Bool.false_eq_true, if_false, Option.some.injEq,
          Prod.mk.injEq] at heq
        obtain ⟨rfl, rfl⟩ := heq
        exact ⟨hpk, hpl2, hpr⟩
      | true =>
        simp only [if_true, Option.some.injEq] at heq
        have : parentOk pk (insFix (node l' key val npk (bf - 1) r)).1 :=
          parentOk_insFix ⟨hpk, hpl2, hpr⟩
        rwa [heq] at this
    · rcases hrec : insertGo cmp k v (some key) r with _ | ⟨r', g⟩ <;>
        rw [hrec] at heq
      · simp at heq
      have hpr2 := ihr _ _ _ hpr hrec
      cases g with
      | false =>
        simp only [Bool.false_eq_true, if_false, Option.some.injEq,
          Prod.mk.injEq] at heq
        obtain ⟨rfl, rfl⟩ := heq
        exact ⟨hpk, hpl, hpr2⟩
      | true =>
        simp only [if_true, Option.some.injEq] at heq
        have : parentOk pk (insFix (node l key val npk (bf + 1) r')).1 :=
          parentOk_insFix ⟨hpk, hpl, hpr2⟩
        rwa [heq] at this

/-- `insertGo` preserves BST order. -/
theorem insertGo_bst (hc : LawfulCmp cmp) {k : K} {v : V} :
    ∀ (t : PTree K V) (pk : Option K) (t' : PTree K V) (grew : Bool),
      bst cmp t → insertGo cmp k v pk t = some (t', grew) →
      bst cmp t' := by
  intro t
  induction t with
  | nil =>
    intro pk t' grew _ heq
    simp only [insertGo, Option.some.injEq, Prod.mk.injEq] at heq
    obtain ⟨rfl, rfl⟩ := heq
    simp
  | node l key val npk bf r ihl ihr =>
    intro pk t' grew hb heq
    rw [bst_node] at hb
    obtain ⟨hlk, hkr, hbl, hbr⟩ := hb
    simp only [insertGo] at heq
    split_ifs at heq with hc1 hc2
    · rcases hrec : insertGo cmp k v (some key) l with _ | ⟨l', g⟩ <;>
        rw [hrec] at heq
      · simp at heq
      have hbl2 := ihl _ _ _ hbl hrec
      have hlk2 : ∀ x ∈ keys l', cmp x key < 0 := by
        intro x hx
        rcases insertGo_keys_sub hrec x hx with h | rfl
        · exact hlk x h
        · exact hc1
      cases g with
      | false =>
        simp only [Bool.false_eq_true, if_false, Option.some.injEq,
          Prod.mk.injEq] at heq
        obtain ⟨rfl, rfl⟩ := heq
        exact ⟨hlk2, hkr, hbl2, hbr⟩
      | true =>
        simp only [if_true, Option.some.injEq] at heq
        have : bst cmp (insFix (node l' key val npk (bf - 1) r)).1 :=
          bst_insFix hc ⟨hlk2, hkr, hbl2, hbr⟩
        rwa [heq] at this
    · rcases hrec : insertGo cmp k v (some key) r with _ | ⟨r', g⟩ <;>
        rw [hrec] at heq
      · simp at heq
      have hbr2 := ihr _ _ _ hbr hrec
      have hkr2 : ∀ x ∈ keys r', cmp key x < 0 := by
        intro x hx
        rcases insertGo_keys_sub hrec x hx with h | rfl
        · exact hkr x h
        · exact hc.gtInv _ _ hc2
      cases g with
      | false =>
        simp only [Bool.false_eq_true, if_false, Option.some.injEq,
          Prod.mk.injEq] at heq
        obtain ⟨rfl, rfl⟩ := heq
        exact ⟨hlk, hkr2, hbl, hbr2⟩
      | true =>
        simp only [if_true, Option.some.injEq] at heq
        have : bst cmp (insFix (node l key val npk (bf + 1) r')).1 :=
          bst_insFix hc ⟨hlk, hkr2, hbl, hbr2⟩
        rwa [heq] at this

/-- `insertGo` rejects (returns `none`) exactly when a key comparing
equal to the inserted key is already present. -/
theorem insertGo_none_iff (hc : LawfulCmp cmp) {k : K} {v : V} :
    ∀ (t : PTree K V) (pk : Option K), bst cmp t →
      (insertGo cmp k v pk t = none ↔ ∃ x ∈ keys t, cmp k x = 0) := by
  intro t
  induction t with
  | nil => intro pk _; simp [insertGo]
  | node l key val npk bf r ihl ihr =>
    intro pk hb
    rw [bst_node] at hb
    obtain ⟨hlk, hkr, hbl, hbr⟩ := hb
    simp only [insertGo]
    split_ifs with hc1 hc2
    · rw [show (match insertGo cmp k v (some key) l with
        | none => none
        | some (l', grew) =>
          if grew then some (insFix (node l' key val npk (bf - 1) r))
          else some (node l' key val npk bf r, false)) = none ↔
          insertGo cmp k v (some key) l = none from by
            rcases insertGo cmp k v (some key) l with _ | ⟨l', g⟩
            · simp
            · cases g <;> simp]
      rw [ihl _ hbl]
      constructor
      · rintro ⟨x, hx, he⟩
        exact ⟨x, by simp [hx], he⟩
      · rintro ⟨x, hx, he⟩
        simp only [keys_node, List.mem_append, List.mem_cons] at hx
        rcases hx with hx | rfl | hx
        · exact ⟨x, hx, he⟩
        · exact absurd he (by omega)
        · exact absurd he (by
            have := hc.ltTrans _ _ _ hc1 (hkr x hx); omega)
    · rw [show (match insertGo cmp k v (some key) r with
        | none => none
        | some (r', grew) =>
          if grew then some (insFix (node l key val npk (bf + 1) r'))
          else some (node l key val npk bf r', false)) = none ↔
          insertGo cmp k v (some key) r = none from by
            rcases insertGo cmp k v (some key) r with _ | ⟨r', g⟩
            · simp
            · cases g <;> simp]
      rw [ihr _ hbr]
      constructor
      · rintro ⟨x, hx, he⟩
        exact ⟨x, by simp [hx], he⟩
      · rintro ⟨x, hx, he⟩
        simp only [keys_node, List.mem_append, List.mem_cons] at hx
        rcases hx with hx | rfl | hx
        · exfalso
          have h2 := hc.eqLt _ _ _ he (hlk x hx)
          omega
        · exact absurd he (by omega)
        · exact ⟨x, hx, he⟩
    · have h0 : cmp k key = 0 := by omega
      simp only [true_iff]
      exact ⟨key, by simp, h0⟩

/-! ## Deletion: predecessor / successor extraction -/

/-- Full specification of `removeRightmost`: it removes exactly the last
in-order entry, preserves all structural invariants, and reports whether
the subtree height shrank. -/
theorem removeRightmost_spec (hc : LawfulCmp cmp) :
    ∀ (t : PTree K V) (p : Option K) (mk : K) (mv : V) (t' : PTree K V)
      (sh : Bool),
      bfOk t → balanced t → bst cmp t → parentOk p t →
      removeRightmost t = some (mk, mv, t', sh) →
      bfOk t' ∧ balanced t' ∧ bst cmp t' ∧ parentOk p t' ∧
      inorder t = inorder t' ++ [(mk, mv)] ∧
      (∀ x ∈ keys t', cmp x mk < 0) ∧
      (sh = true → height t = height t' + 1) ∧
      (sh = false → height t = height t') := by
  intro t
  induction t with
  | nil => intro p mk mv t' sh _ _ _ _ heq; simp [removeRightmost] at heq
  | node l k v pk bf r ihl ihr =>
    intro p mk mv t' sh hbf hbal hbst hpar heq
    rw [bfOk_node] at hbf; obtain ⟨hbfe, hbfl, hbfr⟩ := hbf
    rw [balanced_node] at hbal; obtain ⟨hb1, hb2, hball, hbalr⟩ := hbal
    rw [bst_node] at hbst; obtain ⟨hlk, hkr, hsl, hsr⟩ := hbst
    rw [parentOk_node] at hpar; obtain ⟨hpk, hpl, hpr⟩ := hpar
    rcases r with _ | ⟨rl, rk, rv, rpk, rbf, rr⟩
    · -- this node is the rightmost: its left child takes its place
      simp only [removeRightmost, Option.some.injEq, Prod.mk.injEq] at heq
      obtain ⟨rfl, rfl, rfl, rfl⟩ := heq
      subst hpk
      refine ⟨by simpa using hbfl, by simpa using hball, by simpa using hsl,
        parentOk_setParentKey hpl, by simp, by simpa using hlk,
        fun _ => by simp, by simp⟩
    · -- recurse into the right subtree
      simp only [removeRightmost] at heq
      rcases hrec : removeRightmost (node rl rk rv rpk rbf rr) with
        _ | ⟨mk2, mv2, r', sh2⟩ <;> rw [hrec] at heq
      · simp at heq
      obtain ⟨hbfr2, hbalr2, hsr2, hpr2, hio, hbound, hsht, hshf⟩ :=
        ihr (some k) mk2 mv2 r' sh2 hbfr hbalr hsr hpr hrec
      have hkeysub : ∀ x ∈ keys r', cmp k x < 0 := by
        intro x hx
        refine hkr x ?_
        simp only [keys, hio, List.map_append, List.mem_append]
        exact Or.inl hx
      have hmkmem : mk2 ∈ keys (node rl rk rv rpk rbf rr) := by
        simp only [keys, hio, List.map_append, List.mem_append]
        simp
      cases sh2 with
      | true =>
        have hh := hsht rfl
        simp only [] at heq
        simp only [if_true, Option.some.injEq, Prod.mk.injEq] at heq
        obtain ⟨rfl, rfl, rfl, rfl⟩ := heq
        obtain ⟨hA, hB, hC, hD⟩ :=
          delStep_right_spec hbfl hbfr2 hball hbalr2 hh hbfe
            (by omega) (by omega) rfl
        have hbnd2 : ∀ x ∈ keys (delStep (node l k v pk (bf - 1) r')).1,
            cmp x mk2 < 0 := by
          intro x hx
          simp only [delStep_fst, keys_delFix, keys_node, List.mem_append,
            List.mem_cons] at hx
          rcases hx with hx | rfl | hx
          · exact hc.ltTrans _ _ _ (hlk x hx) (hkr mk2 hmkmem)
          · exact hkr mk2 hmkmem
          · exact hbound x hx
        refine ⟨hA, hB, ?_, ?_, ?_, hbnd2, fun hcc => ?_, fun hcc => ?_⟩
        · exact bst_delStep hc ⟨hlk, hkeysub, hsl, hsr2⟩
        · exact parentOk_delStep ⟨hpk, hpl, hpr2⟩
        · rw [inorder_delStep]
          simp [hio]
        · simp only [delStep_fst]
          rw [hC hcc]; rfl
        · simp only [delStep_fst]
          rw [hD hcc]; rfl
      | false =>
        have hh := hshf rfl
        simp only [] at heq
        simp only [Bool.false_eq_true, if_false, Option.some.injEq,
          Prod.mk.injEq] at heq
        obtain ⟨rfl, rfl, rfl, rfl⟩ := heq
        have hbnd2 : ∀ x ∈ keys (node l k v pk bf r'), cmp x mk2 < 0 := by
          intro x hx
          simp only [keys_node, List.mem_append, List.mem_cons] at hx
          rcases hx with hx | rfl | hx
          · exact hc.ltTrans _ _ _ (hlk x hx) (hkr mk2 hmkmem)
          · exact hkr mk2 hmkmem
          · exact hbound x hx
        refine ⟨⟨by omega, hbfl, hbfr2⟩,
          ⟨by simp; omega, by simp; omega, hball, hbalr2⟩,
          ⟨hlk, hkeysub, hsl, hsr2⟩, ⟨hpk, hpl, hpr2⟩,
          by simp [hio], hbnd2, by simp,
          fun _ => by simp only [height_node] at hh ⊢; omega⟩

/-- Mirror image: `removeLeftmost` removes exactly the first in-order
entry. -/
theorem removeLeftmost_spec (hc : LawfulCmp cmp) :
    ∀ (t : PTree K V) (p : Option K) (mk : K) (mv : V) (t' : PTree K V)
      (sh : Bool),
      bfOk t → balanced t → bst cmp t → parentOk p t →
      removeLeftmost t = some (mk, mv, t', sh) →
      bfOk t' ∧ balanced t' ∧ bst cmp t' ∧ parentOk p t' ∧
      inorder t = (mk, mv) :: inorder t' ∧
      (∀ x ∈ keys t', cmp mk x < 0) ∧
      (sh = true → height t = height t' + 1) ∧
      (sh = false → height t = height t') := by
  intro t
  induction t with
  | nil => intro p mk mv t' sh _ _ _ _ heq; simp [removeLeftmost] at heq
  | node l k v pk bf r ihl ihr =>
    intro p mk mv t' sh hbf hbal hbst hpar heq
    rw [bfOk_node] at hbf; obtain ⟨hbfe, hbfl, hbfr⟩ := hbf
    rw [balanced_node] at hbal; obtain ⟨hb1, hb2, hball, hbalr⟩ := hbal
    rw [bst_node] at hbst; obtain ⟨hlk, hkr, hsl, hsr⟩ := hbst
    rw [parentOk_node] at hpar; obtain ⟨hpk, hpl, hpr⟩ := hpar
    rcases l with _ | ⟨ll, lk, lv, lpk, lbf, lr⟩
    · -- this node is the leftmost: its right child takes its place
      simp only [removeLeftmost, Option.some.injEq, Prod.mk.injEq] at heq
      obtain ⟨rfl, rfl, rfl, rfl⟩ := heq
      subst hpk
      refine ⟨by simpa using hbfr, by simpa using hbalr, by simpa using hsr,
        parentOk_setParentKey hpr, by simp, by simpa using hkr,
        fun _ => by simp, by simp⟩
    · -- recurse into the left subtree
      simp only [removeLeftmost] at heq
      rcases hrec : removeLeftmost (node ll lk lv lpk lbf lr) with
        _ | ⟨mk2, mv2, l', sh2⟩ <;> rw [hrec] at heq
      · simp at heq
      obtain ⟨hbfl2, hball2, hsl2, hpl2, hio, hbound, hsht, hshf⟩ :=
        ihl (some k) mk2 mv2 l' sh2 hbfl hball hsl hpl hrec
      have hkeysub : ∀ x ∈ keys l', cmp x k < 0 := by
        intro x hx
        refine hlk x ?_
        simp only [keys, hio, List.map_cons, List.mem_cons]
        exact Or.inr hx
      cases sh2 with
      | true =>
        have hh := hsht rfl
        simp only [] at heq
        simp only [if_true, Option.some.injEq, Prod.mk.injEq] at heq
        obtain ⟨rfl, rfl, rfl, rfl⟩ := heq
        obtain ⟨hA, hB, hC, hD⟩ :=
          delStep_left_spec hbfl2 hbfr hball2 hbalr hh hbfe
            (by omega) (by omega) rfl
        have hmkk : cmp mk2 k < 0 := by
          refine hlk mk2 ?_
          simp only [keys, hio, List.map_cons, List.mem_cons]
          exact Or.inl trivial
        have hbnd2 : ∀ x ∈ keys (delStep (node l' k v pk (bf + 1) r)).1,
            cmp mk2 x < 0 := by
          intro x hx
          simp only [delStep_fst, keys_delFix, keys_node, List.mem_append,
            List.mem_cons] at hx
          rcases hx with hx | rfl | hx
          · exact hbound x hx
          · exact hmkk
          · exact hc.ltTrans _ _ _ hmkk (hkr x hx)
        refine ⟨hA, hB, ?_, ?_, ?_, hbnd2, fun hcc => ?_, fun hcc => ?_⟩
        · exact bst_delStep hc ⟨hkeysub, hkr, hsl2, hsr⟩
        · exact parentOk_delStep ⟨hpk, hpl2, hpr⟩
        · rw [inorder_delStep]
          simp [hio]
        · simp only [delStep_fst]
          rw [hC hcc]; rfl
        · simp only [delStep_fst]
          rw [hD hcc]; rfl
      | false =>
        have hh := hshf rfl
        simp only [] at heq
        simp only [Bool.false_eq_true, if_false, Option.some.injEq,
          Prod.mk.injEq] at heq
        obtain ⟨rfl, rfl, rfl, rfl⟩ := heq
        have hmkk : cmp mk2 k < 0 := by
          refine hlk mk2 ?_
          simp only [keys, hio, List.map_cons, List.mem_cons]
          exact Or.inl trivial
        have hbnd2 : ∀ x ∈ keys (node l' k v pk bf r), cmp mk2 x < 0 := by
          intro x hx
          simp only [keys_node, List.mem_append, List.mem_cons] at hx
          rcases hx with hx | rfl | hx
          · exact hbound x hx
          · exact hmkk
          · exact hc.ltTrans _ _ _ hmkk (hkr x hx)
        refine ⟨⟨by omega, hbfl2, hbfr⟩,
          ⟨by simp; omega, by simp; omega, hball2, hbalr⟩,
          ⟨hkeysub, hkr, hsl2, hsr⟩, ⟨hpk, hpl2, hpr⟩,
          by simp [hio], hbnd2, by simp,
          fun _ => by simp only [height_node] at hh ⊢; omega⟩

/-! ## Deletion: the two-children paths -/

/-- Specification of the predecessor path `delPredGen`: it merges the
two subtrees of the removed node around the extracted predecessor,
preserving all invariants; the resulting root parent reference is the
removed node's. -/
theorem delPredGen_spec (hc : LawfulCmp cmp) {l r t' : PTree K V}
    {pk pl pr : Option K} {bf : Int} {sh : Bool}
    (hbfl : bfOk l) (hbfr : bfOk r) (hball : balanced l) (hbalr : balanced r)
    (hsl : bst cmp l) (hsr : bst cmp r)
    (hpl : parentOk pl l) (hpr : parentOk pr r)
    (hcross : ∀ x ∈ keys l, ∀ y ∈ keys r, cmp x y < 0)
    (hbfe : bf = (height r : Int) - (height l : Int))
    (hb1 : (height l : Int) - (height r : Int) ≤ 1)
    (hb2 : (height r : Int) - (height l : Int) ≤ 1)
    (heq : delPredGen l pk bf r = some (t', sh)) :
    bfOk t' ∧ balanced t' ∧ bst cmp t' ∧ parentOk pk t' ∧
    inorder t' = inorder l ++ inorder r ∧
    (sh = true → max (height l) (height r) = height t') ∧
    (sh = false → max (height l) (height r) + 1 = height t') := by
  simp only [delPredGen] at heq
  rcases hrm : removeRightmost l with _ | ⟨mk2, mv2, l', sh2⟩ <;>
    rw [hrm] at heq
  · simp at heq
  obtain ⟨hbfl2, hball2, hsl2, hpl2, hio, hbound, hsht, hshf⟩ :=
    removeRightmost_spec hc l pl mk2 mv2 l' sh2 hbfl hball hsl hpl hrm
  have hmkmem : mk2 ∈ keys l := by
    simp only [keys, hio, List.map_append, List.mem_append]
    simp
  have hbstX : ∀ x ∈ keys (setParentKey (some mk2) r), cmp mk2 x < 0 := by
    intro x hx
    rw [keys_setParentKey] at hx
    exact hcross mk2 hmkmem x hx
  cases sh2 with
  | true =>
    simp only [] at heq
    simp only [if_true, Option.some.injEq] at heq
    have hh : height l = height (setParentKey (some mk2) l') + 1 := by
      simpa using hsht rfl
    obtain ⟨hA, hB, hC, hD⟩ :=
      delStep_left_spec (by simpa using hbfl2) (by simpa using hbfr)
        (by simpa using hball2) (by simpa using hbalr) hh
        (by simpa using hbfe) (by omega) (by omega) heq
    refine ⟨hA, hB, ?_, ?_, ?_, fun hcc => ?_, fun hcc => ?_⟩
    · have h8 : bst cmp (node (setParentKey (some mk2) l') mk2 mv2 pk
          (bf + 1) (setParentKey (some mk2) r)) :=
        ⟨by simpa using hbound, hbstX, by simpa using hsl2,
          by simpa using hsr⟩
      have h9 := bst_delStep hc h8
      rwa [heq] at h9
    · have h8 : parentOk pk (node (setParentKey (some mk2) l') mk2 mv2 pk
          (bf + 1) (setParentKey (some mk2) r)) :=
        ⟨rfl, parentOk_setParentKey hpl2, parentOk_setParentKey hpr⟩
      have h9 := parentOk_delStep h8
      rwa [heq] at h9
    · have h9 := inorder_delStep (node (setParentKey (some mk2) l') mk2 mv2
        pk (bf + 1) (setParentKey (some mk2) r))
      rw [heq] at h9
      rw [h9]
      simp [hio]
    · have h9 := hC hcc
      simp only [height_setParentKey] at h9
      omega
    · have h9 := hD hcc
      simp only [height_setParentKey] at h9
      omega
  | false =>
    simp only [] at heq
    simp only [Bool.false_eq_true, if_false, Option.some.injEq,
      Prod.mk.injEq] at heq
    obtain ⟨rfl, rfl⟩ := heq
    have hh : height l = height l' := by simpa using hshf rfl
    refine ⟨⟨?_, by simpa using hbfl2, by simpa using hbfr⟩,
      ⟨?_, ?_, by simpa using hball2, by simpa using hbalr⟩,
      ⟨by simpa using hbound, hbstX, by simpa using hsl2, by simpa using hsr⟩,
      ⟨rfl, parentOk_setParentKey hpl2, parentOk_setParentKey hpr⟩,
      by simp [hio], by simp, fun _ => ?_⟩
    · simp only [height_setParentKey]
      omega
    · simp only [height_setParentKey]
      omega
    · simp only [height_setParentKey]
      omega
    · simp only [height_node, height_setParentKey, hh]

/-- Specification of the general successor path `delSuccGen`
(mirror of `delPredGen_spec`). -/
theorem delSuccGen_spec (hc : LawfulCmp cmp) {l r t' : PTree K V}
    {pk pl pr : Option K} {bf : Int} {sh : Bool}
    (hbfl : bfOk l) (hbfr : bfOk r) (hball : balanced l) (hbalr : balanced r)
    (hsl : bst cmp l) (hsr : bst cmp r)
    (hpl : parentOk pl l) (hpr : parentOk pr r)
    (hcross : ∀ x ∈ keys l, ∀ y ∈ keys r, cmp x y < 0)
    (hbfe : bf = (height r : Int) - (height l : Int))
    (hb1 : (height l : Int) - (height r : Int) ≤ 1)
    (hb2 : (height r : Int) - (height l : Int) ≤ 1)
    (heq : delSuccGen l pk bf r = some (t', sh)) :
    bfOk t' ∧ balanced t' ∧ bst cmp t' ∧ parentOk pk t' ∧
    inorder t' = inorder l ++ inorder r ∧
    (sh = true → max (height l) (height r) = height t') ∧
    (sh = false → max (height l) (height r) + 1 = height t') := by
  simp only [delSuccGen] at heq
  rcases hrm : removeLeftmost r with _ | ⟨mk2, mv2, r', sh2⟩ <;>
    rw [hrm] at heq
  · simp at heq
  obtain ⟨hbfr2, hbalr2, hsr2, hpr2, hio, hbound, hsht, hshf⟩ :=
    removeLeftmost_spec hc r pr mk2 mv2 r' sh2 hbfr hbalr hsr hpr hrm
  have hmkmem : mk2 ∈ keys r := by
    simp only [keys, hio, List.map_cons, List.mem_cons]
    exact Or.inl trivial
  have hbstX : ∀ x ∈ keys (setParentKey (some mk2) l), cmp x mk2 < 0 := by
    intro x hx
    rw [keys_setParentKey] at hx
    exact hcross x hx mk2 hmkmem
  cases sh2 with
  | true =>
    simp only [] at heq
    simp only [if_true, Option.some.injEq] at heq
    have hh : height r = height (setParentKey (some mk2) r') + 1 := by
      simpa using hsht rfl
    obtain ⟨hA, hB, hC, hD⟩ :=
      delStep_right_spec (by simpa using hbfl) (by simpa using hbfr2)
        (by simpa using hball) (by simpa using hbalr2) hh
        (by simpa using hbfe) (by omega) (by omega) heq
    refine ⟨hA, hB, ?_, ?_, ?_, fun hcc => ?_, fun hcc => ?_⟩
    · have h8 : bst cmp (node (setParentKey (some mk2) l) mk2 mv2 pk
          (bf - 1) (setParentKey (some mk2) r')) :=
        ⟨hbstX, by simpa using hbound, by simpa using hsl,
          by simpa using hsr2⟩
      have h9 := bst_delStep hc h8
      rwa [heq] at h9
    · have h8 : parentOk pk (node (setParentKey (some mk2) l) mk2 mv2 pk
          (bf - 1) (setParentKey (some mk2) r')) :=
        ⟨rfl, parentOk_setParentKey hpl, parentOk_setParentKey hpr2⟩
      have h9 := parentOk_delStep h8
      rwa [heq] at h9
    · have h9 := inorder_delStep (node (setParentKey (some mk2) l) mk2 mv2
        pk (bf - 1) (setParentKey (some mk2) r'))
      rw [heq] at h9
      rw [h9]
      simp [hio]
    · have h9 := hC hcc
      simp only [height_setParentKey] at h9
      omega
    · have h9 := hD hcc
      simp only [height_setParentKey] at h9
      omega
  | false =>
    simp only [] at heq
    simp only [Bool.false_eq_true, if_false, Option.some.injEq,
      Prod.mk.injEq] at heq
    obtain ⟨rfl, rfl⟩ := heq
    have hh : height r = height r' := by simpa using hshf rfl
    refine ⟨⟨?_, by simpa using hbfl, by simpa using hbfr2⟩,
      ⟨?_, ?_, by simpa using hball, by simpa using hbalr2⟩,
      ⟨hbstX, by simpa using hbound, by simpa using hsl, by simpa using hsr2⟩,
      ⟨rfl, parentOk_setParentKey hpl, parentOk_setParentKey hpr2⟩,
      by simp [hio], by simp, fun _ => ?_⟩
    · simp only [height_setParentKey]
      omega
    · simp only [height_setParentKey]
      omega
    · simp only [height_setParentKey]
      omega
    · simp only [height_node, height_setParentKey, hh]

/-! ## Deletion: the main induction -/

/-- Full specification of `deleteGo`: on success it removes exactly one
entry, whose key compares equal to the searched key, preserves all
structural invariants, and reports the height change discipline of
`rebalanceAfterDeletion`. -/
theorem deleteGo_spec (hc : LawfulCmp cmp) {k : K} :
    ∀ (t : PTree K V) (p : Option K) (t' : PTree K V) (sh : Bool),
      bfOk t → balanced t → bst cmp t → parentOk p t →
      deleteGo cmp k t = some (t', sh) →
      bfOk t' ∧ balanced t' ∧ bst cmp t' ∧ parentOk p t' ∧
      (∃ x0 v0 xs ys, cmp k x0 = 0 ∧
        inorder t = xs ++ (x0, v0) :: ys ∧ inorder t' = xs ++ ys) ∧
      (sh = true → height t = height t' + 1) ∧
      (sh = false → height t = height t') := by
  intro t
  induction t with
  | nil => intro p t' sh _ _ _ _ heq; simp [deleteGo] at heq
  | node l key val pk bf r ihl ihr =>
    intro p t' sh hbf hbal hbst hpar heq
    rw [bfOk_node] at hbf; obtain ⟨hbfe, hbfl, hbfr⟩ := hbf
    rw [balanced_node] at hbal; obtain ⟨hb1, hb2, hball, hbalr⟩ := hbal
    rw [bst_node] at hbst; obtain ⟨hlk, hkr, hsl, hsr⟩ := hbst
    rw [parentOk_node] at hpar; obtain ⟨hpk, hpl, hpr⟩ := hpar
    simp only [deleteGo] at heq
    split_ifs at heq with hc1 hc2
    · -- descend left
      rcases hrec : deleteGo cmp k l with _ | ⟨l', g⟩ <;> rw [hrec] at heq
      · simp at heq
      obtain ⟨hbfl2, hball2, hsl2, hpl2, hex, hsht, hshf⟩ :=
        ihl (some key) l' g hbfl hball hsl hpl hrec
      obtain ⟨x0, v0, xs, ys, hx0, hi1, hi2⟩ := hex
      have hlk2 : ∀ x ∈ keys l', cmp x key < 0 := by
        intro x hx
        refine hlk x ?_
        simp only [keys, hi1, hi2, List.map_append, List.mem_append] at hx ⊢
        rcases hx with hx | hx
        · exact Or.inl hx
        · exact Or.inr (by simp [hx])
      cases g with
      | true =>
        simp only [] at heq
        simp only [if_true, Option.some.injEq] at heq
        have hh := hsht rfl
        obtain ⟨hA, hB, hC, hD⟩ :=
          delStep_left_spec hbfl2 hbfr hball2 hbalr hh hbfe
            (by omega) (by omega) heq
        refine ⟨hA, hB, ?_, ?_, ?_, fun hcc => ?_, fun hcc => ?_⟩
        · have h9 : bst cmp (delStep (node l' key val pk (bf + 1) r)).1 :=
            bst_delStep hc ⟨hlk2, hkr, hsl2, hsr⟩
          rwa [heq] at h9
        · have h9 : parentOk p (delStep (node l' key val pk (bf + 1) r)).1 :=
            parentOk_delStep ⟨hpk, hpl2, hpr⟩
          rwa [heq] at h9
        · have h9 := inorder_delStep (node l' key val pk (bf + 1) r)
          rw [heq] at h9
          exact ⟨x0, v0, xs, ys ++ (key, val) :: inorder r,
            hx0, by simp [hi1], by simp [h9, hi2]⟩
        · rw [hC hcc]; rfl
        · rw [hD hcc]; rfl
      | false =>
        simp only [] at heq
        simp only [Bool.false_eq_true, if_false, Option.some.injEq,
          Prod.mk.injEq] at heq
        obtain ⟨rfl, rfl⟩ := heq
        have hh := hshf rfl
        refine ⟨⟨by omega, hbfl2, hbfr⟩,
          ⟨by simp; omega, by simp; omega, hball2, hbalr⟩,
          ⟨hlk2, hkr, hsl2, hsr⟩, ⟨hpk, hpl2, hpr⟩,
          ⟨x0, v0, xs, ys ++ (key, val) :: inorder r,
            hx0, by simp [hi1], by simp [hi2]⟩,
          by simp, fun _ => by simp; omega⟩
    · -- descend right
      rcases hrec : deleteGo cmp k r with _ | ⟨r', g⟩ <;> rw [hrec] at heq
      · simp at heq
      obtain ⟨hbfr2, hbalr2, hsr2, hpr2, hex, hsht, hshf⟩ :=
        ihr (some key) r' g hbfr hbalr hsr hpr hrec
      obtain ⟨x0, v0, xs, ys, hx0, hi1, hi2⟩ := hex
      have hkr2 : ∀ x ∈ keys r', cmp key x < 0 := by
        intro x hx
        refine hkr x ?_
        simp only [keys, hi1, hi2, List.map_append, List.mem_append] at hx ⊢
        rcases hx with hx | hx
        · exact Or.inl hx
        · exact Or.inr (by simp [hx])
      cases g with
      | true =>
        simp only [] at heq
        simp only [if_true, Option.some.injEq] at heq
        have hh := hsht rfl
        obtain ⟨hA, hB, hC, hD⟩ :=
          delStep_right_spec hbfl hbfr2 hball hbalr2 hh hbfe
            (by omega) (by omega) heq
        refine ⟨hA, hB, ?_, ?_, ?_, fun hcc => ?_, fun hcc => ?_⟩
        · have h9 : bst cmp (delStep (node l key val pk (bf - 1) r')).1 :=
            bst_delStep hc ⟨hlk, hkr2, hsl, hsr2⟩
          rwa [heq] at h9
        · have h9 : parentOk p (delStep (node l key val pk (bf - 1) r')).1 :=
            parentOk_delStep ⟨hpk, hpl, hpr2⟩
          rwa [heq] at h9
        · have h9 := inorder_delStep (node l key val pk (bf - 1) r')
          rw [heq] at h9
          exact ⟨x0, v0, inorder l ++ (key, val) :: xs, ys,
            hx0, by simp [hi1], by simp [h9, hi2]⟩
        · rw [hC hcc]; rfl
        · rw [hD hcc]; rfl
      | false =>
        simp only [] at heq
        simp only [Bool.false_eq_true, if_false, Option.some.injEq,
          Prod.mk.injEq] at heq
        obtain ⟨rfl, rfl⟩ := heq
        have hh := hshf rfl
        refine ⟨⟨by omega, hbfl, hbfr2⟩,
          ⟨by simp; omega, by simp; omega, hball, hbalr2⟩,
          ⟨hlk, hkr2, hsl, hsr2⟩, ⟨hpk, hpl, hpr2⟩,
          ⟨x0, v0, inorder l ++ (key, val) :: xs, ys,
            hx0, by simp [hi1], by simp [hi2]⟩,
          by simp, fun _ => by simp; omega⟩
    · -- found the node to delete
      have hk0 : cmp k key = 0 := by omega
      subst hpk
      rcases l with _ | ⟨ll, lk, lv, lpk, lbf, lr⟩
      · rcases r with _ | ⟨rl, rk, rv, rpk, rbf, rr⟩
        · -- leaf removal
          simp only [deleteFound, Option.some.injEq, Prod.mk.injEq] at heq
          obtain ⟨rfl, rfl⟩ := heq
          exact ⟨trivial, trivial, trivial, trivial,
            ⟨key, val, [], [], hk0, by simp, by simp⟩,
            fun _ => by simp, by simp⟩
        · -- only a right child
          simp only [deleteFound, Option.some.injEq, Prod.mk.injEq] at heq
          obtain ⟨rfl, rfl⟩ := heq
          refine ⟨by simpa using hbfr, by simpa using hbalr,
            by simpa using hsr, parentOk_setParentKey hpr,
            ⟨key, val, [], inorder (node rl rk rv rpk rbf rr),
              hk0, by simp, by simp⟩,
            fun _ => ?_, by simp⟩
          simp only [height_node, height_nil, height_setParentKey] at hb1 ⊢
          omega
      · rcases r with _ | ⟨rl, rk, rv, rpk, rbf, rr⟩
        · -- only a left child
          simp only [deleteFound, Option.some.injEq, Prod.mk.injEq] at heq
          obtain ⟨rfl, rfl⟩ := heq
          refine ⟨by simpa using hbfl, by simpa using hball,
            by simpa using hsl, parentOk_setParentKey hpl,
            ⟨key, val, inorder (node ll lk lv lpk lbf lr), [],
              hk0, by simp, by simp⟩,
            fun _ => ?_, by simp⟩
          simp only [height_node, height_nil, height_setParentKey] at hb2 ⊢
          omega
        · -- two children: predecessor or successor path by balance factor
          simp only [deleteFound] at heq
          have hcross : ∀ x ∈ keys (node ll lk lv lpk lbf lr),
              ∀ y ∈ keys (node rl rk rv rpk rbf rr), cmp x y < 0 :=
            fun x hx y hy => hc.ltTrans _ _ _ (hlk x hx) (hkr y hy)
          by_cases hbf0 : bf ≤ 0
          · rw [if_pos hbf0] at heq
            obtain ⟨hA, hB, hC, hD, hio2, hh1, hh2⟩ :=
              delPredGen_spec hc hbfl hbfr hball hbalr hsl hsr hpl hpr
                hcross hbfe hb1 hb2 heq
            refine ⟨hA, hB, hC, hD,
              ⟨key, val, inorder (node ll lk lv lpk lbf lr),
                inorder (node rl rk rv rpk rbf rr), hk0, by simp,
                by rw [hio2]⟩,
              fun hcc => ?_, fun hcc => ?_⟩
            · have h9 := hh1 hcc
              rw [height_node, ← h9]
            · have h9 := hh2 hcc
              rw [height_node, ← h9]
          · rw [if_neg hbf0] at heq
            rcases rl with _ | ⟨c, ck, cv, cpk, cbf, c2⟩
            · rcases rr with _ | ⟨d, dk, dv, dpk, dbf, d2⟩
              · -- the source's literal special case: successor is the
                -- removed node's childless right child; unreachable under
                -- the AVL invariant (it needs balanceFactor > 0 with a
                -- singleton right subtree and a nonempty left subtree)
                exfalso
                simp only [height_node, height_nil, Nat.max_self] at hbfe
                omega
              · simp only [delTwo] at heq
                obtain ⟨hA, hB, hC, hD, hio2, hh1, hh2⟩ :=
                  delSuccGen_spec hc hbfl hbfr hball hbalr hsl hsr hpl hpr
                    hcross hbfe hb1 hb2 heq
                refine ⟨hA, hB, hC, hD,
                  ⟨key, val, inorder (node ll lk lv lpk lbf lr),
                    inorder (node nil rk rv rpk rbf (node d dk dv dpk dbf d2)),
                    hk0, by simp, by rw [hio2]⟩,
                  fun hcc => ?_, fun hcc => ?_⟩
                · have h9 := hh1 hcc
                  rw [height_node, ← h9]
                · have h9 := hh2 hcc
                  rw [height_node, ← h9]
            · simp only [delTwo] at heq
              obtain ⟨hA, hB, hC, hD, hio2, hh1, hh2⟩ :=
                delSuccGen_spec hc hbfl hbfr hball hbalr hsl hsr hpl hpr
                  hcross hbfe hb1 hb2 heq
              refine ⟨hA, hB, hC, hD,
                ⟨key, val, inorder (node ll lk lv lpk lbf lr),
                  inorder (node (node c ck cv cpk cbf c2) rk rv rpk rbf rr),
                  hk0, by simp, by rw [hio2]⟩,
                fun hcc => ?_, fun hcc => ?_⟩
              · have h9 := hh1 hcc
                rw [height_node, ← h9]
              · have h9 := hh2 hcc
                rw [height_node, ← h9]

/-! ## Lookup -/

/-- `getNode` finds the node of any entry whose key compares equal to the
searched key (in a BST there is at most one). -/
theorem getNodeT_some (hc : LawfulCmp cmp) {k : K} :
    ∀ (t : PTree K V), bst cmp t → ∀ x0 v0, (x0, v0) ∈ inorder t →
      cmp k x0 = 0 →
      ∃ l2 pk2 bf2 r2, getNodeT cmp k t = some (node l2 x0 v0 pk2 bf2 r2) := by
  intro t
  induction t with
  | nil => intro _ x0 v0 hmem _; simp at hmem
  | node l key val pk bf r ihl ihr =>
    intro hb x0 v0 hmem he
    rw [bst_node] at hb
    obtain ⟨hlk, hkr, hbl, hbr⟩ := hb
    simp only [inorder_node, List.mem_append, List.mem_cons,
      Prod.mk.injEq] at hmem
    simp only [getNodeT]
    split_ifs with hc1 hc2
    · refine ihl hbl x0 v0 ?_ he
      rcases hmem with h | ⟨rfl, rfl⟩ | h
      · exact h
      · exact absurd he (by omega)
      · exfalso
        have hx : x0 ∈ keys r := by
          simp only [keys, List.mem_map]
          exact ⟨(x0, v0), h, rfl⟩
        have := hc.ltTrans _ _ _ hc1 (hkr x0 hx)
        omega
    · refine ihr hbr x0 v0 ?_ he
      rcases hmem with h | ⟨rfl, rfl⟩ | h
      · exfalso
        have hx : x0 ∈ keys l := by
          simp only [keys, List.mem_map]
          exact ⟨(x0, v0), h, rfl⟩
        have := hc.eqLt _ _ _ he (hlk x0 hx)
        omega
      · exact absurd he (by omega)
      · exact h
    · have h0 : cmp k key = 0 := by omega
      rcases hmem with h | ⟨rfl, rfl⟩ | h
      · exfalso
        have hx : x0 ∈ keys l := by
          simp only [keys, List.mem_map]
          exact ⟨(x0, v0), h, rfl⟩
        have := hc.eqLt _ _ _ he (hlk x0 hx)
        omega
      · exact ⟨l, pk, bf, r, rfl⟩
      · exfalso
        have hx : x0 ∈ keys r := by
          simp only [keys, List.mem_map]
          exact ⟨(x0, v0), h, rfl⟩
        have := hc.eqLt _ _ _ h0 (hkr x0 hx)
        omega

/-- `get` returns the stored value of any entry whose key compares equal
to the searched key. -/
theorem getT_of_mem (hc : LawfulCmp cmp) {k : K} {t : PTree K V} {x0 : K}
    {v0 : V} (hb : bst cmp t) (hmem : (x0, v0) ∈ inorder t)
    (he : cmp k x0 = 0) : getT cmp k t = some v0 := by
  obtain ⟨l2, pk2, bf2, r2, hg⟩ := getNodeT_some hc t hb x0 v0 hmem he
  simp [getT, hg]

/-- When no key of the tree compares equal to the searched key, the
`getNode` descent comes up empty. -/
theorem getNodeT_none {k : K} :
    ∀ (t : PTree K V), (∀ x ∈ keys t, cmp k x ≠ 0) →
      getNodeT cmp k t = none := by
  intro t
  induction t with
  | nil => intro _; rfl
  | node l key val pk bf r ihl ihr =>
    intro h
    simp only [getNodeT]
    split_ifs with hc1 hc2
    · exact ihl (fun x hx => h x (by simp [hx]))
    · exact ihr (fun x hx => h x (by simp [hx]))
    · exact absurd (by omega : cmp k key = 0) (h key (by simp))

/-- `get` misses when no key of the tree compares equal. -/
theorem getT_none {k : K} {t : PTree K V}
    (h : ∀ x ∈ keys t, cmp k x ≠ 0) : getT cmp k t = none := by
  simp [getT, getNodeT_none t h]

/-! ## Sortedness of the in-order traversal -/

/-- In a BST the in-order key list is a strictly ascending chain. -/
theorem bst_chain :
    ∀ (t : PTree K V), bst cmp t →
      List.Chain' (fun a b => cmp a b < 0) (keys t) := by
  intro t
  induction t with
  | nil => intro _; simp
  | node l k v pk bf r ihl ihr =>
    intro hb
    rw [bst_node] at hb
    obtain ⟨hlk, hkr, hbl, hbr⟩ := hb
    rw [keys_node, List.chain'_append]
    refine ⟨ihl hbl, ?_, ?_⟩
    · rw [List.chain'_cons']
      exact ⟨fun y hy => hkr y (List.mem_of_mem_head? hy), ihr hbr⟩
    · intro x hx y hy
      simp only [List.head?_cons, Option.mem_def, Option.some.injEq] at hy
      subst hy
      exact hlk x (List.mem_of_mem_getLast? hx)

/-- Splitting the sorted in-order list at one entry bounds all keys on
each side of the split strictly. -/
theorem sorted_split (hc : LawfulCmp cmp)
    {xs ys : List (K × V)} {x0 : K} {v0 : V} {t : PTree K V}
    (hb : bst cmp t) (hi : inorder t = xs ++ (x0, v0) :: ys) :
    (∀ e ∈ xs, cmp e.1 x0 < 0) ∧ (∀ e ∈ ys, cmp x0 e.1 < 0) := by
  haveI : IsTrans K (fun a b => cmp a b < 0) := ⟨hc.ltTrans⟩
  have hch := bst_chain t hb
  rw [keys, hi, List.map_append, List.map_cons,
    List.chain'_iff_pairwise, List.pairwise_append] at hch
  obtain ⟨h1, h2, h3⟩ := hch
  rw [List.pairwise_cons] at h2
  constructor
  · intro e he
    exact h3 e.1 (List.mem_map_of_mem _ he) x0 (by simp)
  · intro e he
    exact h2.1 e.1 (List.mem_map_of_mem _ he)

/-- The structural invariants imply that the source's `checkTree`
assertion function passes. -/
theorem checkTreeB_of_inv [DecidableEq K] {p : Option K} :
    ∀ (t : PTree K V), bfOk t → balanced t → parentOk p t →
      checkTreeB t = true := by
  intro t
  induction t generalizing p with
  | nil => intro _ _ _; rfl
  | node l k v pk bf r ihl ihr =>
    intro hbf hbal hpar
    rw [bfOk_node] at hbf
    obtain ⟨hbfe, hbfl, hbfr⟩ := hbf
    rw [balanced_node] at hbal
    obtain ⟨hb1, hb2, hball, hbalr⟩ := hbal
    rw [parentOk_node] at hpar
    obtain ⟨hpk, hpl, hpr⟩ := hpar
    simp only [checkTreeB, Bool.and_eq_true, decide_eq_true_eq, beq_iff_eq]
    refine ⟨⟨⟨⟨⟨⟨?_, ?_⟩, by omega⟩, by omega⟩, by omega⟩,
      ihl hbfl hball hpl⟩, ihr hbfr hbalr hpr⟩
    · cases l with
      | nil => rfl
      | node a b c d e f =>
        rw [parentOk_node] at hpl
        simp [hpl.1]
    · cases r with
      | nil => rfl
      | node a b c d e f =>
        rw [parentOk_node] at hpr
        simp [hpr.1]

/-! ## Totality of the deletion paths on a found node -/

/-- `removeRightmost` succeeds on every nonempty subtree. -/
theorem removeRightmost_ne_none :
    ∀ (t : PTree K V), t ≠ nil → removeRightmost t ≠ none := by
  intro t
  induction t with
  | nil => intro h; exact absurd rfl h
  | node l k v pk bf r ihl ihr =>
    intro _ heq
    cases r with
    | nil => simp [removeRightmost] at heq
    | node rl rk rv rpk rbf rr =>
      simp only [removeRightmost] at heq
      rcases hrm : removeRightmost (node rl rk rv rpk rbf rr) with
        _ | ⟨mk, mv, r2, sh⟩
      · exact ihr (by simp) hrm
      · rw [hrm] at heq
        simp only [] at heq
        cases sh <;> simp at heq

/-- `removeLeftmost` succeeds on every nonempty subtree. -/
theorem removeLeftmost_ne_none :
    ∀ (t : PTree K V), t ≠ nil → removeLeftmost t ≠ none := by
  intro t
  induction t with
  | nil => intro h; exact absurd rfl h
  | node l k v pk bf r ihl ihr =>
    intro _ heq
    cases l with
    | nil => simp [removeLeftmost] at heq
    | node ll lk lv lpk lbf lr =>
      simp only [removeLeftmost] at heq
      rcases hrm : removeLeftmost (node ll lk lv lpk lbf lr) with
        _ | ⟨mk, mv, l2, sh⟩
      · exact ihl (by simp) hrm
      · rw [hrm] at heq
        simp only [] at heq
        cases sh <;> simp at heq

/-- Once `delete` has found its node, the removal itself cannot fail. -/
theorem deleteFound_ne_none (l : PTree K V) (pk : Option K) (bf : Int)
    (r : PTree K V) : deleteFound l pk bf r ≠ none := by
  intro heq
  rcases l with _ | ⟨ll, lk, lv, lpk, lbf, lr⟩ <;>
    rcases r with _ | ⟨rl, rk, rv, rpk, rbf, rr⟩ <;>
    simp only [deleteFound] at heq
  · exact Option.noConfusion heq
  · exact Option.noConfusion heq
  · exact Option.noConfusion heq
  · by_cases hbf0 : bf ≤ 0
    · rw [if_pos hbf0] at heq
      simp only [delPredGen] at heq
      rcases hrm : removeRightmost (node ll lk lv lpk lbf lr) with
        _ | ⟨mk, mv, l2, sh⟩
      · exact removeRightmost_ne_none _ (by simp) hrm
      · rw [hrm] at heq
        simp only [] at heq
        cases sh <;> simp at heq
    · rw [if_neg hbf0] at heq
      rcases rl with _ | ⟨c, ck, cv, cpk, cbf, c2⟩
      · rcases rr with _ | ⟨d, dk, dv, dpk, dbf, d2⟩
        · simp only [delTwo] at heq
          exact Option.noConfusion heq
        · simp only [delTwo, delSuccGen] at heq
          rcases hrm : removeLeftmost
              (node nil rk rv rpk rbf (node d dk dv dpk dbf d2)) with
            _ | ⟨mk, mv, r2, sh⟩
          · exact removeLeftmost_ne_none _ (by simp) hrm
          · rw [hrm] at heq
            simp only [] at heq
            cases sh <;> simp at heq
      · simp only [delTwo, delSuccGen] at heq
        rcases hrm : removeLeftmost
            (node (node c ck cv cpk cbf c2) rk rv rpk rbf rr) with
          _ | ⟨mk, mv, r2, sh⟩
        · exact removeLeftmost_ne_none _ (by simp) hrm
        · rw [hrm] at heq
          simp only [] at heq
          cases sh <;> simp at heq

/-- `deleteGo` fails exactly when no key of the (search-ordered) tree
compares equal to the searched key. -/
theorem deleteGo_none_iff (hc : LawfulCmp cmp) {k : K} :
    ∀ (t : PTree K V), bst cmp t →
      (deleteGo cmp k t = none ↔ ∀ x ∈ keys t, cmp k x ≠ 0) := by
  intro t
  induction t with
  | nil => intro _; simp [deleteGo]
  | node l key val pk bf r ihl ihr =>
    intro hb
    rw [bst_node] at hb
    obtain ⟨hlk, hkr, hbl, hbr⟩ := hb
    simp only [deleteGo]
    split_ifs with hc1 hc2
    · rw [show (match deleteGo cmp k l with
        | none => none
        | some (l2, sh) =>
          if sh then some (delStep (node l2 key val pk (bf + 1) r))
          else some (node l2 key val pk bf r, false)) = none ↔
          deleteGo cmp k l = none from by
            rcases deleteGo cmp k l with _ | ⟨l2, g⟩
            · simp
            · cases g <;> simp]
      rw [ihl hbl]
      constructor
      · intro h x hx he
        simp only [keys_node, List.mem_append, List.mem_cons] at hx
        rcases hx with hx | rfl | hx
        · exact h x hx he
        · exact absurd he (by omega)
        · exact absurd he (by
            have := hc.ltTrans _ _ _ hc1 (hkr x hx)
            omega)
      · intro h x hx he
        exact h x (by simp [hx]) he
    · rw [show (match deleteGo cmp k r with
        | none => none
        | some (r2, sh) =>
          if sh then some (delStep (node l key val pk (bf - 1) r2))
          else some (node l key val pk bf r2, false)) = none ↔
          deleteGo cmp k r = none from by
            rcases deleteGo cmp k r with _ | ⟨r2, g⟩
            · simp
            · cases g <;> simp]
      rw [ihr hbr]
      constructor
      · intro h x hx he
        simp only [keys_node, List.mem_append, List.mem_cons] at hx
        rcases hx with hx | rfl | hx
        · exact absurd he (by
            have := hc.eqLt _ _ _ he (hlk x hx)
            omega)
        · exact absurd he (by omega)
        · exact h x hx he
      · intro h x hx he
        exact h x (by simp [hx]) he
    · have h0 : cmp k key = 0 := by omega
      constructor
      · intro h
        exact absurd h (deleteFound_ne_none _ _ _ _)
      · intro h
        exact absurd h0 (h key (by simp))

/-! ## Tree-level operation specifications -/

/-- Full specification of `insert(key, value)` at the tree level: the
rejection sentinel comes back exactly when an equal key is present, a
rejected call leaves the state untouched, and a successful call
preserves the engine invariant, bumps the size by one, reports the new
entry and makes it immediately retrievable. -/
theorem insert_spec (hc : LawfulCmp cmp) {t : AvlTree K V} (hI : Inv cmp t)
    (k : K) (v : V) :
    ((t.insert cmp k v).1 = none ↔ ∃ x ∈ keys t.root, cmp k x = 0) ∧
    ((t.insert cmp k v).1 = none → (t.insert cmp k v).2 = t) ∧
    ((t.insert cmp k v).1 ≠ none →
      Inv cmp (t.insert cmp k v).2 ∧
      (t.insert cmp k v).2.size = t.size + 1 ∧
      (t.insert cmp k v).1 = some (k, v) ∧
      getT cmp k (t.insert cmp k v).2.root = some v) := by
  obtain ⟨hbf, hbal, hpar, hbst, hsz⟩ := hI
  obtain ⟨rt, sz⟩ := t
  rcases rt with _ | ⟨l, key, val, npk, bf, r⟩
  · simp only [AvlTree.insert]
    refine ⟨by simp, by simp, fun _ => ?_⟩
    refine ⟨⟨by simp, by simp, by simp, by simp, ?_⟩, by trivial,
      by trivial, ?_⟩
    · simp only [inorder_nil, List.length_nil] at hsz
      simp only [inorder_node, inorder_nil, List.nil_append,
        List.length_cons, List.length_nil]
      omega
    · simp [getT, getNodeT, hc.refl k]
  · simp only [AvlTree.insert]
    rcases hins : insertGo cmp k v none (node l key val npk bf r) with
      _ | ⟨t2, g⟩
    · have hiff := (insertGo_none_iff hc (node l key val npk bf r) none
        hbst).mp hins
      exact ⟨by simpa using hiff, fun _ => rfl, fun h => absurd rfl h⟩
    · have hne2 : ¬ ∃ x ∈ keys (node l key val npk bf r), cmp k x = 0 := by
        intro hex
        have := (@insertGo_none_iff K V cmp hc k v (node l key val npk bf r)
          none hbst).mpr hex
        rw [hins] at this
        exact Option.noConfusion this
      obtain ⟨hA, hB, _, _⟩ :=
        insertGo_bal (node l key val npk bf r) none t2 g hbf hbal hins
      have hP := insertGo_parent (node l key val npk bf r) none t2 g hpar hins
      have hS := insertGo_bst hc (node l key val npk bf r) none t2 g hbst hins
      obtain ⟨xs, ys, hi1, hi2⟩ :=
        insertGo_inorder (node l key val npk bf r) none t2 g hins
      refine ⟨by simpa using hne2, by simp, fun _ => ?_⟩
      refine ⟨⟨hA, hB, hP, hS, ?_⟩, by trivial, by trivial, ?_⟩
      · simp only [] at hsz ⊢
        rw [hi1] at hsz
        rw [hi2]
        simp only [List.length_append, List.length_cons] at hsz ⊢
        omega
      · exact getT_of_mem hc hS (by simp [hi2]) (hc.refl k)

/-- Full specification of `delete(key)` at the tree level: `false` with
an untouched state exactly when no equal key is present; on success the
engine invariant is preserved, the size drops by one, and the key is no
longer retrievable. -/
theorem delete_spec (hc : LawfulCmp cmp) {t : AvlTree K V} (hI : Inv cmp t)
    (k : K) :
    ((t.delete cmp k).1 = false ↔ ∀ x ∈ keys t.root, cmp k x ≠ 0) ∧
    ((t.delete cmp k).1 = false → (t.delete cmp k).2 = t) ∧
    ((t.delete cmp k).1 = true →
      Inv cmp (t.delete cmp k).2 ∧
      (t.delete cmp k).2.size = t.size - 1 ∧
      (∀ x ∈ keys (t.delete cmp k).2.root, cmp k x ≠ 0)) := by
  obtain ⟨hbf, hbal, hpar, hbst, hsz⟩ := hI
  rcases hdel : deleteGo cmp k t.root with _ | ⟨t2, sh⟩
  · have hiff := (deleteGo_none_iff hc t.root hbst).mp hdel
    simp only [AvlTree.delete, hdel]
    exact ⟨⟨fun _ => hiff, fun _ => by trivial⟩, fun _ => by trivial,
      by simp⟩
  · obtain ⟨hA, hB, hC, hD, ⟨x0, v0, xs, ys, hx0, hi1, hi2⟩, hh1, hh2⟩ :=
      deleteGo_spec hc t.root none t2 sh hbf hbal hbst hpar hdel
    obtain ⟨hxs, hys⟩ := sorted_split hc hbst hi1
    simp only [AvlTree.delete, hdel]
    refine ⟨⟨fun h => absurd h (by simp), fun h => absurd hx0
        (h x0 (by simp [keys, hi1]))⟩,
      by simp, fun _ => ⟨⟨hA, hB, hD, hC, ?_⟩, by trivial, ?_⟩⟩
    · rw [hi1] at hsz
      simp only [] 
      rw [hi2]
      simp only [List.length_append, List.length_cons] at hsz ⊢
      omega
    · intro x hx h0
      simp only [keys, hi2, List.map_append, List.mem_append,
        List.mem_map] at hx
      rcases hx with ⟨e, he, rfl⟩ | ⟨e, he, rfl⟩
      · have h1 := hxs e he
        have := hc.eqLt _ _ _ h0 h1
        omega
      · have h1 := hys e he
        have := hc.eqLt _ _ _ hx0 h1
        omega

/-- The freshly constructed tree satisfies the engine invariant. -/
theorem Inv_empty : Inv cmp (AvlTree.empty : AvlTree K V) :=
  ⟨trivial, trivial, trivial, trivial, rfl⟩

/-- Every single mutating operation preserves the engine invariant. -/
theorem applyOp_inv (hc : LawfulCmp cmp) {t : AvlTree K V}
    (hI : Inv cmp t) (op : Op K V) : Inv cmp (applyOp cmp t op) := by
  cases op with
  | ins k v =>
    rcases hv : (t.insert cmp k v).1 with _ | p
    · have h2 := (insert_spec hc hI k v).2.1 hv
      simp only [applyOp]
      rw [h2]
      exact hI
    · exact ((insert_spec hc hI k v).2.2 (by simp [hv])).1
  | del k =>
    rcases hv : (t.delete cmp k).1 with _ | _
    · have h2 := (delete_spec hc hI k).2.1 hv
      simp only [applyOp]
      rw [h2]
      exact hI
    · exact ((delete_spec hc hI k).2.2 hv).1

/-- The engine invariant holds after every sequence of mutating
operations run from a fresh tree — in particular after every prefix of
such a sequence. -/
theorem run_inv (hc : LawfulCmp cmp) (ops : List (Op K V)) :
    Inv cmp (run cmp ops) := by
  rw [run]
  have h : ∀ (t : AvlTree K V), Inv cmp t →
      Inv cmp (ops.foldl (applyOp cmp) t) := by
    induction ops with
    | nil => intro t h; exact h
    | cons op ops ih =>
      intro t h
      exact ih _ (applyOp_inv hc h op)
  exact h _ Inv_empty

/-! ## The explicit-stack iterator -/

/-- Stack invariant of the iterator: it produces the in-order entries of
the current subtree followed by everything the stack still owes. -/
theorem iterGo_eq :
    ∀ (n : Nat) (t : PTree K V) (stack : List (PTree K V)),
      2 * count t + stackW stack ≤ n →
      iterGo t stack = inorder t ++ stackOut stack := by
  intro n
  induction n with
  | zero =>
    intro t stack h
    cases t with
    | node l k v pk bf r =>
      exfalso
      simp only [count] at h
      omega
    | nil =>
      cases stack with
      | nil => simp [iterGo, stackOut]
      | cons top rest =>
        exfalso
        simp only [stackW, List.map_cons, List.sum_cons] at h
        cases top <;> simp only [entryW] at h <;> omega
  | succ n ih =>
    intro t stack h
    cases t with
    | node l k v pk bf r =>
      rw [show iterGo (node l k v pk bf r) stack =
          iterGo l (node l k v pk bf r :: stack) from by simp [iterGo]]
      rw [ih l (node l k v pk bf r :: stack) (by
        simp only [count, stackW, List.map_cons, List.sum_cons, entryW] at h ⊢
        omega)]
      simp [stackOut]
    | nil =>
      cases stack with
      | nil => simp [iterGo, stackOut]
      | cons top rest =>
        cases top with
        | nil =>
          rw [show iterGo (nil : PTree K V) (nil :: rest) =
              iterGo nil rest from by simp [iterGo]]
          rw [ih nil rest (by
            simp only [count, stackW, List.map_cons, List.sum_cons,
              entryW] at h ⊢
            omega)]
          simp [stackOut]
        | node a k v pk bf r =>
          rw [show iterGo (nil : PTree K V) (node a k v pk bf r :: rest) =
              (k, v) :: iterGo r rest from by simp [iterGo]]
          rw [ih r rest (by
            simp only [count, stackW, List.map_cons, List.sum_cons,
              entryW] at h ⊢
            omega)]
          simp [stackOut]

/-- The iterator yields exactly the in-order entry sequence. -/
theorem iter_inorder (t : PTree K V) : iter t = inorder t := by
  rw [iter, iterGo_eq (2 * count t) t [] (by simp [stackW])]
  simp [stackOut]

/-- What `walk` computes with the selection closure of `at`: the entry
whose running index matches, if the walk reaches it. -/
theorem walkFold_select {index : Int} :
    ∀ (es : List (K × V)) (i : Int) (sel : Option (K × V)),
      walkFold (fun entry i2 sel2 =>
          if index = i2 then (some entry, true) else (sel2, false)) es i sel =
        if index < i then sel
        else
          match es[(index - i).toNat]? with
          | some e => some e
          | none => sel := by
  intro es
  induction es with
  | nil =>
    intro i sel
    simp [walkFold]
  | cons e es ih =>
    intro i sel
    simp only [walkFold]
    by_cases h0 : index = i
    · subst h0
      simp
    · rw [if_neg h0]
      simp only [Bool.false_eq_true, if_false]
      rw [ih (i + 1) sel]
      by_cases h1 : index < i
      · rw [if_pos h1, if_pos (by omega)]
      · rw [if_neg h1, if_neg (by omega)]
        have hn : (index - i).toNat = (index - (i + 1)).toNat + 1 := by
          omega
        rw [hn, List.getElem?_cons_succ]

/-- Full specification of `at(index)`: out-of-bounds failure exactly
outside `[0, size)`, and inside the range the entry at that rank of the
in-order sequence. -/
theorem atIndex_spec {t : AvlTree K V} (hI : Inv cmp t) (index : Int) :
    (t.atIndex index = Except.error () ↔ index < 0 ∨ index ≥ t.size) ∧
    (¬(index < 0 ∨ index ≥ t.size) →
      ∃ h2 : index.toNat < (inorder t.root).length,
        t.atIndex index =
          Except.ok (some ((inorder t.root).get ⟨index.toNat, h2⟩))) := by
  obtain ⟨hbf, hbal, hpar, hbst, hsz⟩ := hI
  constructor
  · constructor
    · intro h
      by_contra hob
      rw [AvlTree.atIndex, if_neg hob] at h
      exact Except.noConfusion h
    · intro h
      rw [AvlTree.atIndex, if_pos h]
  · intro hob
    have hlen : index.toNat < (inorder t.root).length := by omega
    refine ⟨hlen, ?_⟩
    rw [AvlTree.atIndex, if_neg hob, iter_inorder, walkFold_select]
    rw [if_neg (by omega), show index - 0 = index from by omega]
    rw [List.getElem?_eq_getElem hlen]
    simp [List.get_eq_getElem]

/-! ## Specifications of the heap-level rotation and splice helpers -/

/-- `rotateLeft` throws when the pivot has no right child. -/
theorem hRotateLeft_noRight {h : Heap K V} {a : Nat} {rn : HNode K V}
    (ha : h a = some rn) (hnr : rn.right = none) :
    hRotateLeft h a = none := by
  simp only [hRotateLeft, ha, hnr]

/-- Full specification of `rotateLeft` on a well-formed local
configuration (old root `a` with right child `b`, back-linked, root of
its tree): `b` becomes the new top with `a` as its left child, `b`'s old
left subtree moves under `a`'s right slot (reparented), and both balance
factors follow the exact closed-form update rule of the source; every
other object is untouched. -/
theorem hRotateLeft_spec {h : Heap K V} {a b : Nat} {rn bn : HNode K V}
    (hab : a ≠ b)
    (ha : h a = some rn) (hb : h b = some bn)
    (hr : rn.right = some b) (hll : rn.left ≠ some b)
    (hrp : rn.parent = none) (hbp : bn.parent = some a)
    (hbl : ∀ lc, bn.left = some lc → lc ≠ a ∧ lc ≠ b ∧ ∃ ln, h lc = some ln) :
    ((hRotateLeft h a).map Prod.snd = some b) ∧
    ((hRotateLeft h a).bind (fun p => p.1 a) =
      some ⟨rn.key, rn.value, some b, rn.left, bn.left,
        rn.balanceFactor - 1 -
          (if bn.balanceFactor > 0 then bn.balanceFactor else 0)⟩) ∧
    ((hRotateLeft h a).bind (fun p => p.1 b) =
      some ⟨bn.key, bn.value, none, some a, bn.right,
        bn.balanceFactor - 1 +
          (if rn.balanceFactor - 1 -
              (if bn.balanceFactor > 0 then bn.balanceFactor else 0) < 0 then
            rn.balanceFactor - 1 -
              (if bn.balanceFactor > 0 then bn.balanceFactor else 0)
          else 0)⟩) ∧
    (∀ lc, bn.left = some lc →
      ∃ ln, h lc = some ln ∧
        (hRotateLeft h a).bind (fun p => p.1 lc) =
          some (ln.withParent (some a))) ∧
    (∀ x, x ≠ a → x ≠ b → (∀ lc, bn.left = some lc → x ≠ lc) →
      (hRotateLeft h a).bind (fun p => p.1 x) = h x) := by
  have hba : b ≠ a := Ne.symm hab
  rcases hbl0 : bn.left with _ | lc
  · by_cases hs1 : bn.balanceFactor > 0 <;>
      by_cases hs2 : rn.balanceFactor - 1 -
        (if bn.balanceFactor > 0 then bn.balanceFactor else 0) < 0 <;>
      simp only [hs1, if_true, if_false, ite_true, ite_false, sub_zero] at hs2 <;>
      refine ⟨?_, ?_, ?_, ?_, ?_⟩
    all_goals
      try (intro x hxa hxb hxl)
    all_goals
      simp only [hRotateLeft, hReplaceChild, hDisconnect, writeParent,
        writeLeft, writeRight, writeBF, hupd, HNode.withParent,
        HNode.withLeft, HNode.withRight, HNode.withBF, ha, hb, hr, hbp, hrp,
        hll, hbl0, hab, hba, hs1, if_true, if_false, ite_true,
        ite_false, Option.map, Option.bind]
    all_goals
      try (intro lc0 hlc0; exact Option.noConfusion hlc0)
    all_goals
      repeat (first
        | rfl
        | trivial
        | rw [if_pos (by omega)]
        | rw [if_neg (by omega)]
        | simp only [hupd, HNode.withParent, HNode.withLeft, HNode.withRight,
            HNode.withBF, hab, hba, if_true, if_false, ite_true, ite_false,
            add_zero, sub_zero, and_true, true_and, eq_self_iff_true,
            Option.some.injEq, HNode.mk.injEq, Option.map, Option.bind])
  · obtain ⟨hlca, hlcb, ln, hln⟩ := hbl lc hbl0
    have hlca2 : ¬ (lc = a) := hlca
    have hlcb2 : ¬ (lc = b) := hlcb
    have halc : ¬ (a = lc) := fun h2 => hlca h2.symm
    have hblc : ¬ (b = lc) := fun h2 => hlcb h2.symm
    by_cases hs1 : bn.balanceFactor > 0 <;>
      by_cases hs2 : rn.balanceFactor - 1 -
        (if bn.balanceFactor > 0 then bn.balanceFactor else 0) < 0 <;>
      simp only [hs1, if_true, if_false, ite_true, ite_false, sub_zero] at hs2 <;>
      refine ⟨?_, ?_, ?_, ?_, ?_⟩
    all_goals
      try (intro x hxa hxb hxl)
    all_goals
      try (have hxlc : ¬ (x = lc) := hxl lc rfl)
    all_goals
      simp only [hRotateLeft, hReplaceChild, hDisconnect, writeParent,
        writeLeft, writeRight, writeBF, hupd, HNode.withParent,
        HNode.withLeft, HNode.withRight, HNode.withBF, ha, hb, hr, hbp, hrp,
        hll, hbl0, hab, hba, hlca2, hlcb2, halc, hblc, hln, hs1, if_true,
        if_false, ite_true, ite_false, Option.map, Option.bind]
    all_goals
      try (intro lc0 hlc0; obtain rfl := Option.some.inj hlc0; refine ⟨ln, hln, ?_⟩)
    all_goals
      repeat (first
        | rfl
        | trivial
        | rw [if_pos (by omega)]
        | rw [if_neg (by omega)]
        | simp only [hupd, HNode.withParent, HNode.withLeft, HNode.withRight,
            HNode.withBF, hab, hba, hlca2, hlcb2, halc, hblc, if_true,
            if_false, ite_true, ite_false, add_zero, sub_zero, and_true,
            true_and, eq_self_iff_true, Option.some.injEq, HNode.mk.injEq,
            Option.map, Option.bind])

/-- `rotateRight` throws when the pivot has no left child. -/
theorem hRotateRight_noLeft {h : Heap K V} {a : Nat} {rn : HNode K V}
    (ha : h a = some rn) (hnl : rn.left = none) :
    hRotateRight h a = none := by
  simp only [hRotateRight, ha, hnl]

/-- Full specification of `rotateRight`: the mirror image of
`hRotateLeft_spec`, with signs flipped and left/right swapped. -/
theorem hRotateRight_spec {h : Heap K V} {a b : Nat} {rn bn : HNode K V}
    (hab : a ≠ b)
    (ha : h a = some rn) (hb : h b = some bn)
    (hl : rn.left = some b)
    (hrp : rn.parent = none) (hbp : bn.parent = some a)
    (hbr : ∀ rc, bn.right = some rc → rc ≠ a ∧ rc ≠ b ∧ ∃ cn, h rc = some cn) :
    ((hRotateRight h a).map Prod.snd = some b) ∧
    ((hRotateRight h a).bind (fun p => p.1 a) =
      some ⟨rn.key, rn.value, some b, bn.right, rn.right,
        rn.balanceFactor + 1 -
          (if bn.balanceFactor < 0 then bn.balanceFactor else 0)⟩) ∧
    ((hRotateRight h a).bind (fun p => p.1 b) =
      some ⟨bn.key, bn.value, none, bn.left, some a,
        bn.balanceFactor + 1 +
          (if rn.balanceFactor + 1 -
              (if bn.balanceFactor < 0 then bn.balanceFactor else 0) > 0 then
            rn.balanceFactor + 1 -
              (if bn.balanceFactor < 0 then bn.balanceFactor else 0)
          else 0)⟩) ∧
    (∀ rc, bn.right = some rc →
      ∃ cn, h rc = some cn ∧
        (hRotateRight h a).bind (fun p => p.1 rc) =
          some (cn.withParent (some a))) ∧
    (∀ x, x ≠ a → x ≠ b → (∀ rc, bn.right = some rc → x ≠ rc) →
      (hRotateRight h a).bind (fun p => p.1 x) = h x) := by
  have hba : b ≠ a := Ne.symm hab
  rcases hbr0 : bn.right with _ | rc
  · by_cases hs1 : bn.balanceFactor < 0 <;>
      by_cases hs2 : rn.balanceFactor + 1 -
        (if bn.balanceFactor < 0 then bn.balanceFactor else 0) > 0 <;>
      simp only [hs1, if_true, if_false, ite_true, ite_false, sub_zero] at hs2 <;>
      refine ⟨?_, ?_, ?_, ?_, ?_⟩
    all_goals
      try (intro x hxa hxb hxl)
    all_goals
      simp only [hRotateRight, hReplaceChild, hDisconnect, writeParent,
        writeLeft, writeRight, writeBF, hupd, HNode.withParent,
        HNode.withLeft, HNode.withRight, HNode.withBF, ha, hb, hl, hbp, hrp,
        hbr0, hab, hba, hs1, if_true, if_false, ite_true,
        ite_false, Option.map, Option.bind]
    all_goals
      try (intro rc0 hrc0; exact Option.noConfusion hrc0)
    all_goals
      repeat (first
        | rfl
        | trivial
        | rw [if_pos (by omega)]
        | rw [if_neg (by omega)]
        | simp only [hupd, HNode.withParent, HNode.withLeft, HNode.withRight,
            HNode.withBF, hab, hba, if_true, if_false, ite_true, ite_false,
            add_zero, sub_zero, and_true, true_and, eq_self_iff_true,
            Option.some.injEq, HNode.mk.injEq, Option.map, Option.bind])
  · obtain ⟨hrca, hrcb, cn, hcn⟩ := hbr rc hbr0
    have hrca2 : ¬ (rc = a) := hrca
    have hrcb2 : ¬ (rc = b) := hrcb
    have harc : ¬ (a = rc) := fun h2 => hrca h2.symm
    have hbrc : ¬ (b = rc) := fun h2 => hrcb h2.symm
    by_cases hs1 : bn.balanceFactor < 0 <;>
      by_cases hs2 : rn.balanceFactor + 1 -
        (if bn.balanceFactor < 0 then bn.balanceFactor else 0) > 0 <;>
      simp only [hs1, if_true, if_false, ite_true, ite_false, sub_zero] at hs2 <;>
      refine ⟨?_, ?_, ?_, ?_, ?_⟩
    all_goals
      try (intro x hxa hxb hxl)
    all_goals
      try (have hxrc : ¬ (x = rc) := hxl rc rfl)
    all_goals
      simp only [hRotateRight, hReplaceChild, hDisconnect, writeParent,
        writeLeft, writeRight, writeBF, hupd, HNode.withParent,
        HNode.withLeft, HNode.withRight, HNode.withBF, ha, hb, hl, hbp, hrp,
        hbr0, hab, hba, hrca2, hrcb2, harc, hbrc, hcn, hs1, if_true,
        if_false, ite_true, ite_false, Option.map, Option.bind]
    all_goals
      try (intro rc0 hrc0; obtain rfl := Option.some.inj hrc0; refine ⟨cn, hcn, ?_⟩)
    all_goals
      repeat (first
        | rfl
        | trivial
        | rw [if_pos (by omega)]
        | rw [if_neg (by omega)]
        | simp only [hupd, HNode.withParent, HNode.withLeft, HNode.withRight,
            HNode.withBF, hab, hba, hrca2, hrcb2, harc, hbrc, if_true,
            if_false, ite_true, ite_false, add_zero, sub_zero, and_true,
            true_and, eq_self_iff_true, Option.some.injEq, HNode.mk.injEq,
            Option.map, Option.bind])

set_option maxHeartbeats 6400000 in
/-- Specification of `replaceNode(node, replacement)` with the
replacement fully detached (no parent, no children), for every combination of present or
absent parent and children of `node`: the replacement takes over
`node`'s parent slot (left or right as before), both of `node`'s
children and its balance factor verbatim; `node` is left fully
detached; every other address is untouched. -/
theorem hReplaceNode_detached {h : Heap K V} {nd rp : Nat}
    {n0 r0 : HNode K V} {po lco rco : Option Nat}
    (q1 : nd ≠ rp)
    (hnd : h nd = some n0) (hn0p : n0.parent = po)
    (hn0l : n0.left = lco) (hn0r : n0.right = rco)
    (hrp : h rp = some r0) (hr0p : r0.parent = none)
    (hr0l : r0.left = none) (hr0r : r0.right = none)
    (hpo : ∀ p, po = some p → p ≠ nd ∧ p ≠ rp ∧ ∃ pn, h p = some pn ∧
      (pn.left = some nd ∨ (pn.left ≠ some nd ∧ pn.right = some nd)))
    (hlco : ∀ lc, lco = some lc → lc ≠ nd ∧ lc ≠ rp ∧
      (∀ p, po = some p → lc ≠ p) ∧ ∃ lcn, h lc = some lcn)
    (hrco : ∀ rc, rco = some rc → rc ≠ nd ∧ rc ≠ rp ∧
      (∀ p, po = some p → rc ≠ p) ∧ (∀ lc, lco = some lc → rc ≠ lc) ∧
      ∃ rcn, h rc = some rcn) :
    ((hReplaceNode h nd rp).bind (fun h2 => h2 rp) =
      some ⟨r0.key, r0.value, po, lco, rco, n0.balanceFactor⟩) ∧
    ((hReplaceNode h nd rp).bind (fun h2 => h2 nd) =
      some ⟨n0.key, n0.value, none, none, none, n0.balanceFactor⟩) ∧
    (∀ p, po = some p → ∃ pn, h p = some pn ∧
      (hReplaceNode h nd rp).bind (fun h2 => h2 p) =
        some (if pn.left = some nd then pn.withLeft (some rp)
          else pn.withRight (some rp))) ∧
    (∀ lc, lco = some lc → ∃ lcn, h lc = some lcn ∧
      (hReplaceNode h nd rp).bind (fun h2 => h2 lc) =
        some (lcn.withParent (some rp))) ∧
    (∀ rc, rco = some rc → ∃ rcn, h rc = some rcn ∧
      (hReplaceNode h nd rp).bind (fun h2 => h2 rc) =
        some (rcn.withParent (some rp))) ∧
    (∀ x, x ≠ nd → x ≠ rp → (∀ p, po = some p → x ≠ p) →
      (∀ lc, lco = some lc → x ≠ lc) → (∀ rc, rco = some rc → x ≠ rc) →
      (hReplaceNode h nd rp).bind (fun h2 => h2 x) = h x) := by
  have s1 : rp ≠ nd := Ne.symm q1
  rcases hpo0 : po with _ | p <;>
    rcases hlco0 : lco with _ | lc <;>
    rcases hrco0 : rco with _ | rc
  all_goals
    try (obtain ⟨u1, u2, pn, hp, hslot⟩ := hpo p hpo0; have u1s : nd ≠ p := Ne.symm u1; have u2s : rp ≠ p := Ne.symm u2)
  all_goals
    try (obtain ⟨v1, v2, v3p, lcn, hlc⟩ := hlco lc hlco0; have v1s : nd ≠ lc := Ne.symm v1; have v2s : rp ≠ lc := Ne.symm v2)
  all_goals
    try (have v3 := v3p p hpo0; have v3s : p ≠ lc := Ne.symm v3)
  all_goals
    try (obtain ⟨w1, w2, w3p, w4p, rcn, hrc⟩ := hrco rc hrco0; have w1s : nd ≠ rc := Ne.symm w1; have w2s : rp ≠ rc := Ne.symm w2)
  all_goals
    try (have w3 := w3p p hpo0; have w3s : p ≠ rc := Ne.symm w3)
  all_goals
    try (have w4 := w4p lc hlco0; have w4s : lc ≠ rc := Ne.symm w4)
  all_goals
    try rcases hslot with hps1 | ⟨hps1, hps2⟩
  all_goals
    try clear hpo hlco hrco
  all_goals
    try clear v3p
  all_goals
    try clear w3p w4p
  all_goals
    simp only [*, hReplaceNode, writeParent, writeLeft, writeRight, writeBF,
      hupd, HNode.withParent, HNode.withLeft, HNode.withRight, HNode.withBF,
      Option.some.injEq, if_true, if_false, ite_true, ite_false,
      Option.map, Option.bind, reduceCtorEq, false_implies, implies_true,
      true_implies, forall_eq', exists_eq_left', eq_self_iff_true,
      and_true, true_and, ne_eq]
  all_goals
    try (intros; simp only [*, hupd, HNode.withParent, HNode.withLeft,
      HNode.withRight, HNode.withBF, if_true, if_false, ite_true,
      ite_false, not_false_iff, ne_eq])
  all_goals
    try rfl
  all_goals
    try trivial

set_option maxHeartbeats 6400000 in
/-- Specification of `replaceNode(node, replacement)` with the
replacement attached elsewhere in the store (parent `rpp`, optional children of its own),
for every combination of present or absent parent and children of
`node`: the replacement is first unhooked (its parent's slot is
cleared, its children are orphaned), then takes over `node`'s parent
slot, both children and balance factor; `node` ends fully detached;
every other address is untouched. -/
theorem hReplaceNode_attached {h : Heap K V} {nd rp rpp : Nat}
    {n0 r0 rppn : HNode K V} {po lco rco rlo rro : Option Nat}
    (q1 : nd ≠ rp) (q2 : rpp ≠ nd) (q3 : rpp ≠ rp)
    (hnd : h nd = some n0) (hn0p : n0.parent = po)
    (hn0l : n0.left = lco) (hn0r : n0.right = rco)
    (hrp : h rp = some r0) (hr0p : r0.parent = some rpp)
    (hr0l : r0.left = rlo) (hr0r : r0.right = rro)
    (hrpp : h rpp = some rppn)
    (hrslot : rppn.left = some rp ∨
      (rppn.left ≠ some rp ∧ rppn.right = some rp))
    (hrlo : ∀ rl, rlo = some rl → rl ≠ nd ∧ rl ≠ rp ∧ rl ≠ rpp ∧
      ∃ rln, h rl = some rln)
    (hrro : ∀ rr, rro = some rr → rr ≠ nd ∧ rr ≠ rp ∧ rr ≠ rpp ∧
      (∀ rl, rlo = some rl → rr ≠ rl) ∧ ∃ rrn, h rr = some rrn)
    (hpo : ∀ p, po = some p → p ≠ nd ∧ p ≠ rp ∧ p ≠ rpp ∧
      (∀ rl, rlo = some rl → p ≠ rl) ∧ (∀ rr, rro = some rr → p ≠ rr) ∧
      ∃ pn, h p = some pn ∧
      (pn.left = some nd ∨ (pn.left ≠ some nd ∧ pn.right = some nd)))
    (hlco : ∀ lc, lco = some lc → lc ≠ nd ∧ lc ≠ rp ∧ lc ≠ rpp ∧
      (∀ rl, rlo = some rl → lc ≠ rl) ∧ (∀ rr, rro = some rr → lc ≠ rr) ∧
      (∀ p, po = some p → lc ≠ p) ∧ ∃ lcn, h lc = some lcn)
    (hrco : ∀ rc, rco = some rc → rc ≠ nd ∧ rc ≠ rp ∧ rc ≠ rpp ∧
      (∀ rl, rlo = some rl → rc ≠ rl) ∧ (∀ rr, rro = some rr → rc ≠ rr) ∧
      (∀ p, po = some p → rc ≠ p) ∧ (∀ lc, lco = some lc → rc ≠ lc) ∧
      ∃ rcn, h rc = some rcn) :
    ((hReplaceNode h nd rp).bind (fun h2 => h2 rp) =
      some ⟨r0.key, r0.value, po, lco, rco, n0.balanceFactor⟩) ∧
    ((hReplaceNode h nd rp).bind (fun h2 => h2 nd) =
      some ⟨n0.key, n0.value, none, none, none, n0.balanceFactor⟩) ∧
    ((hReplaceNode h nd rp).bind (fun h2 => h2 rpp) =
      some (if rppn.left = some rp then rppn.withLeft none
        else rppn.withRight none)) ∧
    (∀ p, po = some p → ∃ pn, h p = some pn ∧
      (hReplaceNode h nd rp).bind (fun h2 => h2 p) =
        some (if pn.left = some nd then pn.withLeft (some rp)
          else pn.withRight (some rp))) ∧
    (∀ lc, lco = some lc → ∃ lcn, h lc = some lcn ∧
      (hReplaceNode h nd rp).bind (fun h2 => h2 lc) =
        some (lcn.withParent (some rp))) ∧
    (∀ rc, rco = some rc → ∃ rcn, h rc = some rcn ∧
      (hReplaceNode h nd rp).bind (fun h2 => h2 rc) =
        some (rcn.withParent (some rp))) ∧
    (∀ rl, rlo = some rl → ∃ rln, h rl = some rln ∧
      (hReplaceNode h nd rp).bind (fun h2 => h2 rl) =
        some (rln.withParent none)) ∧
    (∀ rr, rro = some rr → ∃ rrn, h rr = some rrn ∧
      (hReplaceNode h nd rp).bind (fun h2 => h2 rr) =
        some (rrn.withParent none)) ∧
    (∀ x, x ≠ nd → x ≠ rp → x ≠ rpp → (∀ p, po = some p → x ≠ p) →
      (∀ lc, lco = some lc → x ≠ lc) → (∀ rc, rco = some rc → x ≠ rc) →
      (∀ rl, rlo = some rl → x ≠ rl) → (∀ rr, rro = some rr → x ≠ rr) →
      (hReplaceNode h nd rp).bind (fun h2 => h2 x) = h x) := by
  have s1 : rp ≠ nd := Ne.symm q1
  have s2 : nd ≠ rpp := Ne.symm q2
  have s3 : rp ≠ rpp := Ne.symm q3
  rcases hrlo0 : rlo with _ | rl <;>
    rcases hrro0 : rro with _ | rr <;>
    rcases hpo0 : po with _ | p <;>
    rcases hlco0 : lco with _ | lc <;>
    rcases hrco0 : rco with _ | rc <;>
    rcases hrslot with hrs1 | ⟨hrs1, hrs2⟩
  all_goals
    try (obtain ⟨a1, a2, a3, rln, hrl⟩ := hrlo rl hrlo0; have a1s : nd ≠ rl := Ne.symm a1; have a2s : rp ≠ rl := Ne.symm a2; have a3s : rpp ≠ rl := Ne.symm a3)
  all_goals
    try (obtain ⟨b1, b2, b3, b4p, rrn, hrr⟩ := hrro rr hrro0; have b1s : nd ≠ rr := Ne.symm b1; have b2s : rp ≠ rr := Ne.symm b2; have b3s : rpp ≠ rr := Ne.symm b3)
  all_goals
    try (have b4 := b4p rl hrlo0; have b4s : rl ≠ rr := Ne.symm b4)
  all_goals
    try (obtain ⟨u1, u2, u3, u4p, u5p, pn, hp, hslot⟩ := hpo p hpo0; have u1s : nd ≠ p := Ne.symm u1; have u2s : rp ≠ p := Ne.symm u2; have u3s : rpp ≠ p := Ne.symm u3)
  all_goals
    try (have u4 := u4p rl hrlo0; have u4s : rl ≠ p := Ne.symm u4)
  all_goals
    try (have u5 := u5p rr hrro0; have u5s : rr ≠ p := Ne.symm u5)
  all_goals
    try (obtain ⟨v1, v2, v3, v4p, v5p, v6p, lcn, hlc⟩ := hlco lc hlco0; have v1s : nd ≠ lc := Ne.symm v1; have v2s : rp ≠ lc := Ne.symm v2; have v3s : rpp ≠ lc := Ne.symm v3)
  all_goals
    try (have v4 := v4p rl hrlo0; have v4s : rl ≠ lc := Ne.symm v4)
  all_goals
    try (have v5 := v5p rr hrro0; have v5s : rr ≠ lc := Ne.symm v5)
  all_goals
    try (have v6 := v6p p hpo0; have v6s : p ≠ lc := Ne.symm v6)
  all_goals
    try (obtain ⟨w1, w2, w3, w4p, w5p, w6p, w7p, rcn, hrc⟩ := hrco rc hrco0; have w1s : nd ≠ rc := Ne.symm w1; have w2s : rp ≠ rc := Ne.symm w2; have w3s : rpp ≠ rc := Ne.symm w3)
  all_goals
    try (have w4 := w4p rl hrlo0; have w4s : rl ≠ rc := Ne.symm w4)
  all_goals
    try (have w5 := w5p rr hrro0; have w5s : rr ≠ rc := Ne.symm w5)
  all_goals
    try (have w6 := w6p p hpo0; have w6s : p ≠ rc := Ne.symm w6)
  all_goals
    try (have w7 := w7p lc hlco0; have w7s : lc ≠ rc := Ne.symm w7)
  all_goals
    try rcases hslot with hps1 | ⟨hps1, hps2⟩
  all_goals
    try clear hrlo hrro hpo hlco hrco
  all_goals
    try clear b4p
  all_goals
    try clear u4p u5p
  all_goals
    try clear v4p v5p v6p
  all_goals
    try clear w4p w5p w6p w7p
  all_goals
    simp only [*, hReplaceNode, writeParent, writeLeft, writeRight, writeBF,
      hupd, HNode.withParent, HNode.withLeft, HNode.withRight, HNode.withBF,
      Option.some.injEq, if_true, if_false, ite_true, ite_false,
      Option.map, Option.bind, reduceCtorEq, false_implies, implies_true,
      true_implies, forall_eq', exists_eq_left', eq_self_iff_true,
      and_true, true_and, ne_eq]
  all_goals
    try (intros; simp only [*, hupd, HNode.withParent, HNode.withLeft,
      HNode.withRight, HNode.withBF, if_true, if_false, ite_true,
      ite_false, not_false_iff, ne_eq])
  all_goals
    try rfl
  all_goals
    try trivial

set_option maxHeartbeats 6400000 in
/-- Specification of `replaceNode(node, replacement)` when the
replacement is `node`'s own left child: the replacement takes over `node`'s parent slot, right
child and balance factor, while its left link is left empty rather
than pointing at itself; `node` ends fully detached; the replacement's
own former children are orphaned; every other address is untouched. -/
theorem hReplaceNode_leftChildCase {h : Heap K V} {nd rp : Nat}
    {n0 r0 : HNode K V} {po rco rlo rro : Option Nat}
    (q1 : nd ≠ rp)
    (hnd : h nd = some n0) (hn0p : n0.parent = po)
    (hn0l : n0.left = some rp) (hn0r : n0.right = rco)
    (hrp : h rp = some r0) (hr0p : r0.parent = some nd)
    (hr0l : r0.left = rlo) (hr0r : r0.right = rro)
    (hrlo : ∀ rl, rlo = some rl → rl ≠ nd ∧ rl ≠ rp ∧
      ∃ rln, h rl = some rln)
    (hrro : ∀ rr, rro = some rr → rr ≠ nd ∧ rr ≠ rp ∧
      (∀ rl, rlo = some rl → rr ≠ rl) ∧ ∃ rrn, h rr = some rrn)
    (hpo : ∀ p, po = some p → p ≠ nd ∧ p ≠ rp ∧
      (∀ rl, rlo = some rl → p ≠ rl) ∧ (∀ rr, rro = some rr → p ≠ rr) ∧
      ∃ pn, h p = some pn ∧
      (pn.left = some nd ∨ (pn.left ≠ some nd ∧ pn.right = some nd)))
    (hrco : ∀ rc, rco = some rc → rc ≠ nd ∧ rc ≠ rp ∧
      (∀ rl, rlo = some rl → rc ≠ rl) ∧ (∀ rr, rro = some rr → rc ≠ rr) ∧
      (∀ p, po = some p → rc ≠ p) ∧ ∃ rcn, h rc = some rcn) :
    ((hReplaceNode h nd rp).bind (fun h2 => h2 rp) =
      some ⟨r0.key, r0.value, po, none, rco, n0.balanceFactor⟩) ∧
    ((hReplaceNode h nd rp).bind (fun h2 => h2 nd) =
      some ⟨n0.key, n0.value, none, none, none, n0.balanceFactor⟩) ∧
    (∀ p, po = some p → ∃ pn, h p = some pn ∧
      (hReplaceNode h nd rp).bind (fun h2 => h2 p) =
        some (if pn.left = some nd then pn.withLeft (some rp)
          else pn.withRight (some rp))) ∧
    (∀ rc, rco = some rc → ∃ rcn, h rc = some rcn ∧
      (hReplaceNode h nd rp).bind (fun h2 => h2 rc) =
        some (rcn.withParent (some rp))) ∧
    (∀ rl, rlo = some rl → ∃ rln, h rl = some rln ∧
      (hReplaceNode h nd rp).bind (fun h2 => h2 rl) =
        some (rln.withParent none)) ∧
    (∀ rr, rro = some rr → ∃ rrn, h rr = some rrn ∧
      (hReplaceNode h nd rp).bind (fun h2 => h2 rr) =
        some (rrn.withParent none)) ∧
    (∀ x, x ≠ nd → x ≠ rp → (∀ p, po = some p → x ≠ p) →
      (∀ rc, rco = some rc → x ≠ rc) → (∀ rl, rlo = some rl → x ≠ rl) →
      (∀ rr, rro = some rr → x ≠ rr) →
      (hReplaceNode h nd rp).bind (fun h2 => h2 x) = h x) := by
  have s1 : rp ≠ nd := Ne.symm q1
  rcases hrlo0 : rlo with _ | rl <;>
    rcases hrro0 : rro with _ | rr <;>
    rcases hpo0 : po with _ | p <;>
    rcases hrco0 : rco with _ | rc
  all_goals
    try (obtain ⟨a1, a2, rln, hrl⟩ := hrlo rl hrlo0; have a1s : nd ≠ rl := Ne.symm a1; have a2s : rp ≠ rl := Ne.symm a2)
  all_goals
    try (obtain ⟨b1, b2, b3p, rrn, hrr⟩ := hrro rr hrro0; have b1s : nd ≠ rr := Ne.symm b1; have b2s : rp ≠ rr := Ne.symm b2)
  all_goals
    try (have b3 := b3p rl hrlo0; have b3s : rl ≠ rr := Ne.symm b3)
  all_goals
    try (obtain ⟨u1, u2, u3p, u4p, pn, hp, hslot⟩ := hpo p hpo0; have u1s : nd ≠ p := Ne.symm u1; have u2s : rp ≠ p := Ne.symm u2)
  all_goals
    try (have u3 := u3p rl hrlo0; have u3s : rl ≠ p := Ne.symm u3)
  all_goals
    try (have u4 := u4p rr hrro0; have u4s : rr ≠ p := Ne.symm u4)
  all_goals
    try (obtain ⟨w1, w2, w3p, w4p, w5p, rcn, hrc⟩ := hrco rc hrco0; have w1s : nd ≠ rc := Ne.symm w1; have w2s : rp ≠ rc := Ne.symm w2)
  all_goals
    try (have w3 := w3p rl hrlo0; have w3s : rl ≠ rc := Ne.symm w3)
  all_goals
    try (have w4 := w4p rr hrro0; have w4s : rr ≠ rc := Ne.symm w4)
  all_goals
    try (have w5 := w5p p hpo0; have w5s : p ≠ rc := Ne.symm w5)
  all_goals
    try rcases hslot with hps1 | ⟨hps1, hps2⟩
  all_goals
    try clear hrlo hrro hpo hrco
  all_goals
    try clear b3p
  all_goals
    try clear u3p u4p
  all_goals
    try clear w3p w4p w5p
  all_goals
    simp only [*, hReplaceNode, writeParent, writeLeft, writeRight, writeBF,
      hupd, HNode.withParent, HNode.withLeft, HNode.withRight, HNode.withBF,
      Option.some.injEq, if_true, if_false, ite_true, ite_false,
      Option.map, Option.bind, reduceCtorEq, false_implies, implies_true,
      true_implies, forall_eq', exists_eq_left', eq_self_iff_true,
      and_true, true_and, ne_eq]
  all_goals
    try (intros; simp only [*, hupd, HNode.withParent, HNode.withLeft,
      HNode.withRight, HNode.withBF, if_true, if_false, ite_true,
      ite_false, not_false_iff, ne_eq])
  all_goals
    try rfl
  all_goals
    try trivial

set_option maxHeartbeats 6400000 in
/-- Specification of `replaceNode(node, replacement)` when the
replacement is `node`'s own right child: the replacement takes over `node`'s parent slot, left
child and balance factor, while its right link is left empty rather
than pointing at itself; `node` ends fully detached; the replacement's
own former children are orphaned; every other address is untouched. -/
theorem hReplaceNode_rightChildCase {h : Heap K V} {nd rp : Nat}
    {n0 r0 : HNode K V} {po lco rlo rro : Option Nat}
    (q1 : nd ≠ rp)
    (hnd : h nd = some n0) (hn0p : n0.parent = po)
    (hn0l : n0.left = lco) (hn0r : n0.right = some rp)
    (hrp : h rp = some r0) (hr0p : r0.parent = some nd)
    (hr0l : r0.left = rlo) (hr0r : r0.right = rro)
    (hrlo : ∀ rl, rlo = some rl → rl ≠ nd ∧ rl ≠ rp ∧
      ∃ rln, h rl = some rln)
    (hrro : ∀ rr, rro = some rr → rr ≠ nd ∧ rr ≠ rp ∧
      (∀ rl, rlo = some rl → rr ≠ rl) ∧ ∃ rrn, h rr = some rrn)
    (hpo : ∀ p, po = some p → p ≠ nd ∧ p ≠ rp ∧
      (∀ rl, rlo = some rl → p ≠ rl) ∧ (∀ rr, rro = some rr → p ≠ rr) ∧
      ∃ pn, h p = some pn ∧
      (pn.left = some nd ∨ (pn.left ≠ some nd ∧ pn.right = some nd)))
    (hlco : ∀ lc, lco = some lc → lc ≠ nd ∧ lc ≠ rp ∧
      (∀ rl, rlo = some rl → lc ≠ rl) ∧ (∀ rr, rro = some rr → lc ≠ rr) ∧
      (∀ p, po = some p → lc ≠ p) ∧ ∃ lcn, h lc = some lcn) :
    ((hReplaceNode h nd rp).bind (fun h2 => h2 rp) =
      some ⟨r0.key, r0.value, po, lco, none, n0.balanceFactor⟩) ∧
    ((hReplaceNode h nd rp).bind (fun h2 => h2 nd) =
      some ⟨n0.key, n0.value, none, none, none, n0.balanceFactor⟩) ∧
    (∀ p, po = some p → ∃ pn, h p = some pn ∧
      (hReplaceNode h nd rp).bind (fun h2 => h2 p) =
        some (if pn.left = some nd then pn.withLeft (some rp)
          else pn.withRight (some rp))) ∧
    (∀ lc, lco = some lc → ∃ lcn, h lc = some lcn ∧
      (hReplaceNode h nd rp).bind (fun h2 => h2 lc) =
        some (lcn.withParent (some rp))) ∧
    (∀ rl, rlo = some rl → ∃ rln, h rl = some rln ∧
      (hReplaceNode h nd rp).bind (fun h2 => h2 rl) =
        some (rln.withParent none)) ∧
    (∀ rr, rro = some rr → ∃ rrn, h rr = some rrn ∧
      (hReplaceNode h nd rp).bind (fun h2 => h2 rr) =
        some (rrn.withParent none)) ∧
    (∀ x, x ≠ nd → x ≠ rp → (∀ p, po = some p → x ≠ p) →
      (∀ lc, lco = some lc → x ≠ lc) → (∀ rl, rlo = some rl → x ≠ rl) →
      (∀ rr, rro = some rr → x ≠ rr) →
      (hReplaceNode h nd rp).bind (fun h2 => h2 x) = h x) := by
  have s1 : rp ≠ nd := Ne.symm q1
  rcases hrlo0 : rlo with _ | rl <;>
    rcases hrro0 : rro with _ | rr <;>
    rcases hpo0 : po with _ | p <;>
    rcases hlco0 : lco with _ | lc
  all_goals
    try (obtain ⟨a1, a2, rln, hrl⟩ := hrlo rl hrlo0; have a1s : nd ≠ rl := Ne.symm a1; have a2s : rp ≠ rl := Ne.symm a2)
  all_goals
    try (obtain ⟨b1, b2, b3p, rrn, hrr⟩ := hrro rr hrro0; have b1s : nd ≠ rr := Ne.symm b1; have b2s : rp ≠ rr := Ne.symm b2)
  all_goals
    try (have b3 := b3p rl hrlo0; have b3s : rl ≠ rr := Ne.symm b3)
  all_goals
    try (obtain ⟨u1, u2, u3p, u4p, pn, hp, hslot⟩ := hpo p hpo0; have u1s : nd ≠ p := Ne.symm u1; have u2s : rp ≠ p := Ne.symm u2)
  all_goals
    try (have u3 := u3p rl hrlo0; have u3s : rl ≠ p := Ne.symm u3)
  all_goals
    try (have u4 := u4p rr hrro0; have u4s : rr ≠ p := Ne.symm u4)
  all_goals
    try (obtain ⟨v1, v2, v3p, v4p, v5p, lcn, hlc⟩ := hlco lc hlco0; have v1s : nd ≠ lc := Ne.symm v1; have v2s : rp ≠ lc := Ne.symm v2)
  all_goals
    try (have v3 := v3p rl hrlo0; have v3s : rl ≠ lc := Ne.symm v3)
  all_goals
    try (have v4 := v4p rr hrro0; have v4s : rr ≠ lc := Ne.symm v4)
  all_goals
    try (have v5 := v5p p hpo0; have v5s : p ≠ lc := Ne.symm v5)
  all_goals
    try rcases hslot with hps1 | ⟨hps1, hps2⟩
  all_goals
    try clear hrlo hrro hpo hlco
  all_goals
    try clear b3p
  all_goals
    try clear u3p u4p
  all_goals
    try clear v3p v4p v5p
  all_goals
    simp only [*, hReplaceNode, writeParent, writeLeft, writeRight, writeBF,
      hupd, HNode.withParent, HNode.withLeft, HNode.withRight, HNode.withBF,
      Option.some.injEq, if_true, if_false, ite_true, ite_false,
      Option.map, Option.bind, reduceCtorEq, false_implies, implies_true,
      true_implies, forall_eq', exists_eq_left', eq_self_iff_true,
      and_true, true_and, ne_eq]
  all_goals
    try (intros; simp only [*, hupd, HNode.withParent, HNode.withLeft,
      HNode.withRight, HNode.withBF, if_true, if_false, ite_true,
      ite_false, not_false_iff, ne_eq])
  all_goals
    try rfl
  all_goals
    try trivial


/-! ## The claims -/

/-- C1: after every sequence of insert/delete operations run from a
fresh tree (hence after every prefix of such a sequence), every node's
stored balance factor equals the actual height difference
height(right) − height(left) and lies in `{-1, 0, 1}` (`bfOk` plus
`balanced`, equivalently the source's own `checkTree` passes), every
present child's parent reference points back at the node holding it
(`parentOk`), and the in-order key sequence is strictly ascending under
the injected comparison. -/
theorem c1_invariants [DecidableEq K] (hc : LawfulCmp cmp)
    (ops : List (Op K V)) :
    bfOk (run cmp ops).root ∧ balanced (run cmp ops).root ∧
    parentOk none (run cmp ops).root ∧
    checkTreeB (run cmp ops).root = true ∧
    List.Chain' (fun a b => cmp a b < 0) (keys (run cmp ops).root) := by
  obtain ⟨h1, h2, h3, h4, _⟩ := run_inv hc ops
  exact ⟨h1, h2, h3, checkTreeB_of_inv (run cmp ops).root h1 h2 h3,
    bst_chain (run cmp ops).root h4⟩

theorem c1_invariants_witness :
    bfOk (run defaultCompareFunction wOps).root ∧
    balanced (run defaultCompareFunction wOps).root ∧
    parentOk none (run defaultCompareFunction wOps).root ∧
    checkTreeB (run defaultCompareFunction wOps).root = true ∧
    List.Chain' (fun a b => defaultCompareFunction a b < 0)
      (keys (run defaultCompareFunction wOps).root) :=
  c1_invariants defaultCompareFunction_lawful wOps

/-- C2: `insert(key, value)` returns the rejection sentinel (`none`,
the source's `undefined`) exactly when a key comparing equal is already
present, and a rejected insert leaves the engine state — root shape,
balance factors, parent references and size — completely unchanged. -/
theorem c2_insert_reject (hc : LawfulCmp cmp) {t : AvlTree K V}
    (hI : Inv cmp t) (k : K) (v : V) :
    ((t.insert cmp k v).1 = none ↔ ∃ x ∈ keys t.root, cmp k x = 0) ∧
    ((t.insert cmp k v).1 = none → (t.insert cmp k v).2 = t) :=
  ⟨(insert_spec hc hI k v).1, (insert_spec hc hI k v).2.1⟩

theorem c2_insert_reject_witness :
    (((wT1.insert defaultCompareFunction 1 99).1 = none ↔
      ∃ x ∈ keys wT1.root, defaultCompareFunction 1 x = 0) ∧
     ((wT1.insert defaultCompareFunction 1 99).1 = none →
      (wT1.insert defaultCompareFunction 1 99).2 = wT1)) :=
  c2_insert_reject defaultCompareFunction_lawful (by decide) 1 99

/-- C3: `delete(key)` returns `false` with a completely unchanged state
exactly when no equal key is present; when an equal key is present it
returns `true` and the size counter drops by exactly one. -/
theorem c3_delete (hc : LawfulCmp cmp) {t : AvlTree K V} (hI : Inv cmp t)
    (k : K) :
    ((t.delete cmp k).1 = false ↔ ∀ x ∈ keys t.root, cmp k x ≠ 0) ∧
    ((t.delete cmp k).1 = false → (t.delete cmp k).2 = t) ∧
    ((∃ x ∈ keys t.root, cmp k x = 0) →
      (t.delete cmp k).1 = true ∧
      (t.delete cmp k).2.size = t.size - 1) := by
  obtain ⟨hiff, hunch, hsucc⟩ := delete_spec hc hI k
  refine ⟨hiff, hunch, fun hex => ?_⟩
  obtain ⟨x, hx, he⟩ := hex
  have htrue : (t.delete cmp k).1 = true := by
    rcases hb : (t.delete cmp k).1
    · exact absurd he (hiff.mp hb x hx)
    · rfl
  exact ⟨htrue, (hsucc htrue).2.1⟩

theorem c3_delete_witness :
    (((wT1.delete defaultCompareFunction 1).1 = false ↔
      ∀ x ∈ keys wT1.root, defaultCompareFunction 1 x ≠ 0) ∧
     ((wT1.delete defaultCompareFunction 1).1 = false →
      (wT1.delete defaultCompareFunction 1).2 = wT1) ∧
     ((∃ x ∈ keys wT1.root, defaultCompareFunction 1 x = 0) →
      (wT1.delete defaultCompareFunction 1).1 = true ∧
      (wT1.delete defaultCompareFunction 1).2.size = wT1.size - 1)) :=
  c3_delete defaultCompareFunction_lawful (by decide) 1

/-- C4: `rotateLeft(root)` fails exactly when `root` has no right child;
otherwise the right child becomes the new subtree top (with the old root
as its left child and its old left subtree moved under the old root) and
the two balance factors follow the exact closed-form rule: the old
root's factor decreases by 1, further decreased by the new top's former
factor when that was positive; the new top's factor decreases by 1,
further absorbing the old root's resulting factor when that is negative.
`rotateRight` is the mirror image with signs flipped and left/right
swapped. -/
theorem c4_rotations {K V : Type} :
    (∀ (h : Heap K V) (a : Nat) (rn : HNode K V),
      h a = some rn → rn.right = none → hRotateLeft h a = none) ∧
    (∀ (h : Heap K V) (a b : Nat) (rn bn : HNode K V),
      a ≠ b → h a = some rn → h b = some bn → rn.right = some b →
      rn.left ≠ some b → rn.parent = none → bn.parent = some a →
      (∀ lc, bn.left = some lc → lc ≠ a ∧ lc ≠ b ∧ ∃ ln, h lc = some ln) →
      ((hRotateLeft h a).map Prod.snd = some b) ∧
      ((hRotateLeft h a).bind (fun p => p.1 a) =
        some ⟨rn.key, rn.value, some b, rn.left, bn.left,
          rn.balanceFactor - 1 -
            (if bn.balanceFactor > 0 then bn.balanceFactor else 0)⟩) ∧
      ((hRotateLeft h a).bind (fun p => p.1 b) =
        some ⟨bn.key, bn.value, none, some a, bn.right,
          bn.balanceFactor - 1 +
            (if rn.balanceFactor - 1 -
                (if bn.balanceFactor > 0 then bn.balanceFactor else 0) <
                  0 then
              rn.balanceFactor - 1 -
                (if bn.balanceFactor > 0 then bn.balanceFactor else 0)
            else 0)⟩)) ∧
    (∀ (h : Heap K V) (a : Nat) (rn : HNode K V),
      h a = some rn → rn.left = none → hRotateRight h a = none) ∧
    (∀ (h : Heap K V) (a b : Nat) (rn bn : HNode K V),
      a ≠ b → h a = some rn → h b = some bn → rn.left = some b →
      rn.parent = none → bn.parent = some a →
      (∀ rc, bn.right = some rc → rc ≠ a ∧ rc ≠ b ∧ ∃ cn, h rc = some cn) →
      ((hRotateRight h a).map Prod.snd = some b) ∧
      ((hRotateRight h a).bind (fun p => p.1 a) =
        some ⟨rn.key, rn.value, some b, bn.right, rn.right,
          rn.balanceFactor + 1 -
            (if bn.balanceFactor < 0 then bn.balanceFactor else 0)⟩) ∧
      ((hRotateRight h a).bind (fun p => p.1 b) =
        some ⟨bn.key, bn.value, none, bn.left, some a,
          bn.balanceFactor + 1 +
            (if rn.balanceFactor + 1 -
                (if bn.balanceFactor < 0 then bn.balanceFactor else 0) >
                  0 then
              rn.balanceFactor + 1 -
                (if bn.balanceFactor < 0 then bn.balanceFactor else 0)
            else 0)⟩)) := by
  refine ⟨fun h a rn ha hnr => hRotateLeft_noRight ha hnr,
    fun h a b rn bn hab ha hb hr hll hrp hbp hbl => ?_,
    fun h a rn ha hnl => hRotateRight_noLeft ha hnl,
    fun h a b rn bn hab ha hb hl hrp hbp hbr => ?_⟩
  · obtain ⟨k1, k2, k3, _, _⟩ := hRotateLeft_spec hab ha hb hr hll hrp hbp hbl
    exact ⟨k1, k2, k3⟩
  · obtain ⟨k1, k2, k3, _, _⟩ := hRotateRight_spec hab ha hb hl hrp hbp hbr
    exact ⟨k1, k2, k3⟩

theorem c4_rotations_witness :
    hRotateLeft wHeapNoR 1 = none ∧
    (hRotateLeft wHeapL 1).map Prod.snd = some 2 ∧
    (hRotateLeft wHeapL 1).bind (fun p => p.1 1) =
      some ⟨10, 0, some 2, none, none, 0⟩ ∧
    (hRotateLeft wHeapL 1).bind (fun p => p.1 2) =
      some ⟨20, 0, none, some 1, none, -1⟩ ∧
    hRotateRight wHeapNoR 1 = none ∧
    (hRotateRight wHeapR 1).map Prod.snd = some 2 ∧
    (hRotateRight wHeapR 1).bind (fun p => p.1 1) =
      some ⟨10, 0, some 2, none, none, 0⟩ ∧
    (hRotateRight wHeapR 1).bind (fun p => p.1 2) =
      some ⟨5, 0, none, none, some 1, 1⟩ := by
  have h1 := c4_rotations.1 wHeapNoR 1 ⟨10, 0, none, none, none, 0⟩ rfl rfl
  have h2 := c4_rotations.2.1 wHeapL 1 2 ⟨10, 0, none, none, some 2, 1⟩
    ⟨20, 0, some 1, none, none, 0⟩ (by decide) rfl rfl rfl (by decide) rfl
    rfl (fun lc hlc => Option.noConfusion hlc)
  have h3 := c4_rotations.2.2.1 wHeapNoR 1 ⟨10, 0, none, none, none, 0⟩
    rfl rfl
  have h4 := c4_rotations.2.2.2 wHeapR 1 2 ⟨10, 0, none, some 2, none, -1⟩
    ⟨5, 0, some 1, none, none, 0⟩ (by decide) rfl rfl rfl rfl rfl
    (fun rc hrc => Option.noConfusion hrc)
  exact ⟨h1, h2.1, h2.2.1, h2.2.2, h3, h4.1, h4.2.1, h4.2.2⟩

/-- C5: inserting 100, 50, 150, 25, 75, 12 in that order into a fresh
tree yields root key 50 with `left.key = 25`, `left.left.key = 12`,
`right.key = 100`, `right.left.key = 75`, `right.right.key = 150`. -/
theorem c5_insert_scenario :
    rootKey scenario56.root = some 50 ∧
    rootKey (leftT scenario56.root) = some 25 ∧
    rootKey (leftT (leftT scenario56.root)) = some 12 ∧
    rootKey (rightT scenario56.root) = some 100 ∧
    rootKey (leftT (rightT scenario56.root)) = some 75 ∧
    rootKey (rightT (rightT scenario56.root)) = some 150 := by
  decide

/-- C6: `replaceNode(node, replacement)` splices `replacement` into
`node`'s exact former graph position — same parent on the same left or
right slot, same left child, same right child — copies `node`'s
balance factor verbatim, leaves `node` fully detached, and leaves
every other address untouched, for every combination of present or
absent parent and children of `node`, with the replacement either
fully detached, attached anywhere else in the store (with optional
children of its own, which are orphaned), or `node`'s own direct left
or right child; in the two aliased cases the corresponding child link
of `replacement` is left empty rather than pointing at itself. -/
theorem c6_replaceNode {K V : Type} :
    (∀ (h : Heap K V) (nd rp : Nat) (n0 r0 : HNode K V) (po lco rco : Option Nat),
    (nd ≠ rp) →
    (h nd = some n0) →
    (n0.parent = po) →
    (n0.left = lco) →
    (n0.right = rco) →
    (h rp = some r0) →
    (r0.parent = none) →
    (r0.left = none) →
    (r0.right = none) →
    (∀ p, po = some p → p ≠ nd ∧ p ≠ rp ∧ ∃ pn, h p = some pn ∧
          (pn.left = some nd ∨ (pn.left ≠ some nd ∧ pn.right = some nd))) →
    (∀ lc, lco = some lc → lc ≠ nd ∧ lc ≠ rp ∧
          (∀ p, po = some p → lc ≠ p) ∧ ∃ lcn, h lc = some lcn) →
    (∀ rc, rco = some rc → rc ≠ nd ∧ rc ≠ rp ∧
          (∀ p, po = some p → rc ≠ p) ∧ (∀ lc, lco = some lc → rc ≠ lc) ∧
          ∃ rcn, h rc = some rcn) →
    ((hReplaceNode h nd rp).bind (fun h2 => h2 rp) =
          some ⟨r0.key, r0.value, po, lco, rco, n0.balanceFactor⟩) ∧
        ((hReplaceNode h nd rp).bind (fun h2 => h2 nd) =
          some ⟨n0.key, n0.value, none, none, none, n0.balanceFactor⟩) ∧
        (∀ p, po = some p → ∃ pn, h p = some pn ∧
          (hReplaceNode h nd rp).bind (fun h2 => h2 p) =
            some (if pn.left = some nd then pn.withLeft (some rp)
              else pn.withRight (some rp))) ∧
        (∀ lc, lco = some lc → ∃ lcn, h lc = some lcn ∧
          (hReplaceNode h nd rp).bind (fun h2 => h2 lc) =
            some (lcn.withParent (some rp))) ∧
        (∀ rc, rco = some rc → ∃ rcn, h rc = some rcn ∧
          (hReplaceNode h nd rp).bind (fun h2 => h2 rc) =
            some (rcn.withParent (some rp))) ∧
        (∀ x, x ≠ nd → x ≠ rp → (∀ p, po = some p → x ≠ p) →
          (∀ lc, lco = some lc → x ≠ lc) → (∀ rc, rco = some rc → x ≠ rc) →
          (hReplaceNode h nd rp).bind (fun h2 => h2 x) = h x)) ∧
    (∀ (h : Heap K V) (nd rp rpp : Nat) (n0 r0 rppn : HNode K V) (po lco rco rlo rro : Option Nat),
    (nd ≠ rp) →
    (rpp ≠ nd) →
    (rpp ≠ rp) →
    (h nd = some n0) →
    (n0.parent = po) →
    (n0.left = lco) →
    (n0.right = rco) →
    (h rp = some r0) →
    (r0.parent = some rpp) →
    (r0.left = rlo) →
    (r0.right = rro) →
    (h rpp = some rppn) →
    (rppn.left = some rp ∨
          (rppn.left ≠ some rp ∧ rppn.right = some rp)) →
    (∀ rl, rlo = some rl → rl ≠ nd ∧ rl ≠ rp ∧ rl ≠ rpp ∧
          ∃ rln, h rl = some rln) →
    (∀ rr, rro = some rr → rr ≠ nd ∧ rr ≠ rp ∧ rr ≠ rpp ∧
          (∀ rl, rlo = some rl → rr ≠ rl) ∧ ∃ rrn, h rr = some rrn) →
    (∀ p, po = some p → p ≠ nd ∧ p ≠ rp ∧ p ≠ rpp ∧
          (∀ rl, rlo = some rl → p ≠ rl) ∧ (∀ rr, rro = some rr → p ≠ rr) ∧
          ∃ pn, h p = some pn ∧
          (pn.left = some nd ∨ (pn.left ≠ some nd ∧ pn.right = some nd))) →
    (∀ lc, lco = some lc → lc ≠ nd ∧ lc ≠ rp ∧ lc ≠ rpp ∧
          (∀ rl, rlo = some rl → lc ≠ rl) ∧ (∀ rr, rro = some rr → lc ≠ rr) ∧
          (∀ p, po = some p → lc ≠ p) ∧ ∃ lcn, h lc = some lcn) →
    (∀ rc, rco = some rc → rc ≠ nd ∧ rc ≠ rp ∧ rc ≠ rpp ∧
          (∀ rl, rlo = some rl → rc ≠ rl) ∧ (∀ rr, rro = some rr → rc ≠ rr) ∧
          (∀ p, po = some p → rc ≠ p) ∧ (∀ lc, lco = some lc → rc ≠ lc) ∧
          ∃ rcn, h rc = some rcn) →
    ((hReplaceNode h nd rp).bind (fun h2 => h2 rp) =
          some ⟨r0.key, r0.value, po, lco, rco, n0.balanceFactor⟩) ∧
        ((hReplaceNode h nd rp).bind (fun h2 => h2 nd) =
          some ⟨n0.key, n0.value, none, none, none, n0.balanceFactor⟩) ∧
        ((hReplaceNode h nd rp).bind (fun h2 => h2 rpp) =
          some (if rppn.left = some rp then rppn.withLeft none
            else rppn.withRight none)) ∧
        (∀ p, po = some p → ∃ pn, h p = some pn ∧
          (hReplaceNode h nd rp).bind (fun h2 => h2 p) =
            some (if pn.left = some nd then pn.withLeft (some rp)
              else pn.withRight (some rp))) ∧
        (∀ lc, lco = some lc → ∃ lcn, h lc = some lcn ∧
          (hReplaceNode h nd rp).bind (fun h2 => h2 lc) =
            some (lcn.withParent (some rp))) ∧
        (∀ rc, rco = some rc → ∃ rcn, h rc = some rcn ∧
          (hReplaceNode h nd rp).bind (fun h2 => h2 rc) =
            some (rcn.withParent (some rp))) ∧
        (∀ rl, rlo = some rl → ∃ rln, h rl = some rln ∧
          (hReplaceNode h nd rp).bind (fun h2 => h2 rl) =
            some (rln.withParent none)) ∧
        (∀ rr, rro = some rr → ∃ rrn, h rr = some rrn ∧
          (hReplaceNode h nd rp).bind (fun h2 => h2 rr) =
            some (rrn.withParent none)) ∧
        (∀ x, x ≠ nd → x ≠ rp → x ≠ rpp → (∀ p, po = some p → x ≠ p) →
          (∀ lc, lco = some lc → x ≠ lc) → (∀ rc, rco = some rc → x ≠ rc) →
          (∀ rl, rlo = some rl → x ≠ rl) → (∀ rr, rro = some rr → x ≠ rr) →
          (hReplaceNode h nd rp).bind (fun h2 => h2 x) = h x)) ∧
    (∀ (h : Heap K V) (nd rp : Nat) (n0 r0 : HNode K V) (po rco rlo rro : Option Nat),
    (nd ≠ rp) →
    (h nd = some n0) →
    (n0.parent = po) →
    (n0.left = some rp) →
    (n0.right = rco) →
    (h rp = some r0) →
    (r0.parent = some nd) →
    (r0.left = rlo) →
    (r0.right = rro) →
    (∀ rl, rlo = some rl → rl ≠ nd ∧ rl ≠ rp ∧
          ∃ rln, h rl = some rln) →
    (∀ rr, rro = some rr → rr ≠ nd ∧ rr ≠ rp ∧
          (∀ rl, rlo = some rl → rr ≠ rl) ∧ ∃ rrn, h rr = some rrn) →
    (∀ p, po = some p → p ≠ nd ∧ p ≠ rp ∧
          (∀ rl, rlo = some rl → p ≠ rl) ∧ (∀ rr, rro = some rr → p ≠ rr) ∧
          ∃ pn, h p = some pn ∧
          (pn.left = some nd ∨ (pn.left ≠ some nd ∧ pn.right = some nd))) →
    (∀ rc, rco = some rc → rc ≠ nd ∧ rc ≠ rp ∧
          (∀ rl, rlo = some rl → rc ≠ rl) ∧ (∀ rr, rro = some rr → rc ≠ rr) ∧
          (∀ p, po = some p → rc ≠ p) ∧ ∃ rcn, h rc = some rcn) →
    ((hReplaceNode h nd rp).bind (fun h2 => h2 rp) =
          some ⟨r0.key, r0.value, po, none, rco, n0.balanceFactor⟩) ∧
        ((hReplaceNode h nd rp).bind (fun h2 => h2 nd) =
          some ⟨n0.key, n0.value, none, none, none, n0.balanceFactor⟩) ∧
        (∀ p, po = some p → ∃ pn, h p = some pn ∧
          (hReplaceNode h nd rp).bind (fun h2 => h2 p) =
            some (if pn.left = some nd then pn.withLeft (some rp)
              else pn.withRight (some rp))) ∧
        (∀ rc, rco = some rc → ∃ rcn, h rc = some rcn ∧
          (hReplaceNode h nd rp).bind (fun h2 => h2 rc) =
            some (rcn.withParent (some rp))) ∧
        (∀ rl, rlo = some rl → ∃ rln, h rl = some rln ∧
          (hReplaceNode h nd rp).bind (fun h2 => h2 rl) =
            some (rln.withParent none)) ∧
        (∀ rr, rro = some rr → ∃ rrn, h rr = some rrn ∧
          (hReplaceNode h nd rp).bind (fun h2 => h2 rr) =
            some (rrn.withParent none)) ∧
        (∀ x, x ≠ nd → x ≠ rp → (∀ p, po = some p → x ≠ p) →
          (∀ rc, rco = some rc → x ≠ rc) → (∀ rl, rlo = some rl → x ≠ rl) →
          (∀ rr, rro = some rr → x ≠ rr) →
          (hReplaceNode h nd rp).bind (fun h2 => h2 x) = h x)) ∧
    (∀ (h : Heap K V) (nd rp : Nat) (n0 r0 : HNode K V) (po lco rlo rro : Option Nat),
    (nd ≠ rp) →
    (h nd = some n0) →
    (n0.parent = po) →
    (n0.left = lco) →
    (n0.right = some rp) →
    (h rp = some r0) →
    (r0.parent = some nd) →
    (r0.left = rlo) →
    (r0.right = rro) →
    (∀ rl, rlo = some rl → rl ≠ nd ∧ rl ≠ rp ∧
          ∃ rln, h rl = some rln) →
    (∀ rr, rro = some rr → rr ≠ nd ∧ rr ≠ rp ∧
          (∀ rl, rlo = some rl → rr ≠ rl) ∧ ∃ rrn, h rr = some rrn) →
    (∀ p, po = some p → p ≠ nd ∧ p ≠ rp ∧
          (∀ rl, rlo = some rl → p ≠ rl) ∧ (∀ rr, rro = some rr → p ≠ rr) ∧
          ∃ pn, h p = some pn ∧
          (pn.left = some nd ∨ (pn.left ≠ some nd ∧ pn.right = some nd))) →
    (∀ lc, lco = some lc → lc ≠ nd ∧ lc ≠ rp ∧
          (∀ rl, rlo = some rl → lc ≠ rl) ∧ (∀ rr, rro = some rr → lc ≠ rr) ∧
          (∀ p, po = some p → lc ≠ p) ∧ ∃ lcn, h lc = some lcn) →
    ((hReplaceNode h nd rp).bind (fun h2 => h2 rp) =
          some ⟨r0.key, r0.value, po, lco, none, n0.balanceFactor⟩) ∧
        ((hReplaceNode h nd rp).bind (fun h2 => h2 nd) =
          some ⟨n0.key, n0.value, none, none, none, n0.balanceFactor⟩) ∧
        (∀ p, po = some p → ∃ pn, h p = some pn ∧
          (hReplaceNode h nd rp).bind (fun h2 => h2 p) =
            some (if pn.left = some nd then pn.withLeft (some rp)
              else pn.withRight (some rp))) ∧
        (∀ lc, lco = some lc → ∃ lcn, h lc = some lcn ∧
          (hReplaceNode h nd rp).bind (fun h2 => h2 lc) =
            some (lcn.withParent (some rp))) ∧
        (∀ rl, rlo = some rl → ∃ rln, h rl = some rln ∧
          (hReplaceNode h nd rp).bind (fun h2 => h2 rl) =
            some (rln.withParent none)) ∧
        (∀ rr, rro = some rr → ∃ rrn, h rr = some rrn ∧
          (hReplaceNode h nd rp).bind (fun h2 => h2 rr) =
            some (rrn.withParent none)) ∧
        (∀ x, x ≠ nd → x ≠ rp → (∀ p, po = some p → x ≠ p) →
          (∀ lc, lco = some lc → x ≠ lc) → (∀ rl, rlo = some rl → x ≠ rl) →
          (∀ rr, rro = some rr → x ≠ rr) →
          (hReplaceNode h nd rp).bind (fun h2 => h2 x) = h x)) := by
  refine ⟨?_, ?_, ?_, ?_⟩
  · intro h nd rp n0 r0 po lco rco q1 hnd hn0p hn0l hn0r hrp hr0p hr0l
      hr0r hpo hlco hrco
    exact hReplaceNode_detached q1 hnd hn0p hn0l hn0r hrp hr0p hr0l hr0r
      hpo hlco hrco
  · intro h nd rp rpp n0 r0 rppn po lco rco rlo rro q1 q2 q3 hnd hn0p
      hn0l hn0r hrp hr0p hr0l hr0r hrpp hrslot hrlo hrro hpo hlco hrco
    exact hReplaceNode_attached q1 q2 q3 hnd hn0p hn0l hn0r hrp hr0p
      hr0l hr0r hrpp hrslot hrlo hrro hpo hlco hrco
  · intro h nd rp n0 r0 po rco rlo rro q1 hnd hn0p hn0l hn0r hrp hr0p
      hr0l hr0r hrlo hrro hpo hrco
    exact hReplaceNode_leftChildCase q1 hnd hn0p hn0l hn0r hrp hr0p hr0l
      hr0r hrlo hrro hpo hrco
  · intro h nd rp n0 r0 po lco rlo rro q1 hnd hn0p hn0l hn0r hrp hr0p
      hr0l hr0r hrlo hrro hpo hlco
    exact hReplaceNode_rightChildCase q1 hnd hn0p hn0l hn0r hrp hr0p
      hr0l hr0r hrlo hrro hpo hlco

theorem c6_replaceNode_witness :
    ((hReplaceNode wHeapA 1 2).bind (fun h2 => h2 2) =
      some ⟨60, 0, some 3, some 4, some 5, 1⟩) ∧
    ((hReplaceNode wHeapA 1 2).bind (fun h2 => h2 1) =
      some ⟨50, 0, none, none, none, 1⟩) ∧
    ((hReplaceNode wHeapA 1 2).bind (fun h2 => h2 3) =
      some ⟨80, 0, none, some 2, none, 0⟩) ∧
    ((hReplaceNode wHeapA 1 2).bind (fun h2 => h2 4) =
      some ⟨40, 0, some 2, none, none, 0⟩) ∧
    ((hReplaceNode wHeapA 1 2).bind (fun h2 => h2 5) =
      some ⟨70, 0, some 2, none, none, 0⟩) ∧
    ((hReplaceNode wHeapA 1 2).bind (fun h2 => h2 9) = none) ∧
    ((hReplaceNode wHeapG 1 2).bind (fun h2 => h2 2) =
      some ⟨60, 0, some 3, some 4, some 5, 1⟩) ∧
    ((hReplaceNode wHeapG 1 2).bind (fun h2 => h2 1) =
      some ⟨50, 0, none, none, none, 1⟩) ∧
    ((hReplaceNode wHeapG 1 2).bind (fun h2 => h2 6) =
      some ⟨65, 0, some 5, none, none, -1⟩) ∧
    ((hReplaceNode wHeapG 1 2).bind (fun h2 => h2 3) =
      some ⟨80, 0, none, some 2, none, 0⟩) ∧
    ((hReplaceNode wHeapG 1 2).bind (fun h2 => h2 4) =
      some ⟨40, 0, some 2, none, none, 0⟩) ∧
    ((hReplaceNode wHeapG 1 2).bind (fun h2 => h2 5) =
      some ⟨70, 0, some 2, none, some 6, 1⟩) ∧
    ((hReplaceNode wHeapG 1 2).bind (fun h2 => h2 7) =
      some ⟨58, 0, none, none, none, 0⟩) ∧
    ((hReplaceNode wHeapG 1 2).bind (fun h2 => h2 8) =
      some ⟨62, 0, none, none, none, 0⟩) ∧
    ((hReplaceNode wHeapG 1 2).bind (fun h2 => h2 9) = none) ∧
    ((hReplaceNode wHeapCL 1 2).bind (fun h2 => h2 2) =
      some ⟨40, 0, some 3, none, some 5, -1⟩) ∧
    ((hReplaceNode wHeapCL 1 2).bind (fun h2 => h2 1) =
      some ⟨50, 0, none, none, none, -1⟩) ∧
    ((hReplaceNode wHeapCL 1 2).bind (fun h2 => h2 3) =
      some ⟨80, 0, none, some 2, none, 0⟩) ∧
    ((hReplaceNode wHeapCL 1 2).bind (fun h2 => h2 5) =
      some ⟨70, 0, some 2, none, none, 0⟩) ∧
    ((hReplaceNode wHeapCL 1 2).bind (fun h2 => h2 4) =
      some ⟨35, 0, none, none, none, 0⟩) ∧
    ((hReplaceNode wHeapCL 1 2).bind (fun h2 => h2 9) = none) ∧
    ((hReplaceNode wHeapC 1 2).bind (fun h2 => h2 2) =
      some ⟨60, 0, some 3, some 4, none, 1⟩) ∧
    ((hReplaceNode wHeapC 1 2).bind (fun h2 => h2 1) =
      some ⟨50, 0, none, none, none, 1⟩) ∧
    ((hReplaceNode wHeapC 1 2).bind (fun h2 => h2 3) =
      some ⟨80, 0, none, some 2, none, 0⟩) ∧
    ((hReplaceNode wHeapC 1 2).bind (fun h2 => h2 4) =
      some ⟨40, 0, some 2, none, none, 0⟩) ∧
    ((hReplaceNode wHeapC 1 2).bind (fun h2 => h2 5) =
      some ⟨65, 0, none, none, none, 0⟩) ∧
    ((hReplaceNode wHeapC 1 2).bind (fun h2 => h2 9) = none) := by
  have hA := c6_replaceNode.1 wHeapA 1 2 ⟨50, 0, some 3, some 4, some 5, 1⟩
    ⟨60, 0, none, none, none, 7⟩ (some 3) (some 4) (some 5) (by decide)
    rfl rfl rfl rfl rfl rfl rfl rfl
    (forall_some_intro ⟨by decide, by decide,
      ⟨80, 0, none, some 1, none, 0⟩, rfl, Or.inl rfl⟩)
    (forall_some_intro ⟨by decide, by decide,
      forall_some_intro (by decide), ⟨40, 0, some 1, none, none, 0⟩, rfl⟩)
    (forall_some_intro ⟨by decide, by decide,
      forall_some_intro (by decide), forall_some_intro (by decide),
      ⟨70, 0, some 1, none, none, 0⟩, rfl⟩)
  obtain ⟨a1, a2, a3p, a4p, a5p, a6p⟩ := hA
  obtain ⟨pn3, hpn3, a3⟩ := a3p 3 rfl
  have hpn3e : some (⟨80, 0, none, some 1, none, 0⟩ : HNode Int Int) =
    some pn3 := hpn3
  obtain rfl := Option.some.inj hpn3e
  obtain ⟨lcn4, hlcn4, a4⟩ := a4p 4 rfl
  have hlcn4e : some (⟨40, 0, some 1, none, none, 0⟩ : HNode Int Int) =
    some lcn4 := hlcn4
  obtain rfl := Option.some.inj hlcn4e
  obtain ⟨rcn5, hrcn5, a5⟩ := a5p 5 rfl
  have hrcn5e : some (⟨70, 0, some 1, none, none, 0⟩ : HNode Int Int) =
    some rcn5 := hrcn5
  obtain rfl := Option.some.inj hrcn5e
  have a6 := a6p 9 (by decide) (by decide) (forall_some_intro (by decide))
    (forall_some_intro (by decide)) (forall_some_intro (by decide))
  have hB := c6_replaceNode.2.1 wHeapG 1 2 6
    ⟨50, 0, some 3, some 4, some 5, 1⟩ ⟨60, 0, some 6, some 7, some 8, 0⟩
    ⟨65, 0, some 5, some 2, none, -1⟩ (some 3) (some 4) (some 5) (some 7)
    (some 8) (by decide) (by decide) (by decide)
    rfl rfl rfl rfl rfl rfl rfl rfl rfl (Or.inl rfl)
    (forall_some_intro ⟨by decide, by decide, by decide,
      ⟨58, 0, some 2, none, none, 0⟩, rfl⟩)
    (forall_some_intro ⟨by decide, by decide, by decide,
      forall_some_intro (by decide), ⟨62, 0, some 2, none, none, 0⟩, rfl⟩)
    (forall_some_intro ⟨by decide, by decide, by decide,
      forall_some_intro (by decide), forall_some_intro (by decide),
      ⟨80, 0, none, some 1, none, 0⟩, rfl, Or.inl rfl⟩)
    (forall_some_intro ⟨by decide, by decide, by decide,
      forall_some_intro (by decide), forall_some_intro (by decide),
      forall_some_intro (by decide), ⟨40, 0, some 1, none, none, 0⟩, rfl⟩)
    (forall_some_intro ⟨by decide, by decide, by decide,
      forall_some_intro (by decide), forall_some_intro (by decide),
      forall_some_intro (by decide), forall_some_intro (by decide),
      ⟨70, 0, some 1, none, some 6, 1⟩, rfl⟩)
  obtain ⟨b1, b2, b3, b4p, b5p, b6p, b7p, b8p, b9p⟩ := hB
  obtain ⟨pnG, hpnG, b4⟩ := b4p 3 rfl
  have hpnGe : some (⟨80, 0, none, some 1, none, 0⟩ : HNode Int Int) =
    some pnG := hpnG
  obtain rfl := Option.some.inj hpnGe
  obtain ⟨lcnG, hlcnG, b5⟩ := b5p 4 rfl
  have hlcnGe : some (⟨40, 0, some 1, none, none, 0⟩ : HNode Int Int) =
    some lcnG := hlcnG
  obtain rfl := Option.some.inj hlcnGe
  obtain ⟨rcnG, hrcnG, b6⟩ := b6p 5 rfl
  have hrcnGe : some (⟨70, 0, some 1, none, some 6, 1⟩ : HNode Int Int) =
    some rcnG := hrcnG
  obtain rfl := Option.some.inj hrcnGe
  obtain ⟨rlnG, hrlnG, b7⟩ := b7p 7 rfl
  have hrlnGe : some (⟨58, 0, some 2, none, none, 0⟩ : HNode Int Int) =
    some rlnG := hrlnG
  obtain rfl := Option.some.inj hrlnGe
  obtain ⟨rrnG, hrrnG, b8⟩ := b8p 8 rfl
  have hrrnGe : some (⟨62, 0, some 2, none, none, 0⟩ : HNode Int Int) =
    some rrnG := hrrnG
  obtain rfl := Option.some.inj hrrnGe
  have b9 := b9p 9 (by decide) (by decide) (by decide)
    (forall_some_intro (by decide)) (forall_some_intro (by decide))
    (forall_some_intro (by decide)) (forall_some_intro (by decide))
    (forall_some_intro (by decide))
  have hC := c6_replaceNode.2.2.1 wHeapCL 1 2
    ⟨50, 0, some 3, some 2, some 5, -1⟩ ⟨40, 0, some 1, some 4, none, -1⟩
    (some 3) (some 5) (some 4) none (by decide)
    rfl rfl rfl rfl rfl rfl rfl rfl
    (forall_some_intro ⟨by decide, by decide,
      ⟨35, 0, some 2, none, none, 0⟩, rfl⟩)
    (fun rr hrr => Option.noConfusion hrr)
    (forall_some_intro ⟨by decide, by decide,
      forall_some_intro (by decide), fun rr hrr => Option.noConfusion hrr,
      ⟨80, 0, none, some 1, none, 0⟩, rfl, Or.inl rfl⟩)
    (forall_some_intro ⟨by decide, by decide,
      forall_some_intro (by decide), fun rr hrr => Option.noConfusion hrr,
      forall_some_intro (by decide), ⟨70, 0, some 1, none, none, 0⟩, rfl⟩)
  obtain ⟨c1, c2, c3p, c4p, c5p, _, c7p⟩ := hC
  obtain ⟨pnC, hpnC, c3⟩ := c3p 3 rfl
  have hpnCe : some (⟨80, 0, none, some 1, none, 0⟩ : HNode Int Int) =
    some pnC := hpnC
  obtain rfl := Option.some.inj hpnCe
  obtain ⟨rcnC, hrcnC, c4⟩ := c4p 5 rfl
  have hrcnCe : some (⟨70, 0, some 1, none, none, 0⟩ : HNode Int Int) =
    some rcnC := hrcnC
  obtain rfl := Option.some.inj hrcnCe
  obtain ⟨rlnC, hrlnC, c5⟩ := c5p 4 rfl
  have hrlnCe : some (⟨35, 0, some 2, none, none, 0⟩ : HNode Int Int) =
    some rlnC := hrlnC
  obtain rfl := Option.some.inj hrlnCe
  have c7 := c7p 9 (by decide) (by decide) (forall_some_intro (by decide))
    (forall_some_intro (by decide)) (forall_some_intro (by decide))
    (fun rr hrr => Option.noConfusion hrr)
  have hD := c6_replaceNode.2.2.2 wHeapC 1 2
    ⟨50, 0, some 3, some 4, some 2, 1⟩ ⟨60, 0, some 1, none, some 5, 1⟩
    (some 3) (some 4) none (some 5) (by decide)
    rfl rfl rfl rfl rfl rfl rfl rfl
    (fun rl hrl => Option.noConfusion hrl)
    (forall_some_intro ⟨by decide, by decide,
      fun rl hrl => Option.noConfusion hrl,
      ⟨65, 0, some 2, none, none, 0⟩, rfl⟩)
    (forall_some_intro ⟨by decide, by decide,
      fun rl hrl => Option.noConfusion hrl, forall_some_intro (by decide),
      ⟨80, 0, none, some 1, none, 0⟩, rfl, Or.inl rfl⟩)
    (forall_some_intro ⟨by decide, by decide,
      fun rl hrl => Option.noConfusion hrl, forall_some_intro (by decide),
      forall_some_intro (by decide), ⟨40, 0, some 1, none, none, 0⟩, rfl⟩)
  obtain ⟨d1, d2, d3p, d4p, _, d6p, d7p⟩ := hD
  obtain ⟨pnD, hpnD, d3⟩ := d3p 3 rfl
  have hpnDe : some (⟨80, 0, none, some 1, none, 0⟩ : HNode Int Int) =
    some pnD := hpnD
  obtain rfl := Option.some.inj hpnDe
  obtain ⟨lcnD, hlcnD, d4⟩ := d4p 4 rfl
  have hlcnDe : some (⟨40, 0, some 1, none, none, 0⟩ : HNode Int Int) =
    some lcnD := hlcnD
  obtain rfl := Option.some.inj hlcnDe
  obtain ⟨rrnD, hrrnD, d6⟩ := d6p 5 rfl
  have hrrnDe : some (⟨65, 0, some 2, none, none, 0⟩ : HNode Int Int) =
    some rrnD := hrrnD
  obtain rfl := Option.some.inj hrrnDe
  have d7 := d7p 9 (by decide) (by decide) (forall_some_intro (by decide))
    (forall_some_intro (by decide)) (fun rl hrl => Option.noConfusion hrl)
    (forall_some_intro (by decide))
  exact ⟨a1, a2, a3, a4, a5, a6, b1, b2, b3, b4, b5, b6, b7, b8, b9,
    c1, c2, c3, c4, c5, c7, d1, d2, d3, d4, d6, d7⟩

/-- C7: after a successful `insert(key, value)`, an immediate
`get(key)` returns the inserted value; after a successful
`delete(key)`, an immediate `get(key)` returns the absent sentinel. -/
theorem c7_roundtrip (hc : LawfulCmp cmp) {t : AvlTree K V}
    (hI : Inv cmp t) (k : K) (v : V) :
    ((t.insert cmp k v).1 ≠ none →
      (((t.insert cmp k v).2).getSt cmp k).1 = some v) ∧
    ((t.delete cmp k).1 = true →
      (((t.delete cmp k).2).getSt cmp k).1 = none) := by
  constructor
  · intro h
    exact ((insert_spec hc hI k v).2.2 h).2.2.2
  · intro h
    exact getT_none (((delete_spec hc hI k).2.2 h).2.2)

theorem c7_roundtrip_witness :
    (((wT1.insert defaultCompareFunction 2 42).2).getSt
      defaultCompareFunction 2).1 = some 42 ∧
    (((wT1.delete defaultCompareFunction 1).2).getSt
      defaultCompareFunction 1).1 = none :=
  ⟨(c7_roundtrip defaultCompareFunction_lawful (by decide) 2 42).1
      (by decide),
   (c7_roundtrip defaultCompareFunction_lawful (by decide) 1 0).2
      (by decide)⟩

/-- C8: `at(index)` fails with the out-of-bounds error exactly when
`index` lies outside `[0, size)`; inside the range it returns the entry
at rank `index` of the in-order sequence. -/
theorem c8_at {t : AvlTree K V} (hI : Inv cmp t) (index : Int) :
    (t.atIndex index = Except.error () ↔ index < 0 ∨ index ≥ t.size) ∧
    (¬(index < 0 ∨ index ≥ t.size) →
      ∃ h2 : index.toNat < (inorder t.root).length,
        t.atIndex index =
          Except.ok (some ((inorder t.root).get ⟨index.toNat, h2⟩))) :=
  atIndex_spec hI index

theorem c8_at_witness :
    wT2.atIndex 3 = Except.error () ∧ wT2.atIndex 1 = Except.ok (some (2, 20)) := by
  constructor
  · exact (@c8_at Int Int defaultCompareFunction wT2 (by decide) 3).1.mpr
      (by decide)
  · obtain ⟨h2, he⟩ := (@c8_at Int Int defaultCompareFunction wT2
      (by decide) 1).2 (by decide)
    rw [he]
    rfl

/-- C9: the read-only operations (`has`, `get`, `getNode`, `minNode`,
`maxNode`, in-order iteration) return their result together with an
engine state equal to the input state — they perform no mutation. -/
theorem c9_readonly (t : AvlTree K V) (k : K) :
    t.hasSt cmp k = (hasT cmp k t.root, t) ∧
    t.getSt cmp k = (getT cmp k t.root, t) ∧
    t.getNodeSt cmp k = (getNodeT cmp k t.root, t) ∧
    t.minNodeSt = (minNodeT t.root, t) ∧
    t.maxNodeSt = (maxNodeT t.root, t) ∧
    t.iterSt = (iter t.root, t) :=
  ⟨rfl, rfl, rfl, rfl, rfl, rfl⟩

/-- C10: `clear()` resets the engine in one step regardless of prior
contents: size 0, no root, every lookup misses, iteration is empty. -/
theorem c10_clear (t : AvlTree K V) (k : K) :
    (t.clear).size = 0 ∧ (t.clear).root = PTree.nil ∧
    getT cmp k (t.clear).root = none ∧ iter (t.clear).root = [] := by
  refine ⟨rfl, rfl, rfl, ?_⟩
  simp [AvlTree.clear, iter, iterGo]

end Lemmas

end QAvl
